import Mathlib

/-!
# tsh2csv: line parsing and pairing reconciliation

A shallow embedding of `main.go` of `houtens/tsh2csv`: `parseFirstLastName`,
`parseResults`, `countMaxRoundsPlayers` and `processMatches` with the functions they
call, and the properties of the specification that they have or do not have.

* Go strings are lists of characters (`GoString`).
* Go `int` is 64 bit: values are `Int`, and an arithmetic result that can leave the
  range of `int` is passed through `wrap64`. An index of a slice plus one cannot.
* A Go `map[string]Match` is an association list; lookup takes the first entry with
  the key. Iteration over the map follows the list.
* `log.Fatal`, `os.Exit` and run-time panics end the process: functions that can reach
  them return `Except Err _`, the error saying which condition ended the run.
* The pattern `Rx` is a list of pieces matched by a backtracking search that tries the
  longest repetition first; this is the match that Go's `regexp` returns.
-/

set_option autoImplicit false

namespace Tsh2csv

/-! ## Strings and integers of the Go runtime -/

/-- A Go string. -/
abbrev GoString := List Char

/-- Two's complement wrap-around of a 64 bit Go `int`. -/
def wrap64 (x : Int) : Int := (x + 9223372036854775808) % 18446744073709551616 - 9223372036854775808

/-- The largest Go `int`. -/
def maxInt64 : Int := 9223372036854775807

/-- The smallest Go `int`. -/
def minInt64 : Int := -9223372036854775808

/-- The largest `uint64`. -/
def maxUint64 : Nat := 18446744073709551615

/-- The errors that reach `log.Fatal` (or a panic) in `main.go`. -/
inductive Err where
  | ErrMatchNotFound
  | ErrMismatchBoards
  | ErrMismatchedStarts
  | ErrSyntax
  | ErrRange
  | indexOutOfRange
  | parseFailed
  deriving DecidableEq, Repr

/-- The decimal digit with value `d`. -/
def digitChar (d : Nat) : Char := Char.ofNat (48 + d)

/-- Decimal digits of `n`, most significant first, in front of `acc`; `fuel` bounds the
number of digits. -/
def natDigits : Nat → Nat → List Char → List Char
  | 0, _, acc => acc
  | fuel + 1, n, acc =>
    if n / 10 = 0 then digitChar (n % 10) :: acc
    else natDigits fuel (n / 10) (digitChar (n % 10) :: acc)

/-- The verb `%d` of `fmt` on a natural number. -/
def renderNat (n : Nat) : GoString := natDigits (n + 1) n []

/-- The verb `%d` of `fmt` on an `int`. -/
def renderInt : Int → GoString
  | Int.ofNat n => renderNat n
  | Int.negSucc n => '-' :: renderNat (n + 1)

/-- The digit loop of `strconv.ParseUint(s, 10, 64)`: a byte that is no decimal digit is a
syntax error, a value beyond `uint64` a range error (reported before the rest is read). -/
def parseUintLoop : List Char → Nat → Nat × Option Err
  | [], n => (n, none)
  | c :: cs, n =>
    if 48 ≤ c.toNat ∧ c.toNat ≤ 57 then
      if n ≥ maxUint64 / 10 + 1 then (maxUint64, some Err.ErrRange)
      else if n * 10 + (c.toNat - 48) > maxUint64 then (maxUint64, some Err.ErrRange)
      else parseUintLoop cs (n * 10 + (c.toNat - 48))
    else (0, some Err.ErrSyntax)

/-- Go `strconv.ParseUint(s, 10, 64)`. -/
def parseUint (s : GoString) : Nat × Option Err :=
  match s with
  | [] => (0, some Err.ErrSyntax)
  | _ => parseUintLoop s 0

/-- The part of `strconv.ParseInt` after the sign has been taken off. -/
def parseSigned (neg : Bool) (s : GoString) : Int × Option Err :=
  match parseUint s with
  | (_, some Err.ErrSyntax) => (0, some Err.ErrSyntax)
  | (un, _) =>
    if !neg ∧ un ≥ 9223372036854775808 then (maxInt64, some Err.ErrRange)
    else if neg ∧ un > 9223372036854775808 then (minInt64, some Err.ErrRange)
    else if neg then (-(un : Int), none) else ((un : Int), none)

/-- Go `strconv.Atoi` on a 64 bit platform: the value and the error, if any. With a syntax
error the value is 0, with a range error it is the nearest `int`. -/
def atoi (s : GoString) : Int × Option Err :=
  match s with
  | [] => (0, some Err.ErrSyntax)
  | '+' :: rest => parseSigned false rest
  | '-' :: rest => parseSigned true rest
  | _ => parseSigned false s

/-- Go `strings.Split(s, sep)` for a one byte separator. -/
def split (sep : Char) : GoString → List GoString
  | [] => [[]]
  | c :: cs =>
    if c = sep then [] :: split sep cs
    else
      match split sep cs with
      | [] => [[c]]
      | h :: t => (c :: h) :: t

/-! ## The data model of `main.go` -/

/-- One player's record of one round (`Match`). -/
structure Match where
  Name : GoString
  Opp : GoString
  Score : Int
  Table : Int
  Start : Int
  Round : Int
  deriving DecidableEq, Repr, Inhabited

/-- The ledger (`Matches`): `map[string]Match`. -/
abbrev Matches := List (GoString × Match)

/-- One exported game (`Result`). -/
structure Result where
  Division : GoString
  Round : Int
  Player1 : GoString
  Score1 : Int
  Player2 : GoString
  Score2 : Int
  deriving DecidableEq, Repr

/-- Map lookup `mm[key]` with the comma-ok flag. -/
def lookup (key : GoString) : Matches → Option Match
  | [] => none
  | (k, m) :: rest => if k = key then some m else lookup key rest

/-- The key of a slot (`createKey`): `fmt.Sprintf("%d-%d", r, p)`. -/
def createKey (r : Int) (p : Int) : GoString := renderInt r ++ '-' :: renderInt p

/-- Lookup of a record by key (`fetchMatch`). -/
def fetchMatch (key : GoString) (mm : Matches) : Except Err Match :=
  match lookup key mm with
  | none => Except.error Err.ErrMatchNotFound
  | some m => Except.ok m

/-- Equal board numbers (`validateBoards`). -/
def validateBoards (b1 b2 : Int) : Except Err Unit :=
  if b1 = b2 then Except.ok () else Except.error Err.ErrMismatchBoards

/-- One player starts and the other replies (`validateStarts`). -/
def validateStarts (s1 s2 : Int) : Except Err Unit :=
  if s1 = 1 ∧ s2 = 2 then Except.ok ()
  else if s1 = 2 ∧ s2 = 1 then Except.ok ()
  else Except.error Err.ErrMismatchedStarts

/-- The result row of a pair, the starting player first (`formatResult`). -/
def formatResult (m1 m2 : Match) (div : GoString) : Result :=
  if m1.Start = 2 then
    { Division := div, Round := m2.Round, Player1 := m2.Name, Score1 := m2.Score,
      Player2 := m1.Name, Score2 := m1.Score }
  else
    { Division := div, Round := m1.Round, Player1 := m1.Name, Score1 := m1.Score,
      Player2 := m2.Name, Score2 := m2.Score }

/-- One pass of the loop body of `countMaxRoundsPlayers` on key `k`, with `(nr, np)` so far.
`rp[0]` always exists; `rp[1]` panics when the key holds no `-`. -/
def countKey (acc : Int × Int) (k : GoString) : Except Err (Int × Int) :=
  match split '-' k with
  | [] => Except.error Err.indexOutOfRange
  | s0 :: rest =>
    match atoi s0 with
    | (_, some e) => Except.error e
    | (r, none) =>
      match rest with
      | [] => Except.error Err.indexOutOfRange
      | s1 :: _ =>
        match atoi s1 with
        | (_, some e) => Except.error e
        | (p, none) =>
          Except.ok (if r > acc.1 then r else acc.1, if p > acc.2 then p else acc.2)

/-- The loop of `countMaxRoundsPlayers` over the keys. -/
def countKeys : List GoString → Int × Int → Except Err (Int × Int)
  | [], acc => Except.ok acc
  | k :: ks, acc =>
    match countKey acc k with
    | Except.error e => Except.error e
    | Except.ok acc1 => countKeys ks acc1

/-- The largest round and the largest player id among the keys (`countMaxRoundsPlayers`). -/
def countMaxRoundsPlayers (mm : Matches) : Except Err (Int × Int) :=
  countKeys (mm.map Prod.fst) (0, 0)

/-! ## `processMatches` -/

/-- The values of `i` in `for i := 1; i < n+1; i++`. The bound `n+1` is computed in 64 bit
arithmetic; inside the loop `i < n+1`, so `i++` does not wrap. -/
def forRange (n : Int) : List Int :=
  (List.range (wrap64 (n + 1) - 1).toNat).map (fun (i : Nat) => (i : Int) + 1)

/-- The variables of `processMatches` that the player loop reads and writes. -/
structure RoundState where
  seen : List GoString
  results : List Result
  byes_count : Int
  match_count : Int
  deriving DecidableEq, Repr

/-- The body of the player loop of `processMatches` for round `r` and player `p`. -/
def playerStep (mm : Matches) (div : GoString) (r : Int) (st : RoundState) (p : Int) :
    Except Err RoundState :=
  let key1 := createKey r p
  if key1 ∈ st.seen then Except.ok st
  else
    match fetchMatch key1 mm with
    | Except.error e => Except.error e
    | Except.ok m1 =>
      let seen1 := key1 :: st.seen
      let opp := (atoi m1.Opp).1
      if opp = 0 then
        Except.ok { st with seen := seen1, byes_count := wrap64 (st.byes_count + 1) }
      else
        let key2 := createKey r opp
        if key2 ∈ seen1 then Except.ok { st with seen := seen1 }
        else
          match fetchMatch key2 mm with
          | Except.error e => Except.error e
          | Except.ok m2 =>
            match validateBoards m1.Table m2.Table with
            | Except.error e => Except.error e
            | Except.ok _ =>
              match validateStarts m1.Start m2.Start with
              | Except.error e => Except.error e
              | Except.ok _ =>
                Except.ok
                  { seen := key2 :: seen1
                    results := st.results ++ [formatResult m1 m2 div]
                    byes_count := st.byes_count
                    match_count := wrap64 (st.match_count + 1) }

/-- The player loop of one round over the player ids `ps`. -/
def playerLoop (mm : Matches) (div : GoString) (r : Int) :
    List Int → RoundState → Except Err RoundState
  | [], st => Except.ok st
  | p :: ps, st =>
    match playerStep mm div r st p with
    | Except.error e => Except.error e
    | Except.ok st1 => playerLoop mm div r ps st1

/-- The four numbers of one printed sanity message. -/
structure Warning where
  round : Int
  found : Int
  byes : Int
  expected : Int
  deriving DecidableEq, Repr

/-- The counters of one round as the sanity check reads them. -/
structure RoundCount where
  round : Int
  match_count : Int
  byes_count : Int
  deriving DecidableEq, Repr

/-- The state of `processMatches` between rounds: the consumed slots, the results, the
messages printed so far and, for each finished round, the counters at its sanity check. -/
structure RunState where
  seen : List GoString
  results : List Result
  printed : List Warning
  counts : List RoundCount
  deriving DecidableEq, Repr

/-- The test of the sanity check: `2*match_count+byes_count-np != 0`. -/
def sanityFails (match_count byes_count np : Int) : Bool :=
  decide (wrap64 (wrap64 (wrap64 (2 * match_count) + byes_count) - np) ≠ 0)

/-- The body of the round loop: the player loop with fresh counters, then the sanity
check, which prints and goes on. -/
def roundStep (mm : Matches) (div : GoString) (np : Int) (rs : RunState) (r : Int) :
    Except Err RunState :=
  match playerLoop mm div r (forRange np)
      { seen := rs.seen, results := rs.results, byes_count := 0, match_count := 0 } with
  | Except.error e => Except.error e
  | Except.ok st =>
    Except.ok
      { seen := st.seen
        results := st.results
        printed :=
          if sanityFails st.match_count st.byes_count np then
            rs.printed ++ [{ round := r, found := st.match_count,
                             byes := Int.tdiv st.byes_count 2, expected := Int.tdiv np 2 }]
          else rs.printed
        counts := rs.counts ++
          [{ round := r, match_count := st.match_count, byes_count := st.byes_count }] }

/-- The round loop over the rounds `rounds`. -/
def roundLoop (mm : Matches) (div : GoString) (np : Int) :
    List Int → RunState → Except Err RunState
  | [], rs => Except.ok rs
  | r :: rounds, rs =>
    match roundStep mm div np rs r with
    | Except.error e => Except.error e
    | Except.ok rs1 => roundLoop mm div np rounds rs1

/-- The run of `processMatches` with everything it produces. -/
def processMatchesRun (mm : Matches) (div : GoString) : Except Err RunState :=
  match countMaxRoundsPlayers mm with
  | Except.error e => Except.error e
  | Except.ok (nr, np) =>
    roundLoop mm div np (forRange nr) { seen := [], results := [], printed := [], counts := [] }

/-- The returned slice of `processMatches`. -/
def processMatches (mm : Matches) (div : GoString) : Except Err (List Result) :=
  match processMatchesRun mm div with
  | Except.error e => Except.error e
  | Except.ok rs => Except.ok rs.results

/-! ## Notions in which the properties are stated -/

/-- A pair made by the player loop: the round `r`, the player `p` reached first, the
opponent `q` that the record of `p` names, and the two records. -/
structure Pairing where
  r : Int
  p : Int
  q : Int
  m1 : Match
  m2 : Match

/-- The pair is one that the loop body accepts: both records are in the ledger under
the slots of round `r`, the first names the second, the boards agree and the start
flags are 1 and 2 in some order. -/
def Pairing.Valid (mm : Matches) (t : Pairing) : Prop :=
  fetchMatch (createKey t.r t.p) mm = Except.ok t.m1 ∧
  fetchMatch (createKey t.r t.q) mm = Except.ok t.m2 ∧
  (atoi t.m1.Opp).1 = t.q ∧ t.q ≠ 0 ∧ t.m1.Table = t.m2.Table ∧
  ((t.m1.Start = 1 ∧ t.m2.Start = 2) ∨ (t.m1.Start = 2 ∧ t.m2.Start = 1))

/-- The result row that a pair gives. -/
def Pairing.result (div : GoString) (t : Pairing) : Result := formatResult t.m1 t.m2 div

/-- The slots `(round, player)` that the pairs of a trace take their records from. -/
def traceSlots : List Pairing → List (Int × Int)
  | [] => []
  | t :: ts => (t.r, t.p) :: (t.r, t.q) :: traceSlots ts

/-- The slots at which the pairs of a trace were found. -/
def traceFirst (tr : List Pairing) : List (Int × Int) := tr.map (fun t => (t.r, t.p))

/-- Round-major order of slots. -/
def slotLt (a b : Int × Int) : Prop := a.1 < b.1 ∨ (a.1 = b.1 ∧ a.2 < b.2)

/-- What the loops have done so far, in terms of the slots `proc` they went through and
the pairs `tr` they made. -/
structure Traced (mm : Matches) (div : GoString) (seen : List GoString)
    (results : List Result) (proc : List (Int × Int)) (tr : List Pairing) : Prop where
  results_eq : results = tr.map (Pairing.result div)
  valid : ∀ t ∈ tr, t.Valid mm
  sub : (traceFirst tr).Sublist proc
  seen_iff : ∀ k, k ∈ seen ↔
    (∃ s ∈ proc, k = createKey s.1 s.2) ∨ (∃ t ∈ tr, k = createKey t.r t.q)
  present : ∀ k ∈ seen, ∃ m, lookup k mm = some m
  nodup : ((traceSlots tr).map (fun s => createKey s.1 s.2)).Nodup

/-- The record of slot `(r, p)` is a bye: its opponent reference parses to zero. -/
def isBye (mm : Matches) (r p : Int) : Bool :=
  match lookup (createKey r p) mm with
  | some m => decide ((atoi m.Opp).1 = 0)
  | none => false

/-- Slot `(r, p)` gave the second record of a pair of the trace. -/
def consumedAsOpp (tr : List Pairing) (r p : Int) : Bool :=
  tr.any (fun t => decide (t.r = r) && decide (t.q = p))

/-- The byes of round `r` among the players `ps` that no pair of the trace consumed. -/
def freeByes (mm : Matches) (tr : List Pairing) (r : Int) (ps : List Int) : List Int :=
  ps.filter (fun p => isBye mm r p && !consumedAsOpp tr r p)

/-- Slot `(r, p)`, whose record names the opponent `q`, is settled by the trace: a pair
was found at it, or a pair found at an earlier player of round `r` took `p` or `q` as its
opponent before the loop came to `p`. -/
def Settled (tr : List Pairing) (r p q : Int) : Prop :=
  (∃ t ∈ tr, t.r = r ∧ t.p = p) ∨ (∃ t ∈ tr, t.r = r ∧ t.p < p ∧ (t.q = p ∨ t.q = q))

/-- The loop passes over no slot of `proc`: a slot whose record names a player with a
larger id is settled by the trace. -/
def AllSettled (mm : Matches) (tr : List Pairing) (proc : List (Int × Int)) : Prop :=
  ∀ s ∈ proc, ∀ m1, lookup (createKey s.1 s.2) mm = some m1 → (atoi m1.Opp).1 ≠ 0 →
    s.2 < (atoi m1.Opp).1 → Settled tr s.1 s.2 (atoi m1.Opp).1

/-- The state of the player loop of round `r` after the players `done`, the rounds
before having gone through the slots `proc₀`. -/
structure RoundInv (mm : Matches) (div : GoString) (r : Int) (proc₀ : List (Int × Int))
    (done : List Int) (st : RoundState) (tr : List Pairing) : Prop where
  traced : Traced mm div st.seen st.results (proc₀ ++ done.map (fun p => (r, p))) tr
  byes_eq : st.byes_count = ((freeByes mm tr r done).length : Int)
  match_nonneg : 0 ≤ st.match_count
  count_le : st.match_count + st.byes_count ≤ (done.length : Int)
  first_lt : ∀ t ∈ tr, t.p < t.q
  settled : AllSettled mm tr (proc₀ ++ done.map (fun p => (r, p)))

/-- The slots that the loops go through for the rounds `rounds` and the players `ps`, in
the order of the loops. -/
def slotsOf (ps : List Int) : List Int → List (Int × Int)
  | [] => []
  | r :: rounds => ps.map (fun p => (r, p)) ++ slotsOf ps rounds

/-- The message that the sanity check prints for the counters of a round, if any. -/
def warningOf (np : Int) (c : RoundCount) : Option Warning :=
  if sanityFails c.match_count c.byes_count np then
    some { round := c.round, found := c.match_count,
           byes := Int.tdiv c.byes_count 2, expected := Int.tdiv np 2 }
  else none

/-- The state of the round loop after the rounds `done` with the players `ps`. -/
structure RunInv (mm : Matches) (div : GoString) (np : Int) (ps : List Int)
    (done : List Int) (rs : RunState) (tr : List Pairing) : Prop where
  traced : Traced mm div rs.seen rs.results (slotsOf ps done) tr
  rounds_eq : rs.counts.map RoundCount.round = done
  counts : ∀ c ∈ rs.counts,
    c.byes_count = ((freeByes mm tr c.round ps).length : Int) ∧
    0 ≤ c.match_count ∧ c.match_count + c.byes_count ≤ (ps.length : Int)
  printed_eq : rs.printed = rs.counts.filterMap (warningOf np)
  trace_rounds : ∀ t ∈ tr, t.r ∈ done
  first_lt : ∀ t ∈ tr, t.p < t.q
  settled : AllSettled mm tr (slotsOf ps done)

/-- The trace of the pairs that the loops of `processMatches` make on a ledger with the
bounds `nr` and `np`, told without running the loops. Every pair is one that the loop
body accepts, found in a round and at a player of the loops, and the player `p` it was
found at has the smaller id of the two; the pairs stand in the order of the loops, by
round and then by the player they were found at; no slot gives a record to two pairs;
and no slot is passed over: wherever the record of a slot names a player with a larger
id, a pair was found there unless an earlier pair of the round had taken one of the two.
These conditions leave one trace only (`discoveryTrace_unique`). -/
structure DiscoveryTrace (mm : Matches) (nr np : Int) (tr : List Pairing) : Prop where
  valid : ∀ t ∈ tr, t.Valid mm
  in_loops : ∀ t ∈ tr, t.r ∈ forRange nr ∧ t.p ∈ forRange np ∧ t.q ∈ forRange np
  first_lt : ∀ t ∈ tr, t.p < t.q
  ordered : (traceFirst tr).Pairwise slotLt
  once : (traceSlots tr).Nodup
  settled : ∀ r ∈ forRange nr, ∀ p ∈ forRange np, ∀ m1,
    lookup (createKey r p) mm = some m1 → (atoi m1.Opp).1 ≠ 0 → p < (atoi m1.Opp).1 →
      Settled tr r p (atoi m1.Opp).1

/-! ## Well-formed ledgers -/

/-- The players `1, …, n`. -/
def upTo (n : Int) : List Int := (List.range n.toNat).map (fun (i : Nat) => (i : Int) + 1)

/-- The start flags are 1 and 2 in some order. -/
def StartsOk (m m' : Match) : Prop :=
  (m.Start = 1 ∧ m'.Start = 2) ∨ (m.Start = 2 ∧ m'.Start = 1)

/-- A well-formed ledger for the bounds `(nr, np)`: every slot `(r, p)` with `1 ≤ r ≤ nr`
and `1 ≤ p ≤ np` holds a record, and this record is a bye or names a player `q` with
`1 ≤ q ≤ np`, `q ≠ p`, whose record of the same round names `p`, with the same board
number and start flags 1 and 2 in some order. -/
def WellFormed (mm : Matches) (nr np : Int) : Prop :=
  ∀ r p : Int, 1 ≤ r → r ≤ nr → 1 ≤ p → p ≤ np →
    ∃ m, lookup (createKey r p) mm = some m ∧
      ((atoi m.Opp).1 = 0 ∨
        (1 ≤ (atoi m.Opp).1 ∧ (atoi m.Opp).1 ≤ np ∧ (atoi m.Opp).1 ≠ p ∧
          ∃ m', lookup (createKey r (atoi m.Opp).1) mm = some m' ∧
            (atoi m'.Opp).1 = p ∧ m.Table = m'.Table ∧ StartsOk m m'))

/-- The game of round `r` that belongs to player `p`: the record of `p` names a player
with a larger id, and the row is that of the two records. A bye has none, and the
player with the larger id of a pair has none. -/
def gameAt (mm : Matches) (div : GoString) (r p : Int) : Option Result :=
  match lookup (createKey r p) mm with
  | none => none
  | some m1 =>
    if (atoi m1.Opp).1 = 0 then none
    else if p < (atoi m1.Opp).1 then
      match lookup (createKey r (atoi m1.Opp).1) mm with
      | none => none
      | some m2 => some (formatResult m1 m2 div)
    else none

/-- The games of the rounds `rounds` among the players `ps`: round by round, and within
a round by the smaller player id of the pair. -/
def expectedResults (mm : Matches) (div : GoString) (ps : List Int) : List Int → List Result
  | [] => []
  | r :: rounds => ps.filterMap (gameAt mm div r) ++ expectedResults mm div ps rounds

/-- The player that the record of slot `(r, q)` names (0 for a bye or no record). -/
def oppAt (mm : Matches) (r q : Int) : Int :=
  match lookup (createKey r q) mm with
  | some m => (atoi m.Opp).1
  | none => 0

/-- Well-formedness of one round `r` with the players `all`. -/
structure RoundWF (mm : Matches) (r : Int) (all : List Int) : Prop where
  nonzero : ∀ p ∈ all, p ≠ 0
  sorted : all.Pairwise (· < ·)
  present : ∀ p ∈ all, ∃ m, lookup (createKey r p) mm = some m
  paired : ∀ p ∈ all, oppAt mm r p ≠ 0 →
    oppAt mm r p ∈ all ∧ oppAt mm r p ≠ p ∧ oppAt mm r (oppAt mm r p) = p
  valid : ∀ p ∈ all, ∀ m m', lookup (createKey r p) mm = some m →
    lookup (createKey r (oppAt mm r p)) mm = some m' → oppAt mm r p ≠ 0 →
    m.Table = m'.Table ∧ StartsOk m m'

/-- Slot `(r, q)` is consumed once the loop has gone through the players `done`: `q` is
among them, or the player that `q` names is. -/
def Consumed (mm : Matches) (r : Int) (done : List Int) (q : Int) : Prop :=
  q ∈ done ∨ (oppAt mm r q ≠ 0 ∧ oppAt mm r q ∈ done)

/-- The state of the player loop of a well-formed round after the players `done`: the
keys `new` marked in this round are those of the consumed slots. -/
structure WRoundInv (mm : Matches) (div : GoString) (r : Int) (all : List Int)
    (seen₀ : List GoString) (results₀ : List Result) (done : List Int) (st : RoundState)
    (new : List GoString) : Prop where
  seen_eq : st.seen = new ++ seen₀
  new_nodup : new.Nodup
  new_iff : ∀ k, k ∈ new ↔ ∃ q ∈ all, k = createKey r q ∧ Consumed mm r done q
  results_eq : st.results = results₀ ++ done.filterMap (gameAt mm div r)
  count_eq : 2 * st.match_count + st.byes_count = (new.length : Int)
  match_nonneg : 0 ≤ st.match_count
  byes_nonneg : 0 ≤ st.byes_count
  count_le : st.match_count + st.byes_count ≤ (done.length : Int)

/-- The state of the round loop of a well-formed ledger after the rounds `done`. -/
structure WRunInv (mm : Matches) (div : GoString) (np : Int) (done : List Int)
    (rs : RunState) : Prop where
  results_eq : rs.results = expectedResults mm div (forRange np) done
  printed_eq : rs.printed = []
  rounds_eq : rs.counts.map RoundCount.round = done
  counts : ∀ c ∈ rs.counts, 2 * c.match_count + c.byes_count = np
  seen_rounds : ∀ k ∈ rs.seen, ∃ r ∈ done, ∃ q, k = createKey r q

/-! ## Ledgers used as examples -/

/-- A record from its six fields. -/
def recOf (name opp : String) (score table start round : Int) : Match :=
  { Name := name.toList, Opp := opp.toList, Score := score, Table := table,
    Start := start, Round := round }

/-- Two players who meet in round 1 on board 5; player 1 starts and wins. -/
def ledgerPair : Matches :=
  [("1-1".toList, recOf "Ann" "2" 1 5 1 1), ("1-2".toList, recOf "Bob" "1" 0 5 2 1)]

/-- Three players of round 1: player 1 names 2, player 2 names 3, player 3 names 2. -/
def ledgerChain : Matches :=
  [("1-1".toList, recOf "Ann" "2" 1 5 1 1), ("1-2".toList, recOf "Bob" "3" 0 5 2 1),
   ("1-3".toList, recOf "Cyd" "2" 0 5 1 1)]

/-- Two players of round 1: player 1 names 2, player 2 has a bye. -/
def ledgerByeNamed : Matches :=
  [("1-1".toList, recOf "Ann" "2" 1 5 1 1), ("1-2".toList, recOf "Bob" "0" 0 5 2 1)]

/-- Three players of round 1: players 1 and 2 meet, player 3 has a bye. -/
def ledgerThree : Matches :=
  [("1-1".toList, recOf "Ann" "2" 1 5 2 1), ("1-2".toList, recOf "Bob" "1" 0 5 1 1),
   ("1-3".toList, recOf "Cyd" "0" 0 0 0 1)]

/-- One record, stored under the largest round that a key can name. -/
def ledgerLastRound : Matches :=
  [("9223372036854775807-1".toList, recOf "Ann" "0" 0 0 0 1)]

/-- Two players who name each other in round 1 but sit at boards 5 and 6. -/
def ledgerBoards : Matches :=
  [("1-1".toList, recOf "Ann" "2" 1 5 1 1), ("1-2".toList, recOf "Bob" "1" 0 6 2 1)]

/-- Four players over two rounds. In round 1 player 1 meets player 4 and player 2 meets
player 3; in round 2 player 1 meets player 2 and player 3 meets player 4. -/
def ledgerCross : Matches :=
  [("1-1".toList, recOf "Ann" "4" 400 1 1 1), ("1-2".toList, recOf "Bob" "3" 350 2 2 1),
   ("1-3".toList, recOf "Cyd" "2" 360 2 1 1), ("1-4".toList, recOf "Dan" "1" 390 1 2 1),
   ("2-1".toList, recOf "Ann" "2" 410 1 2 2), ("2-2".toList, recOf "Bob" "1" 380 1 1 2),
   ("2-3".toList, recOf "Cyd" "4" 300 2 1 2), ("2-4".toList, recOf "Dan" "3" 420 2 2 2)]

/-- The division label of the examples. -/
def divA : GoString := "A".toList

/-- The rows that `processMatches` returns for `ledgerCross`: the games of round 1 found
at players 1 and 2, then the games of round 2 found at players 1 and 3. -/
def ledgerCrossRows : List Result :=
  [{ Division := divA, Round := 1, Player1 := "Ann".toList, Score1 := 400,
     Player2 := "Dan".toList, Score2 := 390 },
   { Division := divA, Round := 1, Player1 := "Cyd".toList, Score1 := 360,
     Player2 := "Bob".toList, Score2 := 350 },
   { Division := divA, Round := 2, Player1 := "Bob".toList, Score1 := 380,
     Player2 := "Ann".toList, Score2 := 410 },
   { Division := divA, Round := 2, Player1 := "Cyd".toList, Score1 := 300,
     Player2 := "Dan".toList, Score2 := 420 }]

/-- The value of a digit string read after the value `a`. -/
def decVal (l : List Char) (a : Nat) : Nat :=
  l.foldl (fun v c => v * 10 + (c.toNat - 48)) a

/-! ## The report line grammar `Rx` -/

/-- A piece of the pattern `Rx`: a literal character, a captured group `[cls]+`, or an
uncaptured `[cls]*`. Both repetitions are greedy. -/
inductive Piece where
  | lit (c : Char)
  | plus (cls : Char → Bool)
  | star (cls : Char → Bool)

/-- A greedy repetition of the class `cls` from the text `s` on, with `acc` taken so
far: the longest run is tried first, and the continuation `k` gets what was taken and
what is left. This is the order of a backtracking search, which is the match that Go's
`regexp` returns (leftmost-first). -/
def greedy {α : Type} (cls : Char → Bool) (k : GoString → GoString → Option α) :
    GoString → GoString → Option α
  | acc, [] => k acc []
  | acc, c :: cs =>
    if cls c then
      match greedy cls k (acc ++ [c]) cs with
      | some r => some r
      | none => k acc (c :: cs)
    else k acc (c :: cs)

/-- The match of a list of pieces at the start of the text: the captured groups and the
text left after the match. -/
def matchPieces : List Piece → GoString → Option (List GoString × GoString)
  | [], s => some ([], s)
  | Piece.lit c :: ps, s =>
    match s with
    | [] => none
    | x :: xs => if x = c then matchPieces ps xs else none
  | Piece.plus cls :: ps, s =>
    greedy cls (fun acc rest =>
      if acc = [] then none
      else
        match matchPieces ps rest with
        | none => none
        | some (caps, left) => some (acc :: caps, left)) [] s
  | Piece.star cls :: ps, s =>
    greedy cls (fun _ rest => matchPieces ps rest) [] s

/-- The class `[A-Za-z,_\-{}'\(\) ]` of the name. -/
def nameClass (c : Char) : Bool :=
  decide ((65 ≤ c.toNat ∧ c.toNat ≤ 90) ∨ (97 ≤ c.toNat ∧ c.toNat ≤ 122) ∨
    c.toNat = 44 ∨ c.toNat = 95 ∨ c.toNat = 45 ∨ c.toNat = 123 ∨ c.toNat = 125 ∨
    c.toNat = 39 ∨ c.toNat = 40 ∨ c.toNat = 41 ∨ c.toNat = 32)

/-- The class `\d`. -/
def digitClass (c : Char) : Bool := decide (48 ≤ c.toNat ∧ c.toNat ≤ 57)

/-- The class `[0-9 ]`. -/
def numClass (c : Char) : Bool := decide ((48 ≤ c.toNat ∧ c.toNat ≤ 57) ∨ c.toNat = 32)

/-- The class `[0-9 \-]`. -/
def scoreClass (c : Char) : Bool :=
  decide ((48 ≤ c.toNat ∧ c.toNat ≤ 57) ∨ c.toNat = 32 ∨ c.toNat = 45)

/-- The class of `.`: every character but the newline. -/
def anyClass (c : Char) : Bool := decide (c.toNat ≠ 10)

/-- The literal characters of a string, as pieces. -/
def lits (s : String) : List Piece := s.toList.map Piece.lit

/-- The pattern `Rx` behind its anchor `^`:
`([A-Za-z,_\-{}'\(\) ]+)(\d+) ([0-9 ]+); ([0-9 \-]+);.*board ([0-9 ]+);.*p12 ([0-9 ]+);` -/
def rxPieces : List Piece :=
  [Piece.plus nameClass, Piece.plus digitClass] ++ lits " " ++
  [Piece.plus numClass] ++ lits "; " ++
  [Piece.plus scoreClass] ++ lits ";" ++
  [Piece.star anyClass] ++ lits "board " ++ [Piece.plus numClass] ++ lits ";" ++
  [Piece.star anyClass] ++ lits "p12 " ++ [Piece.plus numClass] ++ lits ";"

/-- Go `Rx.FindStringSubmatch(s)`: empty when the pattern does not match, else the
matched text followed by the six groups. -/
def findStringSubmatch (s : GoString) : List GoString :=
  match matchPieces rxPieces s with
  | none => []
  | some (caps, left) => s.take (s.length - left.length) :: caps

/-! ## String functions of the Go library -/

/-- Go `strings.TrimLeft(s, cutset)`. -/
def trimLeft (cutset : GoString) (s : GoString) : GoString :=
  s.dropWhile (fun c => decide (c ∈ cutset))

/-- Go `strings.TrimRight(s, cutset)`. -/
def trimRight (cutset : GoString) (s : GoString) : GoString :=
  (s.reverse.dropWhile (fun c => decide (c ∈ cutset))).reverse

/-- Go `unicode.IsSpace`. -/
def isSpace (c : Char) : Bool :=
  decide ((9 ≤ c.toNat ∧ c.toNat ≤ 13) ∨ c.toNat = 32 ∨ c.toNat = 133 ∨ c.toNat = 160 ∨
    c.toNat = 5760 ∨ (8192 ≤ c.toNat ∧ c.toNat ≤ 8202) ∨ c.toNat = 8232 ∨
    c.toNat = 8233 ∨ c.toNat = 8239 ∨ c.toNat = 8287 ∨ c.toNat = 12288)

/-- The loop of `strings.Fields` with the field `cur` begun so far. -/
def fieldsAux : GoString → GoString → List GoString
  | cur, [] => if cur = [] then [] else [cur]
  | cur, c :: cs =>
    if isSpace c then
      if cur = [] then fieldsAux [] cs else cur :: fieldsAux [] cs
    else fieldsAux (cur ++ [c]) cs

/-- Go `strings.Fields`: the maximal runs of characters that are not white space. -/
def fields (s : GoString) : List GoString := fieldsAux [] s

/-! ## `parseFirstLastName` and `parseResults` -/

/-- Reordering of "Last, First" (`parseFirstLastName`). -/
def parseFirstLastName (name : GoString) : GoString :=
  match split ',' name with
  | [_] => name
  | [r0, r1] => trimLeft [' '] (r1 ++ ' ' :: r0)
  | _ => []

/-- The zero value of `Match`. -/
def zeroMatch : Match :=
  { Name := [], Opp := [], Score := 0, Table := 0, Start := 0, Round := 0 }

/-- The read `m = mm[key]`: the zero value when the key is absent. -/
def getOrZero (key : GoString) (mm : Matches) : Match :=
  match lookup key mm with
  | some m => m
  | none => zeroMatch

/-- The write `mm[key] = m`. -/
def setKey (key : GoString) (m : Match) : Matches → Matches
  | [] => [(key, m)]
  | (k, v) :: rest => if k = key then (k, m) :: rest else (k, v) :: setKey key m rest

/-- The loop `for i, x := range xs`, with `i` the index of the head of `xs`. -/
def rangeLoop (body : Nat → GoString → Matches → Matches) :
    Nat → List GoString → Matches → Matches
  | _, [], mm => mm
  | i, x :: xs, mm => rangeLoop body (i + 1) xs (body i x mm)

/-- Parsing of one line of the report into the ledger (`parseResults`). The round
`i + 1` of an index does not wrap: the index is below the length of a slice. -/
def parseResults (id : Int) (s : GoString) (mm : Matches) : Except Err Matches :=
  let res := findStringSubmatch s
  if res.length = 0 then Except.ok mm
  else if res.length ≠ 7 then Except.error Err.parseFailed
  else
    let name := parseFirstLastName (trimRight [' '] (res.getD 1 []))
    let oppos := fields (res.getD 3 [])
    let scores := fields (res.getD 4 [])
    let boards := fields (res.getD 5 [])
    let starts := fields (res.getD 6 [])
    let mm1 := rangeLoop (fun i o mm =>
      setKey (createKey ((i : Int) + 1) id)
        { Name := name, Round := (i : Int) + 1, Opp := o, Score := 0, Table := 0, Start := 0 }
        mm) 0 oppos mm
    let mm2 := rangeLoop (fun i sc mm =>
      setKey (createKey ((i : Int) + 1) id)
        { getOrZero (createKey ((i : Int) + 1) id) mm with Score := (atoi sc).1 } mm)
      0 scores mm1
    let mm3 := rangeLoop (fun i b mm =>
      setKey (createKey ((i : Int) + 1) id)
        { getOrZero (createKey ((i : Int) + 1) id) mm with Table := (atoi b).1 } mm)
      0 boards mm2
    let mm4 := rangeLoop (fun i st mm =>
      setKey (createKey ((i : Int) + 1) id)
        { getOrZero (createKey ((i : Int) + 1) id) mm with Start := (atoi st).1 } mm)
      0 starts mm3
    Except.ok mm4

/-- The loop of `process` over the lines of a file: line `i` (from 0) is parsed with
the player id `i + 1`. -/
def processLines : Nat → List GoString → Matches → Except Err Matches
  | _, [], mm => Except.ok mm
  | i, line :: rest, mm =>
    match parseResults ((i : Int) + 1) line mm with
    | Except.error e => Except.error e
    | Except.ok mm1 => processLines (i + 1) rest mm1

/-! ## Notions in which the properties of parsing are stated -/

/-- The number of captured groups of a list of pieces. -/
def capCount : List Piece → Nat
  | [] => 0
  | Piece.plus _ :: ps => capCount ps + 1
  | _ :: ps => capCount ps

/-- The key of round `i + 1` of player `id`. -/
def slotKey (id : Int) (i : Nat) : GoString := createKey ((i : Int) + 1) id

/-- The body of the loop over the opponents. -/
def oppBody (id : Int) (name : GoString) (i : Nat) (o : GoString) (mm : Matches) : Matches :=
  setKey (createKey ((i : Int) + 1) id)
    { Name := name, Round := (i : Int) + 1, Opp := o, Score := 0, Table := 0, Start := 0 } mm

/-- The body of the loop over the scores. -/
def scoreBody (id : Int) (i : Nat) (sc : GoString) (mm : Matches) : Matches :=
  setKey (createKey ((i : Int) + 1) id)
    { getOrZero (createKey ((i : Int) + 1) id) mm with Score := (atoi sc).1 } mm

/-- The body of the loop over the boards. -/
def boardBody (id : Int) (i : Nat) (b : GoString) (mm : Matches) : Matches :=
  setKey (createKey ((i : Int) + 1) id)
    { getOrZero (createKey ((i : Int) + 1) id) mm with Table := (atoi b).1 } mm

/-- The body of the loop over the starts. -/
def startBody (id : Int) (i : Nat) (st : GoString) (mm : Matches) : Matches :=
  setKey (createKey ((i : Int) + 1) id)
    { getOrZero (createKey ((i : Int) + 1) id) mm with Start := (atoi st).1 } mm

/-- The four loops of `parseResults` on the name and the token lists of a line. -/
def writeFields (id : Int) (name : GoString) (oppos scores boards starts : List GoString)
    (mm : Matches) : Matches :=
  rangeLoop (startBody id) 0 starts
    (rangeLoop (boardBody id) 0 boards
      (rangeLoop (scoreBody id) 0 scores
        (rangeLoop (oppBody id name) 0 oppos mm)))

/-- The record that the loop over the opponents writes. -/
def oppUpd (name : GoString) (i : Nat) (o : GoString) (_ : Match) : Match :=
  { Name := name, Round := (i : Int) + 1, Opp := o, Score := 0, Table := 0, Start := 0 }

/-- The record that the loop over the scores writes. -/
def scoreUpd (_ : Nat) (sc : GoString) (m : Match) : Match := { m with Score := (atoi sc).1 }

/-- The record that the loop over the boards writes. -/
def boardUpd (_ : Nat) (b : GoString) (m : Match) : Match := { m with Table := (atoi b).1 }

/-- The record that the loop over the starts writes. -/
def startUpd (_ : Nat) (st : GoString) (m : Match) : Match := { m with Start := (atoi st).1 }

/-- The record of an optional record, the zero value when there is none. -/
def orZero (old : Option Match) : Match :=
  match old with
  | some m => m
  | none => zeroMatch

/-- The record that the slot of index `i` holds after the four loops, from the record
`old` that it held before. -/
def finalRecord (name : GoString) (oppos scores boards starts : List GoString) (i : Nat)
    (old : Option Match) : Option Match :=
  let s1 : Option Match :=
    if i < oppos.length then
      some { Name := name, Round := (i : Int) + 1, Opp := oppos.getD i [], Score := 0,
             Table := 0, Start := 0 }
    else old
  let s2 : Option Match :=
    if i < scores.length then some { orZero s1 with Score := (atoi (scores.getD i [])).1 }
    else s1
  let s3 : Option Match :=
    if i < boards.length then some { orZero s2 with Table := (atoi (boards.getD i [])).1 }
    else s2
  if i < starts.length then some { orZero s3 with Start := (atoi (starts.getD i [])).1 }
  else s3

/-- The integer value of the token of index `i`, or 0 when the list is shorter. -/
def tokenValue (toks : List GoString) (i : Nat) : Int :=
  if i < toks.length then (atoi (toks.getD i [])).1 else 0

/-- The score, board and start lists of the line are no longer than its opponent
list. A line that the grammar does not match has no lists. -/
def Balanced (line : GoString) : Prop :=
  (fields ((findStringSubmatch line).getD 4 [])).length ≤
      (fields ((findStringSubmatch line).getD 3 [])).length ∧
  (fields ((findStringSubmatch line).getD 5 [])).length ≤
      (fields ((findStringSubmatch line).getD 3 [])).length ∧
  (fields ((findStringSubmatch line).getD 6 [])).length ≤
      (fields ((findStringSubmatch line).getD 3 [])).length

/-- Every record of the ledger is stored under the key of a slot of a round from 1 on,
and carries that round. -/
def KeyRound (mm : Matches) : Prop :=
  ∀ k m, lookup k mm = some m → ∃ r p : Int, 1 ≤ r ∧ k = createKey r p ∧ m.Round = r

/-! # Theorems -/

/-! ## Keys are injective -/

theorem digitChar_toNat (d : Nat) (h : d < 10) : (digitChar d).toNat = 48 + d := by
  interval_cases d <;> rfl

theorem decVal_natDigits (fuel : Nat) :
    ∀ (n : Nat) (acc : List Char), n < fuel → decVal (natDigits fuel n acc) 0 = decVal acc n := by
  induction fuel with
  | zero => intro n acc h; omega
  | succ fuel ih =>
    intro n acc h
    have hd : (digitChar (n % 10)).toNat - 48 = n % 10 := by
      rw [digitChar_toNat _ (Nat.mod_lt _ (by decide))]; omega
    unfold natDigits
    split
    · rename_i h0
      simp only [decVal, List.foldl_cons, hd]
      congr 1
      omega
    · rename_i h0
      rw [ih (n / 10) _ (by omega)]
      simp only [decVal, List.foldl_cons, hd]
      congr 1
      omega

theorem decVal_renderNat (n : Nat) : decVal (renderNat n) 0 = n :=
  (decVal_natDigits (n + 1) n [] (Nat.lt_succ_self n)).trans rfl

theorem renderNat_inj {n m : Nat} (h : renderNat n = renderNat m) : n = m := by
  have := congrArg (fun l => decVal l 0) h
  simpa [decVal_renderNat] using this

theorem mem_natDigits (fuel : Nat) :
    ∀ (n : Nat) (acc : List Char) (c : Char), c ∈ natDigits fuel n acc →
      c ∈ acc ∨ (48 ≤ c.toNat ∧ c.toNat ≤ 57) := by
  induction fuel with
  | zero => intro n acc c h; exact Or.inl h
  | succ fuel ih =>
    intro n acc c h
    have hd : (digitChar (n % 10)).toNat = 48 + n % 10 :=
      digitChar_toNat _ (Nat.mod_lt _ (by decide))
    have hlt : n % 10 < 10 := Nat.mod_lt _ (by decide)
    unfold natDigits at h
    split at h
    · rcases List.mem_cons.1 h with h1 | h1
      · right; rw [h1, hd]; omega
      · exact Or.inl h1
    · rcases ih _ _ _ h with h1 | h1
      · rcases List.mem_cons.1 h1 with h2 | h2
        · right; rw [h2, hd]; omega
        · exact Or.inl h2
      · exact Or.inr h1

theorem dash_not_mem_renderNat (n : Nat) : '-' ∉ renderNat n := by
  intro h
  rcases mem_natDigits _ _ _ _ h with h1 | h1
  · simp at h1
  · have : ('-' : Char).toNat = 45 := rfl
    omega

theorem renderInt_inj {a b : Int} (h : renderInt a = renderInt b) : a = b := by
  cases a with
  | ofNat n =>
    cases b with
    | ofNat m => rw [renderNat_inj h]
    | negSucc m =>
      exfalso
      apply dash_not_mem_renderNat n
      simp only [renderInt] at h
      rw [h]; exact List.mem_cons_self _ _
  | negSucc n =>
    cases b with
    | ofNat m =>
      exfalso
      apply dash_not_mem_renderNat m
      simp only [renderInt] at h
      rw [← h]; exact List.mem_cons_self _ _
    | negSucc m =>
      simp only [renderInt, List.cons.injEq, true_and] at h
      have := renderNat_inj h
      have : n = m := by omega
      rw [this]

theorem append_sep_inj {α : Type} (a : α) :
    ∀ (l₁ l₂ m₁ m₂ : List α), a ∉ l₁ → a ∉ l₂ → l₁ ++ a :: m₁ = l₂ ++ a :: m₂ →
      l₁ = l₂ ∧ m₁ = m₂ := by
  intro l₁
  induction l₁ with
  | nil =>
    intro l₂ m₁ m₂ _ h2 h
    cases l₂ with
    | nil => simpa using h
    | cons b l₂ =>
      simp only [List.nil_append, List.cons_append, List.cons.injEq] at h
      exact absurd (h.1 ▸ List.mem_cons_self _ _) h2
  | cons x l₁ ih =>
    intro l₂ m₁ m₂ h1 h2 h
    cases l₂ with
    | nil =>
      simp only [List.nil_append, List.cons_append, List.cons.injEq] at h
      exact absurd (h.1 ▸ List.mem_cons_self _ _) h1
    | cons b l₂ =>
      simp only [List.cons_append, List.cons.injEq] at h
      have := ih l₂ m₁ m₂ (fun hh => h1 (List.mem_cons_of_mem _ hh))
        (fun hh => h2 (List.mem_cons_of_mem _ hh)) h.2
      exact ⟨by rw [h.1, this.1], this.2⟩

theorem natDigits_ne_nil (fuel : Nat) :
    ∀ (n : Nat) (acc : List Char), acc ≠ [] → natDigits fuel n acc ≠ [] := by
  induction fuel with
  | zero => intro n acc h; exact h
  | succ fuel ih =>
    intro n acc _
    unfold natDigits
    split
    · simp
    · exact ih _ _ (by simp)

theorem renderNat_ne_nil (n : Nat) : renderNat n ≠ [] := by
  unfold renderNat natDigits
  split
  · simp
  · exact natDigits_ne_nil _ _ _ (by simp)

theorem renderNat_append_ne (n : Nat) (l m : List Char) :
    renderNat n ++ l ≠ '-' :: m := by
  intro h
  cases hn : renderNat n with
  | nil => exact renderNat_ne_nil n hn
  | cons c cs =>
    rw [hn] at h
    simp only [List.cons_append, List.cons.injEq] at h
    exact dash_not_mem_renderNat n (by rw [hn, h.1]; exact List.mem_cons_self _ _)

/-- Keys determine the slot. -/
theorem createKey_inj {r r' p p' : Int} (h : createKey r p = createKey r' p') :
    r = r' ∧ p = p' := by
  unfold createKey at h
  cases r with
  | ofNat n =>
    cases r' with
    | ofNat n' =>
      have := append_sep_inj '-' _ _ _ _ (dash_not_mem_renderNat n)
        (dash_not_mem_renderNat n') h
      exact ⟨by rw [renderNat_inj this.1], renderInt_inj this.2⟩
    | negSucc n' => exact absurd h (renderNat_append_ne n _ _)
  | negSucc n =>
    cases r' with
    | ofNat n' => exact absurd h.symm (renderNat_append_ne n' _ _)
    | negSucc n' =>
      simp only [renderInt, List.cons_append, List.cons.injEq, true_and] at h
      have := append_sep_inj '-' _ _ _ _ (dash_not_mem_renderNat _)
        (dash_not_mem_renderNat _) h
      have hn := renderNat_inj this.1
      exact ⟨by rw [show n = n' by omega], renderInt_inj this.2⟩

/-! ## Decimal strings read back -/

theorem split_of_not_mem {sep : Char} :
    ∀ {s : GoString}, sep ∉ s → split sep s = [s] := by
  intro s
  induction s with
  | nil => intro _; rfl
  | cons c cs ih =>
    intro h
    have hc : c ≠ sep := fun he => h (he ▸ List.mem_cons_self _ _)
    have hcs : sep ∉ cs := fun hm => h (List.mem_cons_of_mem _ hm)
    simp only [split, hc, if_false, ih hcs]

theorem split_append_sep {sep : Char} (rest : GoString) :
    ∀ {l : GoString}, sep ∉ l → split sep (l ++ sep :: rest) = l :: split sep rest := by
  intro l
  induction l with
  | nil => intro _; simp [split]
  | cons c cs ih =>
    intro h
    have hc : c ≠ sep := fun he => h (he ▸ List.mem_cons_self _ _)
    have hcs : sep ∉ cs := fun hm => h (List.mem_cons_of_mem _ hm)
    simp only [List.cons_append, split, hc, if_false]
    show (match split sep (cs ++ sep :: rest) with
      | [] => [[c]]
      | h :: t => (c :: h) :: t) = _
    rw [ih hcs]

theorem parseUintLoop_natDigits (fuel : Nat) :
    ∀ (n : Nat) (acc : List Char), n < fuel → n ≤ maxUint64 →
      parseUintLoop (natDigits fuel n acc) 0 = parseUintLoop acc n := by
  induction fuel with
  | zero => intro n acc h; omega
  | succ fuel ih =>
    intro n acc h hmax
    have hd : (digitChar (n % 10)).toNat = 48 + n % 10 :=
      digitChar_toNat _ (Nat.mod_lt _ (by decide))
    have hlt : n % 10 < 10 := Nat.mod_lt _ (by decide)
    unfold maxUint64 at hmax
    have hstep : ∀ v, v * 10 + n % 10 = n →
        parseUintLoop (digitChar (n % 10) :: acc) v = parseUintLoop acc n := by
      intro v hv
      rw [parseUintLoop]
      have h1 : 48 ≤ (digitChar (n % 10)).toNat ∧ (digitChar (n % 10)).toNat ≤ 57 := by
        rw [hd]; omega
      have h2 : ¬ v ≥ maxUint64 / 10 + 1 := by unfold maxUint64; omega
      have h3 : (digitChar (n % 10)).toNat - 48 = n % 10 := by rw [hd]; omega
      have h4 : ¬ v * 10 + n % 10 > maxUint64 := by unfold maxUint64; omega
      rw [if_pos h1, if_neg h2, h3, if_neg h4, hv]
    unfold natDigits
    split
    · rename_i h0
      exact hstep 0 (by omega)
    · rename_i h0
      rw [ih (n / 10) _ (by omega) (by unfold maxUint64; omega)]
      exact hstep (n / 10) (by omega)

theorem parseUint_renderNat {n : Nat} (h : n ≤ maxUint64) :
    parseUint (renderNat n) = (n, none) := by
  unfold parseUint
  split
  · rename_i heq; exact absurd heq (renderNat_ne_nil n)
  · have := parseUintLoop_natDigits (n + 1) n [] (Nat.lt_succ_self n) h
    exact this

theorem renderNat_head (n : Nat) :
    ∃ c cs, renderNat n = c :: cs ∧ 48 ≤ c.toNat ∧ c.toNat ≤ 57 := by
  cases hn : renderNat n with
  | nil => exact absurd hn (renderNat_ne_nil n)
  | cons c cs =>
    refine ⟨c, cs, rfl, ?_⟩
    have hm : c ∈ renderNat n := by rw [hn]; exact List.mem_cons_self _ _
    rcases mem_natDigits _ _ _ _ hm with h | h
    · cases h
    · exact h

/-- What `%d` prints for a Go `int` from 0 on, `strconv.Atoi` reads back. -/
theorem atoi_renderNat {n : Nat} (h : (n : Int) ≤ maxInt64) :
    atoi (renderNat n) = ((n : Int), none) := by
  unfold maxInt64 at h
  obtain ⟨c, cs, hn, hc1, hc2⟩ := renderNat_head n
  have hp : parseSigned false (renderNat n) = ((n : Int), none) := by
    unfold parseSigned
    rw [parseUint_renderNat (by unfold maxUint64; omega)]
    simp only [Bool.not_false, true_and, ge_iff_le, Bool.false_eq_true, false_and, if_false]
    rw [if_neg (by omega)]
  rw [hn] at hp ⊢
  unfold atoi
  split
  · rename_i heq; cases heq
  · rename_i rest heq
    simp only [List.cons.injEq] at heq
    have : c.toNat = 43 := by rw [heq.1]; rfl
    omega
  · rename_i rest heq
    simp only [List.cons.injEq] at heq
    have : c.toNat = 45 := by rw [heq.1]; rfl
    omega
  · exact hp

theorem split_createKey (n m : Nat) :
    split '-' (createKey (n : Int) (m : Int)) = [renderNat n, renderNat m] := by
  show split '-' (renderNat n ++ '-' :: renderNat m) = _
  rw [split_append_sep _ (dash_not_mem_renderNat n),
    split_of_not_mem (dash_not_mem_renderNat m)]

/-! ## The bounds of the loops -/

theorem parseSigned_range (neg : Bool) (s : GoString) :
    minInt64 ≤ (parseSigned neg s).1 ∧ (parseSigned neg s).1 ≤ maxInt64 := by
  unfold parseSigned minInt64 maxInt64
  split
  · simp
  · split
    · simp
    · split
      · simp
      · rename_i un _ _ h1 h2
        cases neg
        · simp only [Bool.not_false, true_and, ge_iff_le, not_le] at h1
          simp only [Bool.false_eq_true, if_false]
          omega
        · simp only [true_and, gt_iff_lt, not_lt] at h2
          simp only [if_true]
          omega

theorem atoi_range (s : GoString) : minInt64 ≤ (atoi s).1 ∧ (atoi s).1 ≤ maxInt64 := by
  unfold atoi
  split
  · simp [minInt64, maxInt64]
  · exact parseSigned_range _ _
  · exact parseSigned_range _ _
  · exact parseSigned_range _ _

theorem countKey_range {acc acc' : Int × Int} {k : GoString}
    (h : countKey acc k = Except.ok acc')
    (ha : (0 ≤ acc.1 ∧ acc.1 ≤ maxInt64) ∧ (0 ≤ acc.2 ∧ acc.2 ≤ maxInt64)) :
    (0 ≤ acc'.1 ∧ acc'.1 ≤ maxInt64) ∧ (0 ≤ acc'.2 ∧ acc'.2 ≤ maxInt64) := by
  unfold countKey at h
  split at h
  · cases h
  · rename_i s0 rest _
    split at h
    · cases h
    · rename_i r hr
      split at h
      · cases h
      · rename_i s1 _ _
        split at h
        · cases h
        · rename_i p hp
          have h1 := (atoi_range s0).2
          have h2 := (atoi_range s1).2
          rw [hr] at h1
          rw [hp] at h2
          simp only at h1 h2
          simp only [Except.ok.injEq] at h
          subst h
          simp only
          refine ⟨⟨?_, ?_⟩, ?_, ?_⟩ <;> split <;> omega

theorem countKeys_range :
    ∀ (ks : List GoString) (acc acc' : Int × Int), countKeys ks acc = Except.ok acc' →
      (0 ≤ acc.1 ∧ acc.1 ≤ maxInt64) ∧ (0 ≤ acc.2 ∧ acc.2 ≤ maxInt64) →
      (0 ≤ acc'.1 ∧ acc'.1 ≤ maxInt64) ∧ (0 ≤ acc'.2 ∧ acc'.2 ≤ maxInt64) := by
  intro ks
  induction ks with
  | nil =>
    intro acc acc' h ha
    simp only [countKeys, Except.ok.injEq] at h
    exact h ▸ ha
  | cons k ks ih =>
    intro acc acc' h ha
    unfold countKeys at h
    split at h
    · cases h
    · rename_i acc1 h1
      exact ih acc1 acc' h (countKey_range h1 ha)

/-- The bounds that `countMaxRoundsPlayers` returns are Go `int`s from 0 on. -/
theorem countMax_range {mm : Matches} {nr np : Int}
    (h : countMaxRoundsPlayers mm = Except.ok (nr, np)) :
    (0 ≤ nr ∧ nr ≤ maxInt64) ∧ (0 ≤ np ∧ np ≤ maxInt64) :=
  countKeys_range _ (0, 0) (nr, np) h (by simp [maxInt64])

/-- With counters as the player loop leaves them, the 64 bit test of the sanity check
is the test on the numbers themselves. -/
theorem sanityFails_iff {mc bc np len : Int} (h1 : 0 ≤ mc) (h2 : 0 ≤ bc)
    (h3 : mc + bc ≤ len) (h4 : len ≤ maxInt64 - 1) (h5 : 0 ≤ np) (h6 : np ≤ maxInt64) :
    sanityFails mc bc np = true ↔ 2 * mc + bc ≠ np := by
  unfold sanityFails wrap64
  unfold maxInt64 at h4 h6
  rw [decide_eq_true_iff]
  constructor
  · intro h he
    apply h
    omega
  · intro h he
    apply h
    omega

/-! ## The keys of a ledger lie within its bounds -/

theorem lookup_mem {key : GoString} {m : Match} :
    ∀ {mm : Matches}, lookup key mm = some m → (key, m) ∈ mm := by
  intro mm
  induction mm with
  | nil => intro h; cases h
  | cons a mm ih =>
    intro h
    obtain ⟨k, v⟩ := a
    unfold lookup at h
    split at h
    · rename_i hk
      simp only [Option.some.injEq] at h
      rw [← hk, ← h]; exact List.mem_cons_self _ _
    · exact List.mem_cons_of_mem _ (ih h)

theorem parseUintLoop_natDigits_big (fuel : Nat) :
    ∀ (n : Nat) (acc : List Char), n < fuel → maxUint64 < n →
      parseUintLoop (natDigits fuel n acc) 0 = (maxUint64, some Err.ErrRange) := by
  induction fuel with
  | zero => intro n acc h; omega
  | succ fuel ih =>
    intro n acc h hbig
    have hd : (digitChar (n % 10)).toNat = 48 + n % 10 :=
      digitChar_toNat _ (Nat.mod_lt _ (by decide))
    have hlt : n % 10 < 10 := Nat.mod_lt _ (by decide)
    have hm : maxUint64 = 18446744073709551615 := rfl
    unfold natDigits
    split
    · rename_i h0
      omega
    · by_cases hq : n / 10 ≤ maxUint64
      · rw [parseUintLoop_natDigits fuel (n / 10) _ (by omega) hq, parseUintLoop]
        have h1 : 48 ≤ (digitChar (n % 10)).toNat ∧ (digitChar (n % 10)).toNat ≤ 57 := by
          rw [hd]; omega
        have h3 : (digitChar (n % 10)).toNat - 48 = n % 10 := by rw [hd]; omega
        rw [if_pos h1, h3]
        by_cases hc : n / 10 ≥ maxUint64 / 10 + 1
        · rw [if_pos hc]
        · rw [if_neg hc, if_pos (by omega)]
      · exact ih (n / 10) _ (by omega) (by omega)

/-- A decimal string beyond the largest `int`: `strconv.Atoi` gives a range error. -/
theorem atoi_renderNat_big {n : Nat} (h : maxInt64 < (n : Int)) :
    atoi (renderNat n) = (maxInt64, some Err.ErrRange) := by
  unfold maxInt64 at h
  obtain ⟨c, cs, hn, hc1, hc2⟩ := renderNat_head n
  have hp : parseSigned false (renderNat n) = (maxInt64, some Err.ErrRange) := by
    unfold parseSigned
    by_cases hq : n ≤ maxUint64
    · rw [parseUint_renderNat hq]
      simp only [Bool.not_false, true_and, ge_iff_le]
      rw [if_pos (by omega)]
    · have hbig : parseUint (renderNat n) = (maxUint64, some Err.ErrRange) := by
        unfold parseUint
        split
        · rename_i heq; exact absurd heq (renderNat_ne_nil n)
        · exact parseUintLoop_natDigits_big (n + 1) n [] (Nat.lt_succ_self n) (by omega)
      rw [hbig]
      simp only [Bool.not_false, true_and, ge_iff_le]
      rw [if_pos (by unfold maxUint64; omega)]
  rw [hn] at hp ⊢
  unfold atoi
  split
  · rename_i heq; cases heq
  · rename_i rest heq
    simp only [List.cons.injEq] at heq
    have : c.toNat = 43 := by rw [heq.1]; rfl
    omega
  · rename_i rest heq
    simp only [List.cons.injEq] at heq
    have : c.toNat = 45 := by rw [heq.1]; rfl
    omega
  · exact hp

theorem countKey_mono {acc acc' : Int × Int} {k : GoString}
    (h : countKey acc k = Except.ok acc') : acc.1 ≤ acc'.1 ∧ acc.2 ≤ acc'.2 := by
  unfold countKey at h
  split at h
  · cases h
  · split at h
    · cases h
    · split at h
      · cases h
      · split at h
        · cases h
        · simp only [Except.ok.injEq] at h
          subst h
          simp only
          constructor <;> split <;> omega

theorem countKeys_mono :
    ∀ (ks : List GoString) (acc acc' : Int × Int), countKeys ks acc = Except.ok acc' →
      acc.1 ≤ acc'.1 ∧ acc.2 ≤ acc'.2 := by
  intro ks
  induction ks with
  | nil =>
    intro acc acc' h
    simp only [countKeys, Except.ok.injEq] at h
    subst h
    exact ⟨le_refl _, le_refl _⟩
  | cons k ks ih =>
    intro acc acc' h
    unfold countKeys at h
    split at h
    · cases h
    · rename_i acc1 h1
      have a := countKey_mono h1
      have b := ih acc1 acc' h
      omega

/-- Every key of the ledger went through the loop body without an error, and the
bounds returned are at least what it gave. -/
theorem countKeys_mem :
    ∀ (ks : List GoString) (acc res : Int × Int), countKeys ks acc = Except.ok res →
      ∀ k ∈ ks, ∃ a b, countKey a k = Except.ok b ∧ b.1 ≤ res.1 ∧ b.2 ≤ res.2 := by
  intro ks
  induction ks with
  | nil => intro acc res _ k hk; cases hk
  | cons k0 ks ih =>
    intro acc res h k hk
    unfold countKeys at h
    split at h
    · cases h
    · rename_i acc1 h1
      rcases List.mem_cons.1 hk with he | hm
      · subst he
        have := countKeys_mono ks acc1 res h
        exact ⟨acc, acc1, h1, this.1, this.2⟩
      · exact ih acc1 res h k hm

theorem countKey_createKey_ok {a b : Int × Int} {r q : Int} (hr : 0 ≤ r)
    (h : countKey a (createKey r q) = Except.ok b) : 0 ≤ q ∧ q ≤ b.2 := by
  obtain ⟨n, rfl⟩ := Int.eq_ofNat_of_zero_le hr
  cases q with
  | ofNat m =>
    refine ⟨Int.natCast_nonneg m, ?_⟩
    unfold countKey at h
    rw [show createKey (↑n) (Int.ofNat m) = createKey (n : Int) (m : Int) from rfl,
      split_createKey] at h
    by_cases hn : (n : Int) ≤ maxInt64
    · by_cases hm : (m : Int) ≤ maxInt64
      · simp only [atoi_renderNat hn, atoi_renderNat hm, Except.ok.injEq] at h
        subst h
        simp only
        show (m : Int) ≤ _
        split <;> omega
      · simp only [atoi_renderNat hn, atoi_renderNat_big (not_le.1 hm)] at h
        cases h
    · simp only [atoi_renderNat_big (not_le.1 hn)] at h
      cases h
  | negSucc m =>
    exfalso
    unfold countKey at h
    have hs : split '-' (createKey (↑n) (Int.negSucc m)) =
        renderNat n :: [] :: split '-' (renderNat (m + 1)) := by
      show split '-' (renderNat n ++ '-' :: '-' :: renderNat (m + 1)) = _
      rw [split_append_sep _ (dash_not_mem_renderNat n)]
      simp [split]
    rw [hs] at h
    have he : atoi ([] : GoString) = (0, some Err.ErrSyntax) := rfl
    by_cases hn : (n : Int) ≤ maxInt64
    · simp only [atoi_renderNat hn, he] at h
      cases h
    · simp only [atoi_renderNat_big (not_le.1 hn)] at h
      cases h

/-- When `countMaxRoundsPlayers` returns `(nr, np)`, a record stored under the key of a
slot `(r, q)` with `r ≥ 0` has `0 ≤ q ≤ np`. -/
theorem keys_in_bounds {mm : Matches} {nr np r q : Int} {m : Match}
    (hc : countMaxRoundsPlayers mm = Except.ok (nr, np)) (hr : 0 ≤ r)
    (hm : lookup (createKey r q) mm = some m) : 0 ≤ q ∧ q ≤ np := by
  have hk : createKey r q ∈ mm.map Prod.fst :=
    List.mem_map.2 ⟨(createKey r q, m), lookup_mem hm, rfl⟩
  obtain ⟨a, b, hab, _, hb2⟩ := countKeys_mem _ _ _ hc _ hk
  have := countKey_createKey_ok hr hab
  simp only at hb2
  omega

/-! ## The loop body, case by case -/

theorem fetchMatch_ok_iff {key : GoString} {mm : Matches} {m : Match} :
    fetchMatch key mm = Except.ok m ↔ lookup key mm = some m := by
  unfold fetchMatch
  cases h : lookup key mm <;> simp

theorem fetchMatch_error {key : GoString} {mm : Matches} {e : Err}
    (h : fetchMatch key mm = Except.error e) : lookup key mm = none := by
  unfold fetchMatch at h
  cases h' : lookup key mm with
  | none => rfl
  | some m => rw [h'] at h; cases h

theorem validateBoards_ok {b1 b2 : Int} {u : Unit} (h : validateBoards b1 b2 = Except.ok u) :
    b1 = b2 := by
  unfold validateBoards at h
  split at h
  · assumption
  · cases h

theorem validateStarts_ok {s1 s2 : Int} {u : Unit} (h : validateStarts s1 s2 = Except.ok u) :
    (s1 = 1 ∧ s2 = 2) ∨ (s1 = 2 ∧ s2 = 1) := by
  unfold validateStarts at h
  split at h
  · left; assumption
  · split at h
    · right; assumption
    · cases h

/-- The four ways in which the loop body ends without a fatal error. -/
theorem playerStep_ok {mm : Matches} {div : GoString} {r p : Int} {st st' : RoundState}
    (h : playerStep mm div r st p = Except.ok st') :
    (createKey r p ∈ st.seen ∧ st' = st) ∨
    (createKey r p ∉ st.seen ∧ ∃ m1, fetchMatch (createKey r p) mm = Except.ok m1 ∧
      (((atoi m1.Opp).1 = 0 ∧
          st' = { st with seen := createKey r p :: st.seen,
                          byes_count := wrap64 (st.byes_count + 1) }) ∨
       ((atoi m1.Opp).1 ≠ 0 ∧ createKey r (atoi m1.Opp).1 ∈ createKey r p :: st.seen ∧
          st' = { st with seen := createKey r p :: st.seen }) ∨
       ((atoi m1.Opp).1 ≠ 0 ∧ createKey r (atoi m1.Opp).1 ∉ createKey r p :: st.seen ∧
          ∃ m2, fetchMatch (createKey r (atoi m1.Opp).1) mm = Except.ok m2 ∧
            m1.Table = m2.Table ∧
            ((m1.Start = 1 ∧ m2.Start = 2) ∨ (m1.Start = 2 ∧ m2.Start = 1)) ∧
            st' = { seen := createKey r (atoi m1.Opp).1 :: createKey r p :: st.seen
                    results := st.results ++ [formatResult m1 m2 div]
                    byes_count := st.byes_count
                    match_count := wrap64 (st.match_count + 1) }))) := by
  unfold playerStep at h
  simp only at h
  split at h
  · rename_i hs
    left; exact ⟨hs, by cases h; rfl⟩
  · rename_i hs
    right
    refine ⟨hs, ?_⟩
    split at h
    · cases h
    · rename_i m1 hm1
      refine ⟨m1, hm1, ?_⟩
      split at h
      · rename_i hz
        left; exact ⟨hz, by cases h; rfl⟩
      · rename_i hz
        right
        split at h
        · rename_i hk
          left; exact ⟨hz, hk, by cases h; rfl⟩
        · rename_i hk
          right
          refine ⟨hz, hk, ?_⟩
          split at h
          · cases h
          · rename_i m2 hm2
            split at h
            · cases h
            · rename_i u hb
              split at h
              · cases h
              · rename_i u' hv
                exact ⟨m2, hm2, validateBoards_ok hb, validateStarts_ok hv, by cases h; rfl⟩

/-! ## The trace of a run -/

theorem traceSlots_append (tr : List Pairing) (t : Pairing) :
    traceSlots (tr ++ [t]) = traceSlots tr ++ [(t.r, t.p), (t.r, t.q)] := by
  induction tr with
  | nil => rfl
  | cons a tr ih => simp [traceSlots, ih]

theorem mem_traceSlots {tr : List Pairing} {s : Int × Int} :
    s ∈ traceSlots tr ↔ ∃ t ∈ tr, s = (t.r, t.p) ∨ s = (t.r, t.q) := by
  induction tr with
  | nil => simp [traceSlots]
  | cons a tr ih =>
    simp only [traceSlots, List.mem_cons, ih]
    constructor
    · rintro (h | h | ⟨t, ht, h⟩)
      · exact ⟨a, Or.inl rfl, Or.inl h⟩
      · exact ⟨a, Or.inl rfl, Or.inr h⟩
      · exact ⟨t, Or.inr ht, h⟩
    · rintro ⟨t, ht | ht, h⟩
      · subst ht
        rcases h with h | h
        · exact Or.inl h
        · exact Or.inr (Or.inl h)
      · exact Or.inr (Or.inr ⟨t, ht, h⟩)

theorem traced_nil (mm : Matches) (div : GoString) : Traced mm div [] [] [] [] where
  results_eq := rfl
  valid := by simp
  sub := by simp [traceFirst]
  seen_iff := by simp
  present := by simp
  nodup := by simp [traceSlots]

/-- The key of every slot that a pair of the trace uses is marked as seen. -/
theorem Traced.slot_seen {mm : Matches} {div : GoString} {seen : List GoString}
    {results : List Result} {proc : List (Int × Int)} {tr : List Pairing}
    (hT : Traced mm div seen results proc tr) {s : Int × Int} (hs : s ∈ traceSlots tr) :
    createKey s.1 s.2 ∈ seen := by
  rcases mem_traceSlots.1 hs with ⟨t, ht, h | h⟩
  · refine (hT.seen_iff _).2 (Or.inl ⟨(t.r, t.p), ?_, by rw [h]⟩)
    exact hT.sub.subset (List.mem_map.2 ⟨t, ht, rfl⟩)
  · exact (hT.seen_iff _).2 (Or.inr ⟨t, ht, by rw [h]⟩)

/-- A slot whose key is already marked: the loop body goes on to the next player. -/
theorem Traced.skip {mm : Matches} {div : GoString} {seen : List GoString}
    {results : List Result} {proc : List (Int × Int)} {tr : List Pairing}
    (hT : Traced mm div seen results proc tr) {r p : Int} (hk : createKey r p ∈ seen) :
    Traced mm div seen results (proc ++ [(r, p)]) tr where
  results_eq := hT.results_eq
  valid := hT.valid
  sub := hT.sub.trans (List.sublist_append_left _ _)
  seen_iff := by
    intro k
    rw [hT.seen_iff k]
    constructor
    · rintro (⟨s, hs, h⟩ | h)
      · exact Or.inl ⟨s, List.mem_append_left _ hs, h⟩
      · exact Or.inr h
    · rintro (⟨s, hs, h⟩ | h)
      · rcases List.mem_append.1 hs with hs | hs
        · exact Or.inl ⟨s, hs, h⟩
        · simp only [List.mem_singleton] at hs
          subst hs
          exact (hT.seen_iff k).1 (h ▸ hk)
      · exact Or.inr h
  present := hT.present
  nodup := hT.nodup

/-- A slot that is marked without a pair being made (a bye, or an opponent already
consumed). -/
theorem Traced.single {mm : Matches} {div : GoString} {seen : List GoString}
    {results : List Result} {proc : List (Int × Int)} {tr : List Pairing}
    (hT : Traced mm div seen results proc tr) {r p : Int} {m : Match}
    (hm : lookup (createKey r p) mm = some m) :
    Traced mm div (createKey r p :: seen) results (proc ++ [(r, p)]) tr where
  results_eq := hT.results_eq
  valid := hT.valid
  sub := hT.sub.trans (List.sublist_append_left _ _)
  seen_iff := by
    intro k
    rw [List.mem_cons, hT.seen_iff k]
    constructor
    · rintro (h | ⟨s, hs, h⟩ | h)
      · exact Or.inl ⟨(r, p), by simp, h⟩
      · exact Or.inl ⟨s, List.mem_append_left _ hs, h⟩
      · exact Or.inr h
    · rintro (⟨s, hs, h⟩ | h)
      · rcases List.mem_append.1 hs with hs | hs
        · exact Or.inr (Or.inl ⟨s, hs, h⟩)
        · simp only [List.mem_singleton] at hs
          subst hs
          exact Or.inl h
      · exact Or.inr (Or.inr h)
  present := by
    intro k hk
    rcases List.mem_cons.1 hk with h | h
    · exact ⟨m, h ▸ hm⟩
    · exact hT.present k h
  nodup := hT.nodup

/-- A slot at which a pair is made. -/
theorem Traced.pair {mm : Matches} {div : GoString} {seen : List GoString}
    {results : List Result} {proc : List (Int × Int)} {tr : List Pairing}
    (hT : Traced mm div seen results proc tr) {t : Pairing} (hv : t.Valid mm)
    (h1 : createKey t.r t.p ∉ seen) (h2 : createKey t.r t.q ∉ createKey t.r t.p :: seen) :
    Traced mm div (createKey t.r t.q :: createKey t.r t.p :: seen)
      (results ++ [formatResult t.m1 t.m2 div]) (proc ++ [(t.r, t.p)]) (tr ++ [t]) where
  results_eq := by simp [hT.results_eq, Pairing.result]
  valid := by
    intro a ha
    rcases List.mem_append.1 ha with ha | ha
    · exact hT.valid a ha
    · simp only [List.mem_singleton] at ha
      exact ha ▸ hv
  sub := by
    simp only [traceFirst, List.map_append, List.map_cons, List.map_nil]
    exact List.Sublist.append hT.sub (List.Sublist.refl _)
  seen_iff := by
    intro k
    rw [List.mem_cons, List.mem_cons, hT.seen_iff k]
    constructor
    · rintro (h | h | ⟨s, hs, h⟩ | ⟨a, ha, h⟩)
      · exact Or.inr ⟨t, by simp, h⟩
      · exact Or.inl ⟨(t.r, t.p), by simp, h⟩
      · exact Or.inl ⟨s, List.mem_append_left _ hs, h⟩
      · exact Or.inr ⟨a, List.mem_append_left _ ha, h⟩
    · rintro (⟨s, hs, h⟩ | ⟨a, ha, h⟩)
      · rcases List.mem_append.1 hs with hs | hs
        · exact Or.inr (Or.inr (Or.inl ⟨s, hs, h⟩))
        · simp only [List.mem_singleton] at hs
          subst hs
          exact Or.inr (Or.inl h)
      · rcases List.mem_append.1 ha with ha | ha
        · exact Or.inr (Or.inr (Or.inr ⟨a, ha, h⟩))
        · simp only [List.mem_singleton] at ha
          subst ha
          exact Or.inl h
  present := by
    intro k hk
    rcases List.mem_cons.1 hk with h | hk
    · exact ⟨t.m2, h ▸ fetchMatch_ok_iff.1 hv.2.1⟩
    · rcases List.mem_cons.1 hk with h | hk
      · exact ⟨t.m1, h ▸ fetchMatch_ok_iff.1 hv.1⟩
      · exact hT.present k hk
  nodup := by
    rw [traceSlots_append, List.map_append, List.nodup_append]
    refine ⟨hT.nodup, ?_, ?_⟩
    · simp only [List.map_cons, List.map_nil, List.nodup_cons, List.mem_singleton,
        List.not_mem_nil, not_false_eq_true, List.nodup_nil, and_true]
      intro h
      exact h2 (List.mem_cons.2 (Or.inl h.symm))
    · intro k hk hk'
      rcases List.mem_map.1 hk with ⟨s, hs, rfl⟩
      have hseen := hT.slot_seen hs
      simp only [List.map_cons, List.map_nil, List.mem_cons, List.mem_singleton,
        List.not_mem_nil, or_false] at hk'
      rcases hk' with h | h
      · exact h1 (h ▸ hseen)
      · exact h2 (List.mem_cons_of_mem _ (h ▸ hseen))

/-! ## The counters of a round -/

theorem wrap64_id {x : Int} (h1 : -9223372036854775808 ≤ x) (h2 : x ≤ 9223372036854775807) :
    wrap64 x = x := by
  unfold wrap64; omega

theorem consumedAsOpp_iff {tr : List Pairing} {r p : Int} :
    consumedAsOpp tr r p = true ↔ ∃ t ∈ tr, t.r = r ∧ t.q = p := by
  simp [consumedAsOpp]

theorem consumedAsOpp_append {tr ext : List Pairing} {r p : Int}
    (h : ∀ t ∈ ext, ¬ (t.r = r ∧ t.q = p)) :
    consumedAsOpp (tr ++ ext) r p = consumedAsOpp tr r p := by
  rw [Bool.eq_iff_iff, consumedAsOpp_iff, consumedAsOpp_iff]
  constructor
  · rintro ⟨t, ht, h'⟩
    rcases List.mem_append.1 ht with ht | ht
    · exact ⟨t, ht, h'⟩
    · exact absurd h' (h t ht)
  · rintro ⟨t, ht, h'⟩
    exact ⟨t, List.mem_append_left _ ht, h'⟩

theorem freeByes_append (mm : Matches) (tr ext : List Pairing) (r : Int) (ps : List Int)
    (h : ∀ t ∈ ext, ∀ p ∈ ps, ¬ (t.r = r ∧ t.q = p)) :
    freeByes mm (tr ++ ext) r ps = freeByes mm tr r ps := by
  unfold freeByes
  apply List.filter_congr
  intro p hp
  rw [consumedAsOpp_append (fun t ht => h t ht p hp)]

theorem freeByes_snoc (mm : Matches) (tr : List Pairing) (r : Int) (ps : List Int) (p : Int) :
    freeByes mm tr r (ps ++ [p]) =
      freeByes mm tr r ps ++ (if isBye mm r p && !consumedAsOpp tr r p then [p] else []) := by
  unfold freeByes
  rw [List.filter_append]
  congr 1
  by_cases h : (isBye mm r p && !consumedAsOpp tr r p) = true
  · simp [List.filter_cons, h]
  · simp [List.filter_cons, h]

theorem isBye_of_lookup {mm : Matches} {r p : Int} {m : Match}
    (h : lookup (createKey r p) mm = some m) : isBye mm r p = decide ((atoi m.Opp).1 = 0) := by
  unfold isBye; rw [h]

theorem settled_append {tr : List Pairing} {r p q : Int} (ext : List Pairing)
    (h : Settled tr r p q) : Settled (tr ++ ext) r p q := by
  rcases h with ⟨t, ht, h⟩ | ⟨t, ht, h⟩
  · exact Or.inl ⟨t, List.mem_append_left _ ht, h⟩
  · exact Or.inr ⟨t, List.mem_append_left _ ht, h⟩

theorem allSettled_append {mm : Matches} {tr : List Pairing} {proc : List (Int × Int)}
    (ext : List Pairing) (h : AllSettled mm tr proc) : AllSettled mm (tr ++ ext) proc :=
  fun s hs m1 hm hz hlt => settled_append ext (h s hs m1 hm hz hlt)

theorem allSettled_snoc {mm : Matches} {tr : List Pairing} {proc : List (Int × Int)} {r p : Int}
    (h : AllSettled mm tr proc)
    (hnew : ∀ m1, lookup (createKey r p) mm = some m1 → (atoi m1.Opp).1 ≠ 0 →
      p < (atoi m1.Opp).1 → Settled tr r p (atoi m1.Opp).1) :
    AllSettled mm tr (proc ++ [(r, p)]) := by
  intro s hs m1 hm hz hlt
  rcases List.mem_append.1 hs with hs | hs
  · exact h s hs m1 hm hz hlt
  · simp only [List.mem_singleton] at hs
    subst hs
    exact hnew m1 hm hz hlt

theorem roundInv_init {mm : Matches} {div : GoString} {r : Int} {proc₀ : List (Int × Int)}
    {seen : List GoString} {results : List Result} {tr : List Pairing}
    (hT : Traced mm div seen results proc₀ tr) (hlt : ∀ t ∈ tr, t.p < t.q)
    (hg : AllSettled mm tr proc₀) :
    RoundInv mm div r proc₀ []
      { seen := seen, results := results, byes_count := 0, match_count := 0 } tr where
  traced := by simpa using hT
  byes_eq := by simp [freeByes]
  match_nonneg := le_refl _
  count_le := by simp
  first_lt := hlt
  settled := by simpa using hg

/-- One pass of the loop body keeps the description of the round. -/
theorem roundInv_step {mm : Matches} {div : GoString} {r p : Int} {proc₀ : List (Int × Int)}
    {done : List Int} {st st' : RoundState} {tr : List Pairing}
    (hproc : ∀ s ∈ proc₀, s.1 ≠ r) (hp : p ∉ done)
    (hlen : (done.length : Int) < maxInt64)
    (hdone : ∀ a ∈ done, a < p)
    (hrange : ∀ q m, lookup (createKey r q) mm = some m → q ≠ 0 → q ∈ done ∨ q = p ∨ p < q)
    (hI : RoundInv mm div r proc₀ done st tr)
    (h : playerStep mm div r st p = Except.ok st') :
    ∃ ext, RoundInv mm div r proc₀ (done ++ [p]) st' (tr ++ ext) ∧ ∀ t ∈ ext, t.r = r := by
  have hT := hI.traced
  have hG := hI.settled
  -- a slot of this round that the loop went through belongs to an earlier player
  have hproc_lt : ∀ s ∈ proc₀ ++ done.map (fun p => (r, p)), s.1 = r → s.2 < p := by
    intro s hs hr
    rcases List.mem_append.1 hs with hs | hs
    · exact absurd hr (hproc s hs)
    · obtain ⟨x, hx, rfl⟩ := List.mem_map.1 hs
      exact hdone x hx
  have hfirst_lt : ∀ t ∈ tr, t.r = r → t.p < p := by
    intro t ht hr
    exact hproc_lt (t.r, t.p) (hT.sub.subset (List.mem_map.2 ⟨t, ht, rfl⟩)) hr
  have hbc : 0 ≤ st.byes_count := by rw [hI.byes_eq]; exact Int.natCast_nonneg _
  have hmc := hI.match_nonneg
  have hle := hI.count_le
  have hmx : maxInt64 = 9223372036854775807 := rfl
  have hnew : (r, p) ∉ proc₀ ++ done.map (fun p => (r, p)) := by
    intro hs
    rcases List.mem_append.1 hs with hs | hs
    · exact hproc _ hs rfl
    · rcases List.mem_map.1 hs with ⟨x, hx, hxe⟩
      simp only [Prod.mk.injEq, true_and] at hxe
      exact hp (hxe ▸ hx)
  -- a marked key of this slot comes from a pair that consumed it
  have hmarked : createKey r p ∈ st.seen → consumedAsOpp tr r p = true := by
    intro hk
    rcases (hT.seen_iff _).1 hk with ⟨s, hs, he⟩ | ⟨t, ht, he⟩
    · have := createKey_inj he
      have hs' : (r, p) = s := Prod.ext this.1 this.2
      exact absurd (hs' ▸ hs) hnew
    · have := createKey_inj he
      exact consumedAsOpp_iff.2 ⟨t, ht, this.1.symm, this.2.symm⟩
  have hunmarked : createKey r p ∉ st.seen → consumedAsOpp tr r p = false := by
    intro hk
    rw [Bool.eq_false_iff]
    intro hc
    rcases consumedAsOpp_iff.1 hc with ⟨t, ht, h1, h2⟩
    exact hk ((hT.seen_iff _).2 (Or.inr ⟨t, ht, by rw [h1, h2]⟩))
  have hmap : proc₀ ++ (done ++ [p]).map (fun p => (r, p)) =
      (proc₀ ++ done.map (fun p => (r, p))) ++ [(r, p)] := by simp
  rcases playerStep_ok h with ⟨hk, rfl⟩ | ⟨hk, m1, hm1, hcase⟩
  · refine ⟨[], ⟨?_, ?_, hmc, ?_, ?_, ?_⟩, by simp⟩
    · rw [hmap, List.append_nil]; exact hT.skip hk
    · rw [List.append_nil, freeByes_snoc, hmarked hk]; simpa using hI.byes_eq
    · simp only [List.length_append, List.length_singleton, Nat.cast_add, Nat.cast_one]; omega
    · rw [List.append_nil]; exact hI.first_lt
    · rw [hmap, List.append_nil]
      apply allSettled_snoc hG
      intro m1 _ _ _
      obtain ⟨t, ht, hr, hq⟩ := consumedAsOpp_iff.1 (hmarked hk)
      exact Or.inr ⟨t, ht, hr, hfirst_lt t ht hr, Or.inl hq⟩
  · have hl := fetchMatch_ok_iff.1 hm1
    rcases hcase with ⟨hz, rfl⟩ | ⟨hz, hk2, rfl⟩ | ⟨hz, hk2, m2, hm2, hb, hs, rfl⟩
    · refine ⟨[], ⟨?_, ?_, hmc, ?_, ?_, ?_⟩, by simp⟩
      · rw [hmap, List.append_nil]; exact hT.single hl
      · rw [List.append_nil, freeByes_snoc, hunmarked hk, isBye_of_lookup hl]
        simp only [hz, decide_True, Bool.not_false, Bool.and_self, if_true,
          List.length_append, List.length_singleton, Nat.cast_add, Nat.cast_one]
        rw [wrap64_id (by omega) (by omega), hI.byes_eq]
      · simp only [List.length_append, List.length_singleton, Nat.cast_add, Nat.cast_one]
        rw [wrap64_id (by omega) (by omega)]; omega
      · rw [List.append_nil]; exact hI.first_lt
      · rw [hmap, List.append_nil]
        apply allSettled_snoc hG
        intro m1' hl' hz' _
        rw [hl] at hl'
        cases hl'
        exact absurd hz hz'
    · refine ⟨[], ⟨?_, ?_, hmc, ?_, ?_, ?_⟩, by simp⟩
      · rw [hmap, List.append_nil]; exact hT.single hl
      · rw [List.append_nil, freeByes_snoc, isBye_of_lookup hl]
        simpa [hz] using hI.byes_eq
      · simp only [List.length_append, List.length_singleton, Nat.cast_add, Nat.cast_one]; omega
      · rw [List.append_nil]; exact hI.first_lt
      · rw [hmap, List.append_nil]
        apply allSettled_snoc hG
        intro m1' hl' _ hlt'
        rw [hl] at hl'
        cases hl'
        rcases List.mem_cons.1 hk2 with he | hseen
        · have := (createKey_inj he).2
          omega
        · rcases (hT.seen_iff _).1 hseen with ⟨s, hs, he⟩ | ⟨t, ht, he⟩
          · have hj := createKey_inj he
            have := hproc_lt s hs hj.1.symm
            omega
          · have hj := createKey_inj he
            exact Or.inr ⟨t, ht, hj.1.symm, hfirst_lt t ht hj.1.symm, Or.inr hj.2.symm⟩
    · let t : Pairing := ⟨r, p, (atoi m1.Opp).1, m1, m2⟩
      have hv : t.Valid mm := ⟨hm1, hm2, rfl, hz, hb, hs⟩
      have hpq : p < (atoi m1.Opp).1 := by
        rcases hrange _ m2 (fetchMatch_ok_iff.1 hm2) hz with hq | hq | hq
        · exfalso
          apply hk2
          apply List.mem_cons_of_mem
          exact (hT.seen_iff _).2 (Or.inl ⟨(r, (atoi m1.Opp).1),
            List.mem_append_right _ (List.mem_map.2 ⟨_, hq, rfl⟩), rfl⟩)
        · exfalso
          apply hk2
          rw [hq]
          exact List.mem_cons_self _ _
        · exact hq
      refine ⟨[t], ⟨?_, ?_, ?_, ?_, ?_, ?_⟩, by simp [t]⟩
      · rw [hmap]; exact hT.pair hv hk hk2
      · have hstable : freeByes mm (tr ++ [t]) r done = freeByes mm tr r done := by
          apply freeByes_append
          intro a ha x hx hax
          simp only [List.mem_singleton] at ha
          subst ha
          apply hk2
          apply List.mem_cons_of_mem
          have : createKey r x ∈ st.seen :=
            (hT.seen_iff _).2 (Or.inl ⟨(r, x),
              List.mem_append_right _ (List.mem_map.2 ⟨x, hx, rfl⟩), rfl⟩)
          rw [← hax.2] at this
          exact this
        rw [freeByes_snoc, hstable, isBye_of_lookup hl]
        simpa [hz] using hI.byes_eq
      · show 0 ≤ wrap64 (st.match_count + 1)
        rw [wrap64_id (by omega) (by omega)]; omega
      · show wrap64 (st.match_count + 1) + st.byes_count ≤ _
        simp only [List.length_append, List.length_singleton, Nat.cast_add, Nat.cast_one]
        rw [wrap64_id (by omega) (by omega)]; omega
      · intro a ha
        rcases List.mem_append.1 ha with ha | ha
        · exact hI.first_lt a ha
        · simp only [List.mem_singleton] at ha
          subst ha
          exact hpq
      · rw [hmap]
        apply allSettled_snoc (allSettled_append [t] hG)
        intro _ _ _ _
        exact Or.inl ⟨t, by simp, rfl, rfl⟩

/-- The player loop keeps the description of the round. -/
theorem roundInv_loop {mm : Matches} {div : GoString} {r : Int} {proc₀ : List (Int × Int)}
    (hproc : ∀ s ∈ proc₀, s.1 ≠ r) :
    ∀ (ps done : List Int) (st st' : RoundState) (tr : List Pairing),
      (done ++ ps).Pairwise (· < ·) → ((done ++ ps).length : Int) ≤ maxInt64 →
      (ps ≠ [] → ∀ q m, lookup (createKey r q) mm = some m → q ≠ 0 → q ∈ done ++ ps) →
      RoundInv mm div r proc₀ done st tr →
      playerLoop mm div r ps st = Except.ok st' →
      ∃ ext, RoundInv mm div r proc₀ (done ++ ps) st' (tr ++ ext) ∧ ∀ t ∈ ext, t.r = r := by
  intro ps
  induction ps with
  | nil =>
    intro done st st' tr _ _ _ hI h
    simp only [playerLoop, Except.ok.injEq] at h
    subst h
    exact ⟨[], by simpa using hI, by simp⟩
  | cons p ps ih =>
    intro done st st' tr hpw hlen hrange hI h
    unfold playerLoop at h
    split at h
    · cases h
    · rename_i st1 hst1
      have hpw' := List.pairwise_append.1 hpw
      have hdone : ∀ a ∈ done, a < p := fun a ha => hpw'.2.2 a ha p (List.mem_cons_self _ _)
      have htail : ∀ b ∈ ps, p < b := (List.pairwise_cons.1 hpw'.2.1).1
      have hp : p ∉ done := fun hp => lt_irrefl p (hdone p hp)
      have hl : (done.length : Int) < maxInt64 := by
        simp only [List.length_append, List.length_cons, Nat.cast_add, Nat.cast_one] at hlen
        omega
      have hrange1 : ∀ q m, lookup (createKey r q) mm = some m → q ≠ 0 →
          q ∈ done ∨ q = p ∨ p < q := by
        intro q m hm hq
        rcases List.mem_append.1 (hrange (List.cons_ne_nil _ _) q m hm hq) with hd | hd
        · exact Or.inl hd
        · rcases List.mem_cons.1 hd with hd | hd
          · exact Or.inr (Or.inl hd)
          · exact Or.inr (Or.inr (htail q hd))
      obtain ⟨e1, hI1, he1⟩ := roundInv_step hproc hp hl hdone hrange1 hI hst1
      have hassoc : done ++ p :: ps = (done ++ [p]) ++ ps := by simp
      obtain ⟨e2, hI2, he2⟩ := ih (done ++ [p]) st1 st' (tr ++ e1)
        (hassoc ▸ hpw) (hassoc ▸ hlen)
        (fun _ q m hm hq => hassoc ▸ hrange (List.cons_ne_nil _ _) q m hm hq) hI1 h
      refine ⟨e1 ++ e2, ?_, ?_⟩
      · rw [hassoc, ← List.append_assoc]; exact hI2
      · intro t ht
        rcases List.mem_append.1 ht with ht | ht
        · exact he1 t ht
        · exact he2 t ht

theorem slotsOf_snoc (ps done : List Int) (r : Int) :
    slotsOf ps (done ++ [r]) = slotsOf ps done ++ ps.map (fun p => (r, p)) := by
  induction done with
  | nil => simp [slotsOf]
  | cons a done ih => simp [slotsOf, ih]

theorem mem_slotsOf {ps rounds : List Int} {s : Int × Int} :
    s ∈ slotsOf ps rounds ↔ s.1 ∈ rounds ∧ s.2 ∈ ps := by
  induction rounds with
  | nil => simp [slotsOf]
  | cons a rounds ih =>
    simp only [slotsOf, List.mem_append, List.mem_map, ih, List.mem_cons]
    constructor
    · rintro (⟨p, hp, rfl⟩ | ⟨h1, h2⟩)
      · exact ⟨Or.inl rfl, hp⟩
      · exact ⟨Or.inr h1, h2⟩
    · rintro ⟨h1 | h1, h2⟩
      · exact Or.inl ⟨s.2, h2, by rw [← h1]⟩
      · exact Or.inr ⟨h1, h2⟩

theorem runInv_init (mm : Matches) (div : GoString) (np : Int) (ps : List Int) :
    RunInv mm div np ps []
      { seen := [], results := [], printed := [], counts := [] } [] where
  traced := traced_nil mm div
  rounds_eq := rfl
  counts := by simp
  printed_eq := rfl
  trace_rounds := by simp
  first_lt := by simp
  settled := by simp [AllSettled, slotsOf]

theorem forRange_nodup (n : Int) : (forRange n).Nodup := by
  unfold forRange
  apply List.Nodup.map _ (List.nodup_range _)
  intro a b h
  simpa using h

theorem forRange_pairwise (n : Int) : (forRange n).Pairwise (· < ·) := by
  unfold forRange
  rw [List.pairwise_map]
  apply List.Pairwise.imp _ (List.pairwise_lt_range _)
  intro a b h
  omega

theorem forRange_length (n : Int) : ((forRange n).length : Int) ≤ maxInt64 - 1 := by
  unfold forRange maxInt64 wrap64
  rw [List.length_map, List.length_range]
  omega

theorem mem_forRange {n p : Int} : p ∈ forRange n ↔ 1 ≤ p ∧ p < wrap64 (n + 1) := by
  unfold forRange
  simp only [List.mem_map, List.mem_range]
  constructor
  · rintro ⟨i, hi, rfl⟩
    omega
  · rintro ⟨h1, h2⟩
    exact ⟨(p - 1).toNat, by omega, by omega⟩

/-- One round keeps the description of the run. -/
theorem runInv_step {mm : Matches} {div : GoString} {np r : Int} {done : List Int}
    {rs rs' : RunState} {tr : List Pairing}
    (hr : r ∉ done) (hnp : np ≤ maxInt64)
    (hkeys : ∀ q m, lookup (createKey r q) mm = some m → 0 ≤ q ∧ q ≤ np)
    (hI : RunInv mm div np (forRange np) done rs tr)
    (h : roundStep mm div np rs r = Except.ok rs') :
    ∃ ext, RunInv mm div np (forRange np) (done ++ [r]) rs' (tr ++ ext) ∧
      ∀ t ∈ ext, t.r = r := by
  unfold roundStep at h
  split at h
  · cases h
  · rename_i st hst
    have hproc : ∀ s ∈ slotsOf (forRange np) done, s.1 ≠ r := by
      intro s hs he
      exact hr (he ▸ (mem_slotsOf.1 hs).1)
    have hlen : ((([] : List Int) ++ forRange np).length : Int) ≤ maxInt64 := by
      have := forRange_length np
      simp only [List.nil_append]; omega
    have hrange : forRange np ≠ [] → ∀ q m, lookup (createKey r q) mm = some m → q ≠ 0 →
        q ∈ [] ++ forRange np := by
      intro hne q m hm hq
      obtain ⟨x, hx⟩ := List.exists_mem_of_ne_nil _ hne
      have hx' := mem_forRange.1 hx
      have hb := hkeys q m hm
      have hw : wrap64 (np + 1) = np + 1 := by
        unfold wrap64 maxInt64 at *
        omega
      rw [List.nil_append, mem_forRange, hw]
      omega
    obtain ⟨ext, hR, hext⟩ := roundInv_loop hproc (forRange np) [] _ st tr
      (by simpa using forRange_pairwise np) hlen hrange
      (roundInv_init hI.traced hI.first_lt hI.settled) hst
    simp only [List.nil_append] at hR
    simp only [Except.ok.injEq] at h
    subst h
    refine ⟨ext, ⟨?_, ?_, ?_, ?_, ?_, hR.first_lt, ?_⟩, hext⟩
    rotate_left 5
    · rw [slotsOf_snoc]; exact hR.settled
    · rw [slotsOf_snoc]; exact hR.traced
    · simp [hI.rounds_eq]
    · intro c hc
      rcases List.mem_append.1 hc with hc | hc
      · have hcr : c.round ∈ done := hI.rounds_eq ▸ List.mem_map.2 ⟨c, hc, rfl⟩
        have hst : freeByes mm (tr ++ ext) c.round (forRange np) =
            freeByes mm tr c.round (forRange np) := by
          apply freeByes_append
          intro t ht x _ hx
          exact hr (by rw [← hext t ht, hx.1]; exact hcr)
        rw [hst]; exact hI.counts c hc
      · simp only [List.mem_singleton] at hc
        subst hc
        exact ⟨hR.byes_eq, hR.match_nonneg, hR.count_le⟩
    · show (if sanityFails st.match_count st.byes_count np = true then _ else _) = _
      rw [List.filterMap_append, ← hI.printed_eq]
      by_cases hs : sanityFails st.match_count st.byes_count np = true
      · simp [warningOf, hs]
      · simp [warningOf, hs]
    · intro t ht
      rcases List.mem_append.1 ht with ht | ht
      · exact List.mem_append_left _ (hI.trace_rounds t ht)
      · exact List.mem_append_right _ (by simp [hext t ht])

/-- The round loop keeps the description of the run. -/
theorem runInv_loop {mm : Matches} {div : GoString} {np : Int}
    (hnp : np ≤ maxInt64)
    (hkeys : ∀ r q m, 0 ≤ r → lookup (createKey r q) mm = some m → 0 ≤ q ∧ q ≤ np) :
    ∀ (rounds done : List Int) (rs rs' : RunState) (tr : List Pairing),
      (done ++ rounds).Nodup → (∀ r ∈ rounds, 0 ≤ r) →
      RunInv mm div np (forRange np) done rs tr →
      roundLoop mm div np rounds rs = Except.ok rs' →
      ∃ tr', RunInv mm div np (forRange np) (done ++ rounds) rs' tr' := by
  intro rounds
  induction rounds with
  | nil =>
    intro done rs rs' tr _ _ hI h
    simp only [roundLoop, Except.ok.injEq] at h
    subst h
    exact ⟨tr, by simpa using hI⟩
  | cons r rounds ih =>
    intro done rs rs' tr hnd hpos hI h
    unfold roundLoop at h
    split at h
    · cases h
    · rename_i rs1 hrs1
      have hr : r ∉ done := fun hr =>
        (List.nodup_append.1 hnd).2.2 hr (List.mem_cons_self _ _)
      have hr0 : 0 ≤ r := hpos r (List.mem_cons_self _ _)
      obtain ⟨ext, hI1, _⟩ := runInv_step hr hnp (fun q m => hkeys r q m hr0) hI hrs1
      have hassoc : done ++ r :: rounds = (done ++ [r]) ++ rounds := by simp
      rw [hassoc] at hnd ⊢
      exact ih (done ++ [r]) rs1 rs' (tr ++ ext) hnd
        (fun x hx => hpos x (List.mem_cons_of_mem _ hx)) hI1 h

/-- Every run of `processMatches` that returns is described by a trace of pairs. -/
theorem run_traced {mm : Matches} {div : GoString} {nr np : Int} {out : RunState}
    (hc : countMaxRoundsPlayers mm = Except.ok (nr, np))
    (h : processMatchesRun mm div = Except.ok out) :
    ∃ tr, RunInv mm div np (forRange np) (forRange nr) out tr := by
  unfold processMatchesRun at h
  rw [hc] at h
  simp only at h
  have := runInv_loop (countMax_range hc).2.2 (fun r q m hr hm => keys_in_bounds hc hr hm)
    (forRange nr) [] _ out [] (by simpa using forRange_nodup nr)
    (fun r hr => by have := (mem_forRange.1 hr).1; omega)
    (runInv_init mm div np (forRange np)) h
  simpa using this

theorem processMatches_ok {mm : Matches} {div : GoString} {res : List Result}
    (h : processMatches mm div = Except.ok res) :
    ∃ out, processMatchesRun mm div = Except.ok out ∧ out.results = res := by
  unfold processMatches at h
  split at h
  · cases h
  · rename_i rs hrs
    simp only [Except.ok.injEq] at h
    exact ⟨rs, hrs, h⟩

theorem processMatchesRun_bounds {mm : Matches} {div : GoString} {out : RunState}
    (h : processMatchesRun mm div = Except.ok out) :
    ∃ nr np, countMaxRoundsPlayers mm = Except.ok (nr, np) := by
  unfold processMatchesRun at h
  split at h
  · cases h
  · rename_i nr np hc
    exact ⟨nr, np, hc⟩

/-! ## What every returned result list satisfies -/

theorem traceSlots_pair_ne {α : Type} (f : Int × Int → α) :
    ∀ (tr : List Pairing), ((traceSlots tr).map f).Nodup →
      ∀ t ∈ tr, f (t.r, t.p) ≠ f (t.r, t.q) := by
  intro tr
  induction tr with
  | nil => intro _ t ht; cases ht
  | cons a tr ih =>
    intro hnd t ht
    simp only [traceSlots, List.map_cons, List.nodup_cons, List.mem_cons] at hnd
    rcases List.mem_cons.1 ht with h | h
    · subst h
      intro he
      exact hnd.1 (Or.inl he)
    · exact ih hnd.2.2 t h

theorem traceSlots_nodup_of_map {α : Type} (f : Int × Int → α) {tr : List Pairing}
    (h : ((traceSlots tr).map f).Nodup) : (traceSlots tr).Nodup :=
  List.Nodup.of_map f h

theorem slotsOf_pairwise {ps : List Int} (hps : ps.Pairwise (· < ·)) :
    ∀ {rounds : List Int}, rounds.Pairwise (· < ·) → (slotsOf ps rounds).Pairwise slotLt := by
  intro rounds
  induction rounds with
  | nil => intro _; simp [slotsOf]
  | cons r rounds ih =>
    intro h
    rw [List.pairwise_cons] at h
    unfold slotsOf
    rw [List.pairwise_append]
    refine ⟨?_, ih h.2, ?_⟩
    · rw [List.pairwise_map]
      exact List.Pairwise.imp (fun hab => Or.inr ⟨rfl, hab⟩) hps
    · intro a ha b hb
      obtain ⟨x, _, rfl⟩ := List.mem_map.1 ha
      exact Or.inl (h.1 _ (mem_slotsOf.1 hb).1)

/-- Two pairs that the loop body accepts and that were found at the same slot are the
same pair. -/
theorem Pairing.eq_of_valid {mm : Matches} {t t' : Pairing} (hv : t.Valid mm)
    (hv' : t'.Valid mm) (hr : t.r = t'.r) (hp : t.p = t'.p) : t = t' := by
  obtain ⟨h1, h2, ho, _⟩ := hv
  obtain ⟨h1', h2', ho', _⟩ := hv'
  cases t with
  | mk r p q m1 m2 =>
    cases t' with
    | mk r' p' q' m1' m2' =>
      simp only at hr hp h1 h2 ho h1' h2' ho'
      subst hr hp
      rw [h1] at h1'
      cases h1'
      rw [ho] at ho'
      subst ho'
      rw [h2] at h2'
      cases h2'
      rfl

/-- When no slot is used twice, a pair whose opponent slot is a slot of another pair of
the trace is that pair. -/
theorem traceSlots_opp_unique :
    ∀ (tr : List Pairing), (traceSlots tr).Nodup → ∀ t ∈ tr, ∀ t' ∈ tr,
      t'.r = t.r → (t'.q = t.p ∨ t'.q = t.q) → t' = t := by
  intro tr
  induction tr with
  | nil => intro _ t ht; cases ht
  | cons a tr ih =>
    intro hnd t ht t' ht' hr hq
    simp only [traceSlots, List.nodup_cons, List.mem_cons, not_or] at hnd
    obtain ⟨⟨_, hap⟩, haq, hnd'⟩ := hnd
    have hin : ∀ x ∈ tr, (x.r, x.p) ∈ traceSlots tr ∧ (x.r, x.q) ∈ traceSlots tr :=
      fun x hx => ⟨mem_traceSlots.2 ⟨x, hx, Or.inl rfl⟩, mem_traceSlots.2 ⟨x, hx, Or.inr rfl⟩⟩
    rcases List.mem_cons.1 ht with h | h <;> rcases List.mem_cons.1 ht' with h' | h'
    · rw [h, h']
    · subst h
      exfalso
      rcases hq with hq | hq
      · exact hap (by rw [← hr, ← hq]; exact (hin t' h').2)
      · exact haq (by rw [← hr, ← hq]; exact (hin t' h').2)
    · subst h'
      exfalso
      rcases hq with hq | hq
      · exact haq (by rw [hr, hq]; exact (hin t h).1)
      · exact haq (by rw [hr, hq]; exact (hin t h).2)
    · exact ih hnd' t h t' h' hr hq

/-- Two lists in strict order with the same members are equal. -/
theorem eq_of_pairwise_of_mem_iff {α : Type} {R : α → α → Prop}
    (hasymm : ∀ a b, R a b → R b a → False) :
    ∀ (l l' : List α), l.Pairwise R → l'.Pairwise R → (∀ a, a ∈ l ↔ a ∈ l') → l = l' := by
  intro l
  induction l with
  | nil =>
    intro l' _ _ hm
    cases l' with
    | nil => rfl
    | cons b l' => exact absurd ((hm b).2 (List.mem_cons_self _ _)) (List.not_mem_nil _)
  | cons a l ih =>
    intro l' hl hl' hm
    cases l' with
    | nil => exact absurd ((hm a).1 (List.mem_cons_self _ _)) (List.not_mem_nil _)
    | cons b l' =>
      rw [List.pairwise_cons] at hl hl'
      have hab : a = b := by
        rcases List.mem_cons.1 ((hm a).1 (List.mem_cons_self _ _)) with h | h
        · exact h
        · rcases List.mem_cons.1 ((hm b).2 (List.mem_cons_self _ _)) with h' | h'
          · exact h'.symm
          · exact absurd (hl.1 b h') (fun hR => hasymm _ _ hR (hl'.1 a h))
      subst hab
      congr 1
      apply ih l' hl.2 hl'.2
      intro x
      constructor
      · intro hx
        rcases List.mem_cons.1 ((hm x).1 (List.mem_cons_of_mem _ hx)) with h | h
        · subst h
          exact absurd (hl.1 x hx) (fun hR => hasymm _ _ hR hR)
        · exact h
      · intro hx
        rcases List.mem_cons.1 ((hm x).2 (List.mem_cons_of_mem _ hx)) with h | h
        · subst h
          exact absurd (hl'.1 x hx) (fun hR => hasymm _ _ hR hR)
        · exact h

/-- A pair of one discovery trace is a pair of every other: by induction on the player
at which it was found. -/
theorem discoveryTrace_sub {mm : Matches} {nr np : Int} :
    ∀ (n : Nat) (A B : List Pairing), DiscoveryTrace mm nr np A → DiscoveryTrace mm nr np B →
      ∀ t ∈ A, t.p.toNat ≤ n → t ∈ B := by
  intro n
  induction n with
  | zero =>
    intro A B hA _ t ht hn
    have := (mem_forRange.1 (hA.in_loops t ht).2.1).1
    omega
  | succ n ih =>
    intro A B hA hB t ht hn
    obtain ⟨hr, hp, _⟩ := hA.in_loops t ht
    have hv := hA.valid t ht
    have hS := hB.settled t.r hr t.p hp t.m1 (fetchMatch_ok_iff.1 hv.1)
      (by rw [hv.2.2.1]; exact hv.2.2.2.1) (by rw [hv.2.2.1]; exact hA.first_lt t ht)
    rw [hv.2.2.1] at hS
    rcases hS with ⟨t', ht', hr', hp'⟩ | ⟨t', ht', hr', hp', hq'⟩
    · have : t' = t := Pairing.eq_of_valid (hB.valid t' ht') hv hr' hp'
      exact this ▸ ht'
    · exfalso
      have h1 := (mem_forRange.1 (hB.in_loops t' ht').2.1).1
      have hA' : t' ∈ A := ih B A hB hA t' ht' (by omega)
      have := traceSlots_opp_unique A hA.once t ht t' hA' hr' hq'
      rw [this] at hp'
      exact lt_irrefl _ hp'

/-- The conditions of `DiscoveryTrace` leave one trace only. -/
theorem discoveryTrace_unique {mm : Matches} {nr np : Int} {tr tr' : List Pairing}
    (h : DiscoveryTrace mm nr np tr) (h' : DiscoveryTrace mm nr np tr') : tr = tr' := by
  have ho : ∀ {l : List Pairing}, (traceFirst l).Pairwise slotLt →
      l.Pairwise (fun a b => slotLt (a.r, a.p) (b.r, b.p)) := by
    intro l hl
    unfold traceFirst at hl
    exact List.pairwise_map.1 hl
  apply eq_of_pairwise_of_mem_iff _ tr tr' (ho h.ordered) (ho h'.ordered)
  · intro t
    exact ⟨fun ht => discoveryTrace_sub _ tr tr' h h' t ht (le_refl _),
      fun ht => discoveryTrace_sub _ tr' tr h' h t ht (le_refl _)⟩
  · intro a b hab hba
    unfold slotLt at hab hba
    simp only at hab hba
    omega

/-- The trace of a run that returns is the discovery trace of the ledger. -/
theorem run_discovery {mm : Matches} {div : GoString} {nr np : Int} {out : RunState}
    (hc : countMaxRoundsPlayers mm = Except.ok (nr, np))
    (h : processMatchesRun mm div = Except.ok out) :
    ∃ tr, RunInv mm div np (forRange np) (forRange nr) out tr ∧
      DiscoveryTrace mm nr np tr := by
  obtain ⟨tr, hI⟩ := run_traced hc h
  have hfirst : ∀ t ∈ tr, t.r ∈ forRange nr ∧ t.p ∈ forRange np := fun t ht =>
    mem_slotsOf.1 (hI.traced.sub.subset (List.mem_map.2 ⟨t, ht, rfl⟩))
  refine ⟨tr, hI, hI.traced.valid, ?_, hI.first_lt, ?_,
    traceSlots_nodup_of_map _ hI.traced.nodup, ?_⟩
  · intro t ht
    obtain ⟨hr, hp⟩ := hfirst t ht
    refine ⟨hr, hp, ?_⟩
    have hr1 := (mem_forRange.1 hr).1
    have hp' := mem_forRange.1 hp
    have hb := keys_in_bounds hc (by omega) (fetchMatch_ok_iff.1 (hI.traced.valid t ht).2.1)
    have hlt := hI.first_lt t ht
    have hnp := (countMax_range hc).2.2
    have hw : wrap64 (np + 1) = np + 1 := by
      unfold wrap64 maxInt64 at *
      omega
    rw [mem_forRange, hw]
    omega
  · exact List.Pairwise.sublist hI.traced.sub
      (slotsOf_pairwise (forRange_pairwise np) (forRange_pairwise nr))
  · intro r hr p hp m1 hm hz hlt
    exact hI.settled (r, p) (mem_slotsOf.2 ⟨hr, hp⟩) m1 hm hz hlt

/-- The results of a run that returns are the rows of any list of pairs that meets the
conditions of `DiscoveryTrace`. -/
theorem results_of_discoveryTrace {mm : Matches} {div : GoString} {nr np : Int}
    {res : List Result} {tr : List Pairing}
    (hc : countMaxRoundsPlayers mm = Except.ok (nr, np))
    (h : processMatches mm div = Except.ok res) (hD : DiscoveryTrace mm nr np tr) :
    res = tr.map (Pairing.result div) := by
  obtain ⟨out, hout, hres⟩ := processMatches_ok h
  obtain ⟨tr', hI, hD'⟩ := run_discovery hc hout
  rw [discoveryTrace_unique hD hD', ← hres]
  exact hI.traced.results_eq

/-- The trace of a returned result list. -/
theorem processMatches_traced {mm : Matches} {div : GoString} {res : List Result}
    (h : processMatches mm div = Except.ok res) :
    ∃ nr np out tr, countMaxRoundsPlayers mm = Except.ok (nr, np) ∧
      processMatchesRun mm div = Except.ok out ∧ out.results = res ∧
      RunInv mm div np (forRange np) (forRange nr) out tr := by
  obtain ⟨out, hout, hres⟩ := processMatches_ok h
  obtain ⟨nr, np, hc⟩ := processMatchesRun_bounds hout
  obtain ⟨tr, hI⟩ := run_traced hc hout
  exact ⟨nr, np, out, tr, hc, hout, hres, hI⟩

/-- C1: when `processMatches` returns, every result is built from two records of one
round whose start flags are 1 and 2: `Player1`, `Score1` are name and score of the
record that starts, `Player2`, `Score2` those of the record that replies, and
`Division` is the label given. -/
theorem C1_starter_first (mm : Matches) (div : GoString) (res : List Result)
    (h : processMatches mm div = Except.ok res) :
    ∀ x ∈ res, ∃ (r p q : Int) (m1 m2 : Match), p ≠ q ∧
      fetchMatch (createKey r p) mm = Except.ok m1 ∧
      fetchMatch (createKey r q) mm = Except.ok m2 ∧
      m1.Start = 1 ∧ m2.Start = 2 ∧
      x.Player1 = m1.Name ∧ x.Score1 = m1.Score ∧
      x.Player2 = m2.Name ∧ x.Score2 = m2.Score ∧ x.Division = div := by
  obtain ⟨nr, np, out, tr, _, _, hres, hI⟩ := processMatches_traced h
  intro x hx
  rw [← hres, hI.traced.results_eq] at hx
  obtain ⟨t, ht, rfl⟩ := List.mem_map.1 hx
  obtain ⟨h1, h2, _, _, _, hs⟩ := hI.traced.valid t ht
  have hne : t.p ≠ t.q := by
    intro he
    exact traceSlots_pair_ne _ tr hI.traced.nodup t ht (by rw [he])
  rcases hs with ⟨hs1, hs2⟩ | ⟨hs1, hs2⟩
  · refine ⟨t.r, t.p, t.q, t.m1, t.m2, hne, h1, h2, hs1, hs2, ?_⟩
    simp [Pairing.result, formatResult, hs1]
  · refine ⟨t.r, t.q, t.p, t.m2, t.m1, hne.symm, h2, h1, hs2, hs1, ?_⟩
    simp [Pairing.result, formatResult, hs1]

theorem C1_starter_first_witness :
    processMatches ledgerPair divA =
        Except.ok [{ Division := divA, Round := 1, Player1 := "Ann".toList, Score1 := 1,
                     Player2 := "Bob".toList, Score2 := 0 }] ∧
      ∀ x ∈ [({ Division := divA, Round := 1, Player1 := "Ann".toList, Score1 := 1,
                Player2 := "Bob".toList, Score2 := 0 } : Result)],
        ∃ (r p q : Int) (m1 m2 : Match), p ≠ q ∧
          fetchMatch (createKey r p) ledgerPair = Except.ok m1 ∧
          fetchMatch (createKey r q) ledgerPair = Except.ok m2 ∧
          m1.Start = 1 ∧ m2.Start = 2 ∧
          x.Player1 = m1.Name ∧ x.Score1 = m1.Score ∧
          x.Player2 = m2.Name ∧ x.Score2 = m2.Score ∧ x.Division = divA :=
  ⟨rfl, C1_starter_first ledgerPair divA _ rfl⟩

/-- C2 fails as stated: in `ledgerChain` player 1 names player 2, who names player 3.
`processMatches` returns the game of players 1 and 2, and no two records that name each
other give that row. -/
theorem C2_counterexample :
    processMatches ledgerChain divA =
        Except.ok [{ Division := divA, Round := 1, Player1 := "Ann".toList, Score1 := 1,
                     Player2 := "Bob".toList, Score2 := 0 }] ∧
      ¬ ∃ (r p q : Int) (m1 m2 : Match),
          fetchMatch (createKey r p) ledgerChain = Except.ok m1 ∧
          fetchMatch (createKey r q) ledgerChain = Except.ok m2 ∧
          "Ann".toList = m1.Name ∧ "Bob".toList = m2.Name ∧
          (atoi m1.Opp).1 = q ∧ (atoi m2.Opp).1 = p := by
  refine ⟨rfl, ?_⟩
  rintro ⟨r, p, q, m1, m2, h1, h2, hn1, hn2, ho1, ho2⟩
  have e1 := lookup_mem (fetchMatch_ok_iff.1 h1)
  have e2 := lookup_mem (fetchMatch_ok_iff.1 h2)
  have k11 : "1-1".toList = createKey 1 1 := rfl
  simp only [ledgerChain, List.mem_cons, Prod.mk.injEq, List.mem_nil_iff, or_false] at e1 e2
  rcases e1 with ⟨hk1, rfl⟩ | ⟨_, rfl⟩ | ⟨_, rfl⟩
  · rcases e2 with ⟨_, rfl⟩ | ⟨_, rfl⟩ | ⟨_, rfl⟩
    · exact absurd hn2 (by decide)
    · have hp : p = 1 := (createKey_inj (hk1.trans k11)).2
      have h3 : (atoi (recOf "Bob" "3" 0 5 2 1).Opp).1 = 3 := rfl
      omega
    · exact absurd hn2 (by decide)
  · exact absurd hn1 (by decide)
  · exact absurd hn1 (by decide)

/-- C2, amended: when `processMatches` returns, the results are, row by row, the rows of
the discovery trace of the ledger, the one list of pairs that the loops make. So every
result is the row of two records of distinct slots of one round with equal board
numbers, of which the one reached first by the loops, which has the smaller player id,
names the other: its opponent reference parses to the other's player id. (The reference
of the second record is not looked at.) -/
theorem C2_first_names_second (mm : Matches) (div : GoString) (res : List Result)
    (h : processMatches mm div = Except.ok res) :
    ∃ (nr np : Int) (tr : List Pairing),
      countMaxRoundsPlayers mm = Except.ok (nr, np) ∧
      res = tr.map (Pairing.result div) ∧ DiscoveryTrace mm nr np tr ∧
      ∀ x ∈ res, ∃ t ∈ tr, x = formatResult t.m1 t.m2 div ∧ t.p < t.q ∧
        t.r ∈ forRange nr ∧ t.p ∈ forRange np ∧ t.q ∈ forRange np ∧
        fetchMatch (createKey t.r t.p) mm = Except.ok t.m1 ∧
        fetchMatch (createKey t.r t.q) mm = Except.ok t.m2 ∧
        (atoi t.m1.Opp).1 = t.q ∧ t.m1.Table = t.m2.Table := by
  obtain ⟨out, hout, hres⟩ := processMatches_ok h
  obtain ⟨nr, np, hc⟩ := processMatchesRun_bounds hout
  obtain ⟨tr, hI, hD⟩ := run_discovery hc hout
  have hres' : res = tr.map (Pairing.result div) := hres ▸ hI.traced.results_eq
  refine ⟨nr, np, tr, hc, hres', hD, ?_⟩
  intro x hx
  rw [hres'] at hx
  obtain ⟨t, ht, rfl⟩ := List.mem_map.1 hx
  obtain ⟨h1, h2, ho, _, hb, _⟩ := hD.valid t ht
  obtain ⟨hr, hp, hq⟩ := hD.in_loops t ht
  exact ⟨t, ht, rfl, hD.first_lt t ht, hr, hp, hq, h1, h2, ho, hb⟩

theorem C2_first_names_second_witness :
    processMatches ledgerChain divA =
        Except.ok [{ Division := divA, Round := 1, Player1 := "Ann".toList, Score1 := 1,
                     Player2 := "Bob".toList, Score2 := 0 }] ∧
      ∃ (nr np : Int) (tr : List Pairing),
        countMaxRoundsPlayers ledgerChain = Except.ok (nr, np) ∧
        [({ Division := divA, Round := 1, Player1 := "Ann".toList, Score1 := 1,
            Player2 := "Bob".toList, Score2 := 0 } : Result)] =
          tr.map (Pairing.result divA) ∧
        DiscoveryTrace ledgerChain nr np tr ∧
        ∀ x ∈ [({ Division := divA, Round := 1, Player1 := "Ann".toList, Score1 := 1,
                  Player2 := "Bob".toList, Score2 := 0 } : Result)],
          ∃ t ∈ tr, x = formatResult t.m1 t.m2 divA ∧ t.p < t.q ∧
            t.r ∈ forRange nr ∧ t.p ∈ forRange np ∧ t.q ∈ forRange np ∧
            fetchMatch (createKey t.r t.p) ledgerChain = Except.ok t.m1 ∧
            fetchMatch (createKey t.r t.q) ledgerChain = Except.ok t.m2 ∧
            (atoi t.m1.Opp).1 = t.q ∧ t.m1.Table = t.m2.Table :=
  ⟨rfl, C2_first_names_second ledgerChain divA _ rfl⟩

/-- C3: when `processMatches` returns, the results are the rows of a list of pairs
accepted by the loop body, and the slots `(round, player)` from which these pairs take
their records are all different: no slot gives a record to two results, nor both
records to one. -/
theorem C3_slots_used_once (mm : Matches) (div : GoString) (res : List Result)
    (h : processMatches mm div = Except.ok res) :
    ∃ tr : List Pairing, res = tr.map (Pairing.result div) ∧ (∀ t ∈ tr, t.Valid mm) ∧
      (traceSlots tr).Nodup := by
  obtain ⟨nr, np, out, tr, _, _, hres, hI⟩ := processMatches_traced h
  exact ⟨tr, hres ▸ hI.traced.results_eq, hI.traced.valid,
    traceSlots_nodup_of_map _ hI.traced.nodup⟩

theorem C3_slots_used_once_witness :
    ∃ tr : List Pairing,
      [({ Division := divA, Round := 1, Player1 := "Ann".toList, Score1 := 1,
          Player2 := "Bob".toList, Score2 := 0 } : Result)] = tr.map (Pairing.result divA) ∧
      (∀ t ∈ tr, t.Valid ledgerPair) ∧ (traceSlots tr).Nodup :=
  C3_slots_used_once ledgerPair divA _ rfl

/-! ## The order of the results -/

theorem ledgerCross_rounds : ∀ (r p : Int) (m : Match), 1 ≤ r →
    fetchMatch (createKey r p) ledgerCross = Except.ok m → m.Round = r := by
  intro r p m _ hm
  have e := lookup_mem (fetchMatch_ok_iff.1 hm)
  have k11 : "1-1".toList = createKey 1 1 := rfl
  have k12 : "1-2".toList = createKey 1 2 := rfl
  have k13 : "1-3".toList = createKey 1 3 := rfl
  have k14 : "1-4".toList = createKey 1 4 := rfl
  have k21 : "2-1".toList = createKey 2 1 := rfl
  have k22 : "2-2".toList = createKey 2 2 := rfl
  have k23 : "2-3".toList = createKey 2 3 := rfl
  have k24 : "2-4".toList = createKey 2 4 := rfl
  simp only [ledgerCross, List.mem_cons, Prod.mk.injEq, List.mem_nil_iff, or_false] at e
  rcases e with ⟨hk, rfl⟩ | ⟨hk, rfl⟩ | ⟨hk, rfl⟩ | ⟨hk, rfl⟩ | ⟨hk, rfl⟩ | ⟨hk, rfl⟩ |
    ⟨hk, rfl⟩ | ⟨hk, rfl⟩
  · exact (createKey_inj (hk.trans k11)).1 ▸ rfl
  · exact (createKey_inj (hk.trans k12)).1 ▸ rfl
  · exact (createKey_inj (hk.trans k13)).1 ▸ rfl
  · exact (createKey_inj (hk.trans k14)).1 ▸ rfl
  · exact (createKey_inj (hk.trans k21)).1 ▸ rfl
  · exact (createKey_inj (hk.trans k22)).1 ▸ rfl
  · exact (createKey_inj (hk.trans k23)).1 ▸ rfl
  · exact (createKey_inj (hk.trans k24)).1 ▸ rfl

/-- C10: in a ledger whose records carry the round of the slot they are stored under,
the results returned by `processMatches` are, row by row and in this order, the rows of
the discovery trace of the ledger, the one list of pairs that the loops make. The player
`p` at which a pair was found is the one the loops reach first: it has the smaller id of
the two. The slots `(round, p)` of the pairs increase strictly in round-major order, so
within a round the rows stand in ascending order of `p`; each row carries the round of
its pair, and so the `Round` field does not decrease along the results. -/
theorem C10_round_major_order (mm : Matches) (div : GoString) (res : List Result)
    (hround : ∀ (r p : Int) (m : Match), 1 ≤ r →
      fetchMatch (createKey r p) mm = Except.ok m → m.Round = r)
    (h : processMatches mm div = Except.ok res) :
    ∃ (nr np : Int) (tr : List Pairing),
      countMaxRoundsPlayers mm = Except.ok (nr, np) ∧
      res = tr.map (Pairing.result div) ∧ DiscoveryTrace mm nr np tr ∧
      (∀ t ∈ tr, t.Valid mm ∧ t.p < t.q ∧ (t.result div).Round = t.r) ∧
      (traceFirst tr).Pairwise slotLt ∧
      (res.map Result.Round).Pairwise (· ≤ ·) := by
  obtain ⟨out, hout, hres⟩ := processMatches_ok h
  obtain ⟨nr, np, hc⟩ := processMatchesRun_bounds hout
  obtain ⟨tr, hI, hD⟩ := run_discovery hc hout
  have hres' : res = tr.map (Pairing.result div) := hres ▸ hI.traced.results_eq
  have hrnd : ∀ t ∈ tr, (t.result div).Round = t.r := by
    intro t ht
    obtain ⟨h1, h2, _, _, _, _⟩ := hD.valid t ht
    have hr1 : 1 ≤ t.r := (mem_forRange.1 (hD.in_loops t ht).1).1
    have e1 := hround _ _ _ hr1 h1
    have e2 := hround _ _ _ hr1 h2
    unfold Pairing.result formatResult
    split <;> simp [e1, e2]
  refine ⟨nr, np, tr, hc, hres', hD,
    fun t ht => ⟨hD.valid t ht, hD.first_lt t ht, hrnd t ht⟩, hD.ordered, ?_⟩
  have hmap : res.map Result.Round = (traceFirst tr).map Prod.fst := by
    rw [hres', traceFirst, List.map_map, List.map_map]
    apply List.map_congr_left
    intro t ht
    exact hrnd t ht
  rw [hmap, List.pairwise_map]
  apply List.Pairwise.imp _ hD.ordered
  intro a b hab
  rcases hab with hlt | ⟨heq, _⟩
  · exact le_of_lt hlt
  · exact le_of_eq heq

theorem C10_round_major_order_witness :
    processMatches ledgerCross divA = Except.ok ledgerCrossRows ∧
      ∃ (nr np : Int) (tr : List Pairing),
        countMaxRoundsPlayers ledgerCross = Except.ok (nr, np) ∧
        ledgerCrossRows = tr.map (Pairing.result divA) ∧
        DiscoveryTrace ledgerCross nr np tr ∧
        (∀ t ∈ tr, t.Valid ledgerCross ∧ t.p < t.q ∧ (t.result divA).Round = t.r) ∧
        (traceFirst tr).Pairwise slotLt ∧
        (ledgerCrossRows.map Result.Round).Pairwise (· ≤ ·) :=
  ⟨rfl, C10_round_major_order ledgerCross divA ledgerCrossRows ledgerCross_rounds rfl⟩

/-! ## Byes -/

/-- C5 fails as stated: in `ledgerByeNamed` the record of player 2 is a bye, and player 1
names player 2. `processMatches` returns a game of players 1 and 2 built from that bye
record, and the bye counter of round 1 stays 0. -/
theorem C5_counterexample :
    fetchMatch (createKey 1 2) ledgerByeNamed = Except.ok (recOf "Bob" "0" 0 5 2 1) ∧
      (atoi (recOf "Bob" "0" 0 5 2 1).Opp).1 = 0 ∧
      processMatchesRun ledgerByeNamed divA =
        Except.ok
          { seen := ["1-2".toList, "1-1".toList]
            results := [formatResult (recOf "Ann" "2" 1 5 1 1) (recOf "Bob" "0" 0 5 2 1) divA]
            printed := []
            counts := [{ round := 1, match_count := 1, byes_count := 0 }] } :=
  ⟨rfl, rfl, rfl⟩

/-- C5, amended: when `processMatches` returns, its results are the rows of the
discovery trace of the ledger, the one list of pairs that the loops make. The record
that a pair was found at is never a bye, so a bye record enters a result only as the
opponent named by a record that the loops reached first; and the bye counter of every
round of the loops is the number of players of the loops whose record of that round is
a bye that no pair consumed in this way: each of them is counted once, in its own
round. -/
theorem C5_free_byes_counted (mm : Matches) (div : GoString) (nr np : Int) (out : RunState)
    (hc : countMaxRoundsPlayers mm = Except.ok (nr, np))
    (h : processMatchesRun mm div = Except.ok out) :
    ∃ tr : List Pairing, out.results = tr.map (Pairing.result div) ∧
      DiscoveryTrace mm nr np tr ∧
      (∀ t ∈ tr, isBye mm t.r t.p = false) ∧
      (∀ r ∈ forRange nr, ∀ p ∈ forRange np, isBye mm r p = true →
        ((r, p) ∈ traceSlots tr ↔ consumedAsOpp tr r p = true)) ∧
      out.counts.map RoundCount.round = forRange nr ∧
      ∀ c ∈ out.counts,
        c.byes_count = ((freeByes mm tr c.round (forRange np)).length : Int) := by
  obtain ⟨tr, hI, hD⟩ := run_discovery hc h
  have hfirst : ∀ t ∈ tr, isBye mm t.r t.p = false := by
    intro t ht
    obtain ⟨h1, _, ho, hq, _, _⟩ := hD.valid t ht
    rw [isBye_of_lookup (fetchMatch_ok_iff.1 h1), ho]
    simpa using hq
  refine ⟨tr, hI.traced.results_eq, hD, hfirst, ?_, hI.rounds_eq,
    fun c hc' => (hI.counts c hc').1⟩
  intro r _ p _ hbye
  rw [mem_traceSlots, consumedAsOpp_iff]
  constructor
  · rintro ⟨t, ht, he | he⟩
    · simp only [Prod.mk.injEq] at he
      have := hfirst t ht
      rw [← he.1, ← he.2, hbye] at this
      cases this
    · simp only [Prod.mk.injEq] at he
      exact ⟨t, ht, he.1.symm, he.2.symm⟩
  · rintro ⟨t, ht, h1, h2⟩
    exact ⟨t, ht, Or.inr (by rw [h1, h2])⟩

theorem C5_free_byes_counted_witness :
    ∃ tr : List Pairing,
      [formatResult (recOf "Ann" "2" 1 5 2 1) (recOf "Bob" "1" 0 5 1 1) divA] =
        tr.map (Pairing.result divA) ∧
      DiscoveryTrace ledgerThree 1 3 tr ∧
      (∀ t ∈ tr, isBye ledgerThree t.r t.p = false) ∧
      (∀ r ∈ forRange 1, ∀ p ∈ forRange 3, isBye ledgerThree r p = true →
        ((r, p) ∈ traceSlots tr ↔ consumedAsOpp tr r p = true)) ∧
      [({ round := 1, match_count := 1, byes_count := 1 } : RoundCount)].map
        RoundCount.round = forRange 1 ∧
      ∀ c ∈ [({ round := 1, match_count := 1, byes_count := 1 } : RoundCount)],
        c.byes_count = ((freeByes ledgerThree tr c.round (forRange 3)).length : Int) :=
  C5_free_byes_counted ledgerThree divA 1 3
    { seen := ["1-3".toList, "1-2".toList, "1-1".toList]
      results := [formatResult (recOf "Ann" "2" 1 5 2 1) (recOf "Bob" "1" 0 5 1 1) divA]
      printed := []
      counts := [{ round := 1, match_count := 1, byes_count := 1 }] }
    rfl rfl

/-! ## The sanity check -/

/-- C9: when `processMatches` meets no fatal condition, every round of the loop reaches
its sanity check, in order, and the messages printed are those of the rounds in which
`2 * match_count + byes_count` differs from `np`, with the numbers of that round. The
check itself never ends the run: whenever the player loop of a round ends without a
fatal error, the round does, with the results of the player loop. -/
theorem C9_warning_iff_mismatch (mm : Matches) (div : GoString) (nr np : Int) (out : RunState)
    (hc : countMaxRoundsPlayers mm = Except.ok (nr, np))
    (h : processMatchesRun mm div = Except.ok out) :
    out.counts.map RoundCount.round = forRange nr ∧
    out.printed = out.counts.filterMap (fun c =>
      if 2 * c.match_count + c.byes_count ≠ np then
        some { round := c.round, found := c.match_count,
               byes := Int.tdiv c.byes_count 2, expected := Int.tdiv np 2 }
      else none) ∧
    ∀ (rs : RunState) (r : Int) (st : RoundState),
      playerLoop mm div r (forRange np)
          { seen := rs.seen, results := rs.results, byes_count := 0, match_count := 0 } =
        Except.ok st →
      ∃ rs', roundStep mm div np rs r = Except.ok rs' ∧ rs'.results = st.results := by
  obtain ⟨tr, hI⟩ := run_traced hc h
  have hb := countMax_range hc
  refine ⟨hI.rounds_eq, ?_, ?_⟩
  · rw [hI.printed_eq]
    apply List.filterMap_congr
    intro c hcm
    obtain ⟨e1, e2, e3⟩ := hI.counts c hcm
    have hbc : 0 ≤ c.byes_count := by rw [e1]; exact Int.natCast_nonneg _
    have hiff := sanityFails_iff e2 hbc e3 (forRange_length np) hb.2.1 hb.2.2
    unfold warningOf
    by_cases hs : sanityFails c.match_count c.byes_count np = true
    · rw [if_pos hs, if_pos (hiff.1 hs)]
    · rw [if_neg hs, if_neg (fun hne => hs (hiff.2 hne))]
  · intro rs r st hst
    unfold roundStep
    rw [hst]
    exact ⟨_, rfl, rfl⟩

theorem C9_warning_iff_mismatch_witness :
    [({ round := 1, match_count := 1, byes_count := 0 } : RoundCount)].map RoundCount.round =
      forRange 1 ∧
    [({ round := 1, found := 1, byes := 0, expected := 1 } : Warning)] =
      [({ round := 1, match_count := 1, byes_count := 0 } : RoundCount)].filterMap (fun c =>
        if 2 * c.match_count + c.byes_count ≠ 3 then
          some { round := c.round, found := c.match_count,
                 byes := Int.tdiv c.byes_count 2, expected := Int.tdiv 3 2 }
        else none) ∧
    ∀ (rs : RunState) (r : Int) (st : RoundState),
      playerLoop ledgerChain divA r (forRange 3)
          { seen := rs.seen, results := rs.results, byes_count := 0, match_count := 0 } =
        Except.ok st →
      ∃ rs', roundStep ledgerChain divA 3 rs r = Except.ok rs' ∧ rs'.results = st.results :=
  C9_warning_iff_mismatch ledgerChain divA 1 3
    { seen := ["1-3".toList, "1-2".toList, "1-1".toList]
      results := [formatResult (recOf "Ann" "2" 1 5 1 1) (recOf "Bob" "3" 0 5 2 1) divA]
      printed := [{ round := 1, found := 1, byes := 0, expected := 1 }]
      counts := [{ round := 1, match_count := 1, byes_count := 0 }] }
    rfl rfl

/-! ## Fatal conditions -/

theorem playerLoop_append (mm : Matches) (div : GoString) (r : Int) :
    ∀ (l₁ l₂ : List Int) (st : RoundState),
      playerLoop mm div r (l₁ ++ l₂) st =
        match playerLoop mm div r l₁ st with
        | Except.error e => Except.error e
        | Except.ok st1 => playerLoop mm div r l₂ st1 := by
  intro l₁
  induction l₁ with
  | nil => intro l₂ st; rfl
  | cons a l₁ ih =>
    intro l₂ st
    simp only [List.cons_append, playerLoop]
    cases playerStep mm div r st a with
    | error e => rfl
    | ok st1 => exact ih l₂ st1

theorem roundLoop_append (mm : Matches) (div : GoString) (np : Int) :
    ∀ (l₁ l₂ : List Int) (rs : RunState),
      roundLoop mm div np (l₁ ++ l₂) rs =
        match roundLoop mm div np l₁ rs with
        | Except.error e => Except.error e
        | Except.ok rs1 => roundLoop mm div np l₂ rs1 := by
  intro l₁
  induction l₁ with
  | nil => intro l₂ rs; rfl
  | cons a l₁ ih =>
    intro l₂ rs
    simp only [List.cons_append, roundLoop]
    cases roundStep mm div np rs a with
    | error e => rfl
    | ok rs1 => exact ih l₂ rs1

/-- A fatal error in the loop body at round `r` and player `p`, reached after the rounds
`rsDone` and the players `psDone`, ends `processMatches` with that error. -/
theorem processMatches_fatal_at {mm : Matches} {div : GoString} {nr np r p : Int}
    {rsDone rsRest psDone psRest : List Int} {rs : RunState} {st : RoundState} {e : Err}
    (hc : countMaxRoundsPlayers mm = Except.ok (nr, np))
    (hrounds : forRange nr = rsDone ++ r :: rsRest)
    (hplayers : forRange np = psDone ++ p :: psRest)
    (hrs : roundLoop mm div np rsDone
      { seen := [], results := [], printed := [], counts := [] } = Except.ok rs)
    (hst : playerLoop mm div r psDone
      { seen := rs.seen, results := rs.results, byes_count := 0, match_count := 0 } =
        Except.ok st)
    (hstep : playerStep mm div r st p = Except.error e) :
    processMatches mm div = Except.error e := by
  have h1 : playerLoop mm div r (forRange np)
      { seen := rs.seen, results := rs.results, byes_count := 0, match_count := 0 } =
        Except.error e := by
    rw [hplayers, playerLoop_append, hst]
    simp only [playerLoop, hstep]
  have h2 : roundStep mm div np rs r = Except.error e := by
    unfold roundStep; rw [h1]
  have h3 : processMatchesRun mm div = Except.error e := by
    unfold processMatchesRun
    rw [hc]
    simp only
    rw [hrounds, roundLoop_append, hrs]
    simp only [roundLoop, h2]
  unfold processMatches
  rw [h3]

/-- C6: let the loop body come to round `r` and player `p` (after the rounds `rsDone`
and the players `psDone`) with the slot of `p` unconsumed, and let the record of `p`
name an opponent whose slot is unconsumed and holds a record. If the two board numbers
differ, or the two start flags are not 1 and 2 in some order, `processMatches` ends
fatally and returns no results: with the board error when the boards differ, with the
start error otherwise. -/
theorem C6_mismatch_is_fatal (mm : Matches) (div : GoString) (nr np r p : Int)
    (rsDone rsRest psDone psRest : List Int) (rs : RunState) (st : RoundState)
    (m1 m2 : Match)
    (hc : countMaxRoundsPlayers mm = Except.ok (nr, np))
    (hrounds : forRange nr = rsDone ++ r :: rsRest)
    (hplayers : forRange np = psDone ++ p :: psRest)
    (hrs : roundLoop mm div np rsDone
      { seen := [], results := [], printed := [], counts := [] } = Except.ok rs)
    (hst : playerLoop mm div r psDone
      { seen := rs.seen, results := rs.results, byes_count := 0, match_count := 0 } =
        Except.ok st)
    (hk1 : createKey r p ∉ st.seen)
    (hm1 : fetchMatch (createKey r p) mm = Except.ok m1)
    (hopp : (atoi m1.Opp).1 ≠ 0)
    (hk2 : createKey r (atoi m1.Opp).1 ∉ createKey r p :: st.seen)
    (hm2 : fetchMatch (createKey r (atoi m1.Opp).1) mm = Except.ok m2)
    (hbad : m1.Table ≠ m2.Table ∨
      ¬ ((m1.Start = 1 ∧ m2.Start = 2) ∨ (m1.Start = 2 ∧ m2.Start = 1))) :
    processMatches mm div =
      Except.error
        (if m1.Table ≠ m2.Table then Err.ErrMismatchBoards else Err.ErrMismatchedStarts) := by
  apply processMatches_fatal_at hc hrounds hplayers hrs hst
  unfold playerStep
  simp only [hk1, if_false, hm1, hopp, hk2, hm2]
  by_cases hb : m1.Table = m2.Table
  · have hs : ¬ ((m1.Start = 1 ∧ m2.Start = 2) ∨ (m1.Start = 2 ∧ m2.Start = 1)) := by
      rcases hbad with h | h
      · exact absurd hb h
      · exact h
    have hs1 : ¬ (m1.Start = 1 ∧ m2.Start = 2) := fun h => hs (Or.inl h)
    have hs2 : ¬ (m1.Start = 2 ∧ m2.Start = 1) := fun h => hs (Or.inr h)
    simp only [validateBoards, hb, if_true, validateStarts, hs1, hs2, if_false, ne_eq,
      not_true_eq_false]
  · simp only [validateBoards, hb, if_false, ne_eq, not_false_eq_true, if_true]

theorem C6_mismatch_is_fatal_witness :
    processMatches ledgerBoards divA = Except.error Err.ErrMismatchBoards :=
  C6_mismatch_is_fatal ledgerBoards divA 1 2 1 1 [] [] [] [2]
    { seen := [], results := [], printed := [], counts := [] }
    { seen := [], results := [], byes_count := 0, match_count := 0 }
    (recOf "Ann" "2" 1 5 1 1) (recOf "Bob" "1" 0 6 2 1)
    rfl rfl rfl rfl rfl (by simp) rfl (by decide) (by decide) rfl (Or.inl (by decide))

theorem mem_forRange_of_le {n p : Int} (h1 : 1 ≤ p) (h2 : p ≤ n) (h3 : n < maxInt64) :
    p ∈ forRange n := by
  rw [mem_forRange]
  unfold maxInt64 at h3
  rw [wrap64_id (by omega) (by omega)]
  omega

/-- C7 fails as stated: the one key of `ledgerLastRound` names round `2^63 - 1`, so the
bounds are `(2^63 - 1, 1)` and slot `(1, 1)` lies within them without a record. The
bound `nr+1` of the round loop wraps around, no round is gone through, and
`processMatches` returns the empty result list. -/
theorem C7_counterexample :
    countMaxRoundsPlayers ledgerLastRound = Except.ok (9223372036854775807, 1) ∧
      lookup (createKey 1 1) ledgerLastRound = none ∧
      processMatches ledgerLastRound divA = Except.ok [] :=
  ⟨rfl, rfl, rfl⟩

/-- C7, amended: with the bounds `(nr, np)` of `countMaxRoundsPlayers` both below the
largest `int`, a slot `(r, p)` with `1 ≤ r ≤ nr` and `1 ≤ p ≤ np` that has no record makes
`processMatches` end fatally: it returns no results. -/
theorem C7_missing_slot_is_fatal (mm : Matches) (div : GoString) (nr np r p : Int)
    (hc : countMaxRoundsPlayers mm = Except.ok (nr, np))
    (hnr : nr < maxInt64) (hnp : np < maxInt64)
    (hr : 1 ≤ r ∧ r ≤ nr) (hp : 1 ≤ p ∧ p ≤ np)
    (hmiss : lookup (createKey r p) mm = none) :
    ∃ e, processMatches mm div = Except.error e := by
  cases hrun : processMatchesRun mm div with
  | error e =>
    refine ⟨e, ?_⟩
    unfold processMatches
    rw [hrun]
  | ok out =>
    exfalso
    obtain ⟨tr, hI⟩ := run_traced hc hrun
    have hslot : (r, p) ∈ slotsOf (forRange np) (forRange nr) :=
      mem_slotsOf.2 ⟨mem_forRange_of_le hr.1 hr.2 hnr, mem_forRange_of_le hp.1 hp.2 hnp⟩
    have hseen : createKey r p ∈ out.seen :=
      (hI.traced.seen_iff _).2 (Or.inl ⟨(r, p), hslot, rfl⟩)
    obtain ⟨m, hm⟩ := hI.traced.present _ hseen
    rw [hmiss] at hm
    cases hm

theorem C7_missing_slot_is_fatal_witness :
    ∃ e, processMatches [("1-2".toList, recOf "Bob" "0" 0 0 0 1)] divA = Except.error e :=
  C7_missing_slot_is_fatal [("1-2".toList, recOf "Bob" "0" 0 0 0 1)] divA 1 2 1 1
    rfl (by decide) (by decide) (by decide) (by decide) rfl

/-! ## Well-formed ledgers -/

theorem oppAt_of_lookup {mm : Matches} {r q : Int} {m : Match}
    (h : lookup (createKey r q) mm = some m) : oppAt mm r q = (atoi m.Opp).1 := by
  unfold oppAt; rw [h]

theorem consumed_snoc {mm : Matches} {r : Int} {done : List Int} {p q : Int} :
    Consumed mm r (done ++ [p]) q ↔
      Consumed mm r done q ∨ q = p ∨ (oppAt mm r q ≠ 0 ∧ oppAt mm r q = p) := by
  unfold Consumed
  simp only [List.mem_append, List.mem_singleton]
  tauto

theorem wround_init (mm : Matches) (div : GoString) (r : Int) (all : List Int)
    (seen₀ : List GoString) (results₀ : List Result) :
    WRoundInv mm div r all seen₀ results₀ []
      { seen := seen₀, results := results₀, byes_count := 0, match_count := 0 } [] where
  seen_eq := rfl
  new_nodup := List.nodup_nil
  new_iff := by simp [Consumed]
  results_eq := by simp
  count_eq := by simp
  match_nonneg := le_refl _
  byes_nonneg := le_refl _
  count_le := by simp

theorem validateStarts_of_ok {m m' : Match} (h : StartsOk m m') :
    validateStarts m.Start m'.Start = Except.ok () := by
  unfold validateStarts
  rcases h with ⟨h1, h2⟩ | ⟨h1, h2⟩
  · rw [if_pos ⟨h1, h2⟩]
  · rw [if_neg (by omega), if_pos ⟨h1, h2⟩]

/-- In a well-formed round the loop body never fails, and it keeps the description of
the round. -/
theorem wround_step {mm : Matches} {div : GoString} {r p : Int} {all done ps : List Int}
    {seen₀ : List GoString} {results₀ : List Result} {st : RoundState}
    {new : List GoString}
    (hall : all = done ++ p :: ps) (hwf : RoundWF mm r all)
    (hfresh : ∀ q, createKey r q ∉ seen₀)
    (hlen : (all.length : Int) ≤ maxInt64 - 1)
    (hI : WRoundInv mm div r all seen₀ results₀ done st new) :
    ∃ st' new', playerStep mm div r st p = Except.ok st' ∧
      WRoundInv mm div r all seen₀ results₀ (done ++ [p]) st' new' := by
  have hpall : p ∈ all := by rw [hall]; simp
  have hsorted := hwf.sorted
  rw [hall, List.pairwise_append] at hsorted
  obtain ⟨_, hsp, hcross⟩ := hsorted
  have hpps : ∀ b ∈ ps, p < b := (List.pairwise_cons.1 hsp).1
  have hdonelt : ∀ a ∈ done, a < p := fun a ha => hcross a ha p (List.mem_cons_self _ _)
  have hpdone : p ∉ done := fun h => lt_irrefl p (hdonelt p h)
  have hmx : maxInt64 = 9223372036854775807 := rfl
  have hdl : (done.length : Int) < maxInt64 - 1 := by
    have : all.length = done.length + (ps.length + 1) := by rw [hall]; simp
    omega
  have hmc := hI.match_nonneg
  have hbc := hI.byes_nonneg
  have hle := hI.count_le
  have hcnt := hI.count_eq
  obtain ⟨m1, hm1⟩ := hwf.present p hpall
  have hopp := oppAt_of_lookup hm1
  have hfm1 := fetchMatch_ok_iff.2 hm1
  have hk : ∀ q ∈ all, (createKey r q ∈ st.seen ↔ Consumed mm r done q) := by
    intro q hq
    rw [hI.seen_eq, List.mem_append]
    constructor
    · rintro (h | h)
      · obtain ⟨q', _, he, hc⟩ := (hI.new_iff _).1 h
        rw [(createKey_inj he).2]; exact hc
      · exact absurd h (hfresh q)
    · intro hc
      exact Or.inl ((hI.new_iff _).2 ⟨q, hq, rfl, hc⟩)
  have hrec : ∀ q ∈ all, oppAt mm r q ≠ 0 → oppAt mm r q = p → oppAt mm r p = q := by
    intro q hq h0 he
    have := (hwf.paired q hq h0).2.2
    rw [he] at this; exact this
  have hlen1 : ((done ++ [p]).length : Int) = done.length + 1 := by simp
  by_cases hc : Consumed mm r done p
  · have hks : createKey r p ∈ st.seen := (hk p hpall).2 hc
    have hcp : oppAt mm r p ≠ 0 ∧ oppAt mm r p ∈ done := by
      rcases hc with h | h
      · exact absurd h hpdone
      · exact h
    refine ⟨st, new, ?_, ?_⟩
    · unfold playerStep; simp only [hks, if_true]
    · refine ⟨hI.seen_eq, hI.new_nodup, ?_, ?_, hI.count_eq, hmc, hbc, ?_⟩
      · intro k
        rw [hI.new_iff]
        constructor
        · rintro ⟨q, hq, he, hcq⟩
          exact ⟨q, hq, he, consumed_snoc.2 (Or.inl hcq)⟩
        · rintro ⟨q, hq, he, hcq⟩
          refine ⟨q, hq, he, ?_⟩
          rcases consumed_snoc.1 hcq with h | h | ⟨h0, h⟩
          · exact h
          · rw [h]; exact hc
          · have := hrec q hq h0 h
            exact Or.inl (this ▸ hcp.2)
      · rw [hI.results_eq, List.filterMap_append]
        have hg : gameAt mm div r p = none := by
          unfold gameAt
          rw [hm1]
          simp only
          have hlt := hdonelt _ hcp.2
          rw [hopp] at hlt
          rw [if_neg (hopp ▸ hcp.1), if_neg (by omega)]
        simp [hg]
      · rw [hlen1]; omega
  · have hks : createKey r p ∉ st.seen := fun h => hc ((hk p hpall).1 h)
    have hkn : createKey r p ∉ new := fun h =>
      hks (by rw [hI.seen_eq]; exact List.mem_append_left _ h)
    by_cases hz : (atoi m1.Opp).1 = 0
    · refine ⟨{ st with seen := createKey r p :: st.seen,
                        byes_count := wrap64 (st.byes_count + 1) },
        createKey r p :: new, ?_, ?_⟩
      · unfold playerStep; simp only [hks, if_false, hfm1, hz, if_true]
      · have hw : wrap64 (st.byes_count + 1) = st.byes_count + 1 :=
          wrap64_id (by omega) (by omega)
        refine ⟨by simp [hI.seen_eq], List.nodup_cons.2 ⟨hkn, hI.new_nodup⟩, ?_, ?_, ?_,
          hmc, ?_, ?_⟩
        · intro k
          rw [List.mem_cons, hI.new_iff]
          constructor
          · rintro (h | ⟨q, hq, he, hcq⟩)
            · exact ⟨p, hpall, h, consumed_snoc.2 (Or.inr (Or.inl rfl))⟩
            · exact ⟨q, hq, he, consumed_snoc.2 (Or.inl hcq)⟩
          · rintro ⟨q, hq, he, hcq⟩
            rcases consumed_snoc.1 hcq with h | h | ⟨h0, h⟩
            · exact Or.inr ⟨q, hq, he, h⟩
            · exact Or.inl (h ▸ he)
            · exfalso
              have := hrec q hq h0 h
              rw [hopp, hz] at this
              exact hwf.nonzero q hq this.symm
        · show st.results = _
          rw [hI.results_eq, List.filterMap_append]
          have hg : gameAt mm div r p = none := by
            unfold gameAt
            rw [hm1]
            simp only
            rw [if_pos hz]
          simp [hg]
        · show 2 * st.match_count + wrap64 (st.byes_count + 1) = _
          rw [hw, List.length_cons]; push_cast; omega
        · show 0 ≤ wrap64 (st.byes_count + 1)
          rw [hw]; omega
        · show st.match_count + wrap64 (st.byes_count + 1) ≤ _
          rw [hw, hlen1]; omega
    · have h0 : oppAt mm r p ≠ 0 := by rw [hopp]; exact hz
      obtain ⟨hqall, hqne, hqrec⟩ := hwf.paired p hpall h0
      obtain ⟨m2, hm2⟩ := hwf.present _ hqall
      have hv := hwf.valid p hpall m1 m2 hm1 hm2 h0
      rw [hopp] at hqall hqne hqrec hm2
      have hfm2 := fetchMatch_ok_iff.2 hm2
      have hq0done : (atoi m1.Opp).1 ∉ done := by
        intro h
        exact hc (Or.inr ⟨h0, by rw [hopp]; exact h⟩)
      have hcq0 : ¬ Consumed mm r done (atoi m1.Opp).1 := by
        rintro (h | ⟨_, h⟩)
        · exact hq0done h
        · rw [hqrec] at h; exact hpdone h
      have hk2s : createKey r (atoi m1.Opp).1 ∉ st.seen := fun h =>
        hcq0 ((hk _ hqall).1 h)
      have hk2n : createKey r (atoi m1.Opp).1 ∉ new := fun h =>
        hk2s (by rw [hI.seen_eq]; exact List.mem_append_left _ h)
      have hkne : createKey r (atoi m1.Opp).1 ≠ createKey r p := fun h =>
        hqne (createKey_inj h).2
      have hk2 : createKey r (atoi m1.Opp).1 ∉ createKey r p :: st.seen := by
        intro h
        rcases List.mem_cons.1 h with h | h
        · exact hkne h
        · exact hk2s h
      have hpq : p < (atoi m1.Opp).1 := by
        have hq := hqall
        rw [hall, List.mem_append, List.mem_cons] at hq
        rcases hq with h | h | h
        · exact absurd h hq0done
        · exact absurd h hqne
        · exact hpps _ h
      have hp0 : p ≠ 0 := hwf.nonzero p hpall
      have hw : wrap64 (st.match_count + 1) = st.match_count + 1 :=
        wrap64_id (by omega) (by omega)
      refine ⟨{ seen := createKey r (atoi m1.Opp).1 :: createKey r p :: st.seen
                results := st.results ++ [formatResult m1 m2 div]
                byes_count := st.byes_count
                match_count := wrap64 (st.match_count + 1) },
        createKey r (atoi m1.Opp).1 :: createKey r p :: new, ?_, ?_⟩
      · unfold playerStep
        simp only [hks, if_false, hfm1, hz, hk2, hfm2, validateBoards, hv.1, if_true,
          validateStarts_of_ok hv.2]
      · refine ⟨by simp [hI.seen_eq], ?_, ?_, ?_, ?_, ?_, hbc, ?_⟩
        · refine List.nodup_cons.2 ⟨?_, List.nodup_cons.2 ⟨hkn, hI.new_nodup⟩⟩
          intro h
          rcases List.mem_cons.1 h with h | h
          · exact hkne h
          · exact hk2n h
        · intro k
          rw [List.mem_cons, List.mem_cons, hI.new_iff]
          constructor
          · rintro (h | h | ⟨q, hq, he, hcq⟩)
            · refine ⟨_, hqall, h, consumed_snoc.2 (Or.inr (Or.inr ?_))⟩
              rw [hqrec]; exact ⟨hp0, rfl⟩
            · exact ⟨p, hpall, h, consumed_snoc.2 (Or.inr (Or.inl rfl))⟩
            · exact ⟨q, hq, he, consumed_snoc.2 (Or.inl hcq)⟩
          · rintro ⟨q, hq, he, hcq⟩
            rcases consumed_snoc.1 hcq with h | h | ⟨h0', h⟩
            · exact Or.inr (Or.inr ⟨q, hq, he, h⟩)
            · exact Or.inr (Or.inl (h ▸ he))
            · have := hrec q hq h0' h
              rw [hopp] at this
              exact Or.inl (this ▸ he)
        · show st.results ++ [formatResult m1 m2 div] = _
          rw [hI.results_eq, List.filterMap_append]
          have hg : gameAt mm div r p = some (formatResult m1 m2 div) := by
            unfold gameAt
            rw [hm1]
            simp only
            rw [if_neg hz, if_pos hpq, hm2]
          simp [hg]
        · show 2 * wrap64 (st.match_count + 1) + st.byes_count = _
          rw [hw]; simp only [List.length_cons]; push_cast; omega
        · show 0 ≤ wrap64 (st.match_count + 1)
          rw [hw]; omega
        · show wrap64 (st.match_count + 1) + st.byes_count ≤ _
          rw [hw, hlen1]; omega

/-- The player loop of a well-formed round ends without a fatal error. -/
theorem wround_loop {mm : Matches} {div : GoString} {r : Int} {all : List Int}
    {seen₀ : List GoString} {results₀ : List Result}
    (hwf : RoundWF mm r all) (hfresh : ∀ q, createKey r q ∉ seen₀)
    (hlen : (all.length : Int) ≤ maxInt64 - 1) :
    ∀ (ps done : List Int) (st : RoundState) (new : List GoString),
      all = done ++ ps → WRoundInv mm div r all seen₀ results₀ done st new →
      ∃ st' new', playerLoop mm div r ps st = Except.ok st' ∧
        WRoundInv mm div r all seen₀ results₀ all st' new' := by
  intro ps
  induction ps with
  | nil =>
    intro done st new hall hI
    rw [List.append_nil] at hall
    exact ⟨st, new, rfl, hall ▸ hI⟩
  | cons p ps ih =>
    intro done st new hall hI
    obtain ⟨st1, new1, hs1, hI1⟩ := wround_step hall hwf hfresh hlen hI
    obtain ⟨st', new', hs', hI'⟩ := ih (done ++ [p]) st1 new1 (by rw [hall]; simp) hI1
    refine ⟨st', new', ?_, hI'⟩
    simp only [playerLoop, hs1, hs']

theorem forRange_length_eq {n : Int} (h0 : 0 ≤ n) (h1 : n < maxInt64) :
    ((forRange n).length : Int) = n := by
  unfold forRange
  unfold maxInt64 at h1
  rw [List.length_map, List.length_range, wrap64_id (by omega) (by omega)]
  omega

/-- All slots of a finished well-formed round are marked, each once. -/
theorem WRoundInv.length_new {mm : Matches} {div : GoString} {r : Int} {all : List Int}
    {seen₀ : List GoString} {results₀ : List Result} {st : RoundState}
    {new : List GoString} (hwf : RoundWF mm r all)
    (hI : WRoundInv mm div r all seen₀ results₀ all st new) : new.length = all.length := by
  have hnd : (all.map (createKey r)).Nodup := by
    apply List.Nodup.map
    · intro a b h; exact (createKey_inj h).2
    · exact List.Pairwise.imp (fun h => ne_of_lt h) hwf.sorted
  have hperm : new.Perm (all.map (createKey r)) := by
    rw [List.perm_ext_iff_of_nodup hI.new_nodup hnd]
    intro k
    rw [hI.new_iff, List.mem_map]
    constructor
    · rintro ⟨q, hq, he, _⟩; exact ⟨q, hq, he.symm⟩
    · rintro ⟨q, hq, he⟩; exact ⟨q, hq, he.symm, Or.inl hq⟩
  rw [hperm.length_eq, List.length_map]

/-- A well-formed round: the body of the round loop ends without a fatal error, adds
the games of the round, prints nothing and leaves counters that add up. -/
theorem wround_roundStep {mm : Matches} {div : GoString} {np r : Int} {rs : RunState}
    (hnp0 : 0 ≤ np) (hnp : np < maxInt64)
    (hwf : RoundWF mm r (forRange np)) (hfresh : ∀ q, createKey r q ∉ rs.seen) :
    ∃ rs' c, roundStep mm div np rs r = Except.ok rs' ∧
      rs'.results = rs.results ++ (forRange np).filterMap (gameAt mm div r) ∧
      rs'.printed = rs.printed ∧ rs'.counts = rs.counts ++ [c] ∧ c.round = r ∧
      2 * c.match_count + c.byes_count = np ∧
      ∀ k ∈ rs'.seen, k ∈ rs.seen ∨ ∃ q, k = createKey r q := by
  have hlen := forRange_length np
  obtain ⟨st, new, hst, hI⟩ := wround_loop hwf hfresh hlen (forRange np) [] _ []
    (by simp) (wround_init mm div r (forRange np) rs.seen rs.results)
  have hcount : 2 * st.match_count + st.byes_count = np := by
    rw [hI.count_eq, hI.length_new hwf, forRange_length_eq hnp0 hnp]
  have hsf : sanityFails st.match_count st.byes_count np = false := by
    rw [Bool.eq_false_iff]
    intro h
    exact (sanityFails_iff hI.match_nonneg hI.byes_nonneg hI.count_le hlen hnp0
      (le_of_lt hnp)).1 h hcount
  refine ⟨_, { round := r, match_count := st.match_count, byes_count := st.byes_count },
    by unfold roundStep; rw [hst], ?_, ?_, rfl, rfl, hcount, ?_⟩
  · exact hI.results_eq
  · show (if sanityFails st.match_count st.byes_count np = true then _ else _) = _
    rw [hsf]; rfl
  · intro k hk
    change k ∈ st.seen at hk
    rw [hI.seen_eq, List.mem_append] at hk
    rcases hk with h | h
    · obtain ⟨q, _, he, _⟩ := (hI.new_iff k).1 h
      exact Or.inr ⟨q, he⟩
    · exact Or.inl h

theorem expectedResults_snoc (mm : Matches) (div : GoString) (ps done : List Int) (r : Int) :
    expectedResults mm div ps (done ++ [r]) =
      expectedResults mm div ps done ++ ps.filterMap (gameAt mm div r) := by
  induction done with
  | nil => simp [expectedResults]
  | cons a done ih => simp [expectedResults, ih]

theorem wrun_init (mm : Matches) (div : GoString) (np : Int) :
    WRunInv mm div np [] { seen := [], results := [], printed := [], counts := [] } where
  results_eq := rfl
  printed_eq := rfl
  rounds_eq := rfl
  counts := by simp
  seen_rounds := by simp

/-- The round loop of a well-formed ledger ends without a fatal error. -/
theorem wrun_loop (mm : Matches) (div : GoString) {np : Int}
    (hnp0 : 0 ≤ np) (hnp : np < maxInt64) :
    ∀ (rounds done : List Int) (rs : RunState), (done ++ rounds).Nodup →
      (∀ r ∈ rounds, RoundWF mm r (forRange np)) → WRunInv mm div np done rs →
      ∃ rs', roundLoop mm div np rounds rs = Except.ok rs' ∧
        WRunInv mm div np (done ++ rounds) rs' := by
  intro rounds
  induction rounds with
  | nil =>
    intro done rs _ _ hI
    exact ⟨rs, rfl, by simpa using hI⟩
  | cons r rounds ih =>
    intro done rs hnd hwf hI
    have hr : r ∉ done := fun hr =>
      (List.nodup_append.1 hnd).2.2 hr (List.mem_cons_self _ _)
    have hfresh : ∀ q, createKey r q ∉ rs.seen := by
      intro q hq
      obtain ⟨r', hr', q', he⟩ := hI.seen_rounds _ hq
      exact hr ((createKey_inj he).1 ▸ hr')
    obtain ⟨rs1, c, hs1, hres, hpr, hcs, hcr, hcc, hsn⟩ :=
      wround_roundStep hnp0 hnp (hwf r (List.mem_cons_self _ _)) hfresh
    have hI1 : WRunInv mm div np (done ++ [r]) rs1 := by
      refine ⟨?_, ?_, ?_, ?_, ?_⟩
      · rw [hres, hI.results_eq, expectedResults_snoc]
      · rw [hpr, hI.printed_eq]
      · rw [hcs, List.map_append, hI.rounds_eq, List.map_singleton, hcr]
      · intro c' hc'
        rw [hcs] at hc'
        rcases List.mem_append.1 hc' with h | h
        · exact hI.counts c' h
        · simp only [List.mem_singleton] at h
          rw [h]; exact hcc
      · intro k hk
        rcases hsn k hk with h | ⟨q, he⟩
        · obtain ⟨r', hr', q', he⟩ := hI.seen_rounds k h
          exact ⟨r', List.mem_append_left _ hr', q', he⟩
        · exact ⟨r, by simp, q, he⟩
    have hassoc : done ++ r :: rounds = (done ++ [r]) ++ rounds := by simp
    obtain ⟨rs', hs', hI'⟩ := ih (done ++ [r]) rs1 (hassoc ▸ hnd)
      (fun x hx => hwf x (List.mem_cons_of_mem _ hx)) hI1
    refine ⟨rs', ?_, hassoc ▸ hI'⟩
    simp only [roundLoop, hs1, hs']

theorem mem_forRange_iff {n p : Int} (h0 : 0 ≤ n) (h1 : n < maxInt64) :
    p ∈ forRange n ↔ 1 ≤ p ∧ p ≤ n := by
  rw [mem_forRange]
  unfold maxInt64 at h1
  rw [wrap64_id (by omega) (by omega)]
  omega

theorem forRange_eq_upTo {n : Int} (h0 : 0 ≤ n) (h1 : n < maxInt64) : forRange n = upTo n := by
  unfold forRange upTo
  unfold maxInt64 at h1
  rw [wrap64_id (by omega) (by omega)]
  congr 2
  omega

theorem forRange_maxInt64 : forRange maxInt64 = [] := rfl

theorem mem_upTo {n p : Int} : p ∈ upTo n ↔ 1 ≤ p ∧ p ≤ n := by
  unfold upTo
  simp only [List.mem_map, List.mem_range]
  constructor
  · rintro ⟨i, hi, rfl⟩
    omega
  · rintro ⟨h1, h2⟩
    exact ⟨(p - 1).toNat, by omega, by omega⟩

theorem upTo_nodup (n : Int) : (upTo n).Nodup := by
  unfold upTo
  apply List.Nodup.map _ (List.nodup_range _)
  intro a b h
  simpa using h

theorem upTo_length (n : Int) : (upTo n).length = n.toNat := by
  unfold upTo
  rw [List.length_map, List.length_range]

theorem expectedResults_no_players (mm : Matches) (div : GoString) (rounds : List Int) :
    expectedResults mm div [] rounds = [] := by
  induction rounds with
  | nil => rfl
  | cons r rounds ih => simp [expectedResults, ih]

/-- A ledger has at least as many entries as it has slots with a record. -/
theorem length_le_of_present (mm : Matches) (f : Int → GoString)
    (hf : ∀ a b, f a = f b → a = b) (l : List Int) (hl : l.Nodup)
    (hp : ∀ p ∈ l, ∃ m, lookup (f p) mm = some m) : l.length ≤ mm.length := by
  have hnd : (l.map f).Nodup := List.Nodup.map (fun a b h => hf a b h) hl
  have hsub : l.map f ⊆ mm.map Prod.fst := by
    intro k hk
    obtain ⟨p, hpl, rfl⟩ := List.mem_map.1 hk
    obtain ⟨m, hm⟩ := hp p hpl
    exact List.mem_map.2 ⟨(f p, m), lookup_mem hm, rfl⟩
  have := (List.subperm_of_subset hnd hsub).length_le
  simpa using this

/-- A round of a well-formed ledger is a well-formed round. -/
theorem roundWF_of_wellFormed {mm : Matches} {nr np r : Int} (hwf : WellFormed mm nr np)
    (hnp0 : 0 ≤ np) (hnp : np < maxInt64) (hr1 : 1 ≤ r) (hr2 : r ≤ nr) :
    RoundWF mm r (forRange np) where
  nonzero := by
    intro p hp
    have := (mem_forRange_iff hnp0 hnp).1 hp
    omega
  sorted := forRange_pairwise np
  present := by
    intro p hp
    have hp' := (mem_forRange_iff hnp0 hnp).1 hp
    obtain ⟨m, hm, _⟩ := hwf r p hr1 hr2 hp'.1 hp'.2
    exact ⟨m, hm⟩
  paired := by
    intro p hp h0
    have hp' := (mem_forRange_iff hnp0 hnp).1 hp
    obtain ⟨m, hm, hcase⟩ := hwf r p hr1 hr2 hp'.1 hp'.2
    rw [oppAt_of_lookup hm] at h0 ⊢
    rcases hcase with h | ⟨h1, h2, h3, m', hm', ho, _, _⟩
    · exact absurd h h0
    · exact ⟨(mem_forRange_iff hnp0 hnp).2 ⟨h1, h2⟩, h3, by rw [oppAt_of_lookup hm', ho]⟩
  valid := by
    intro p hp m m' hm hm' h0
    have hp' := (mem_forRange_iff hnp0 hnp).1 hp
    obtain ⟨m₀, hm₀, hcase⟩ := hwf r p hr1 hr2 hp'.1 hp'.2
    rw [hm] at hm₀
    simp only [Option.some.injEq] at hm₀
    subst hm₀
    rw [oppAt_of_lookup hm] at h0 hm'
    rcases hcase with h | ⟨_, _, _, m'', hm'', _, hb, hs⟩
    · exact absurd h h0
    · rw [hm'] at hm''
      simp only [Option.some.injEq] at hm''
      subst hm''
      exact ⟨hb, hs⟩

/-- The run of `processMatches` on a well-formed ledger. -/
theorem run_wellFormed {mm : Matches} (div : GoString) {nr np : Int}
    (hsize : mm.length < 9223372036854775807)
    (hc : countMaxRoundsPlayers mm = Except.ok (nr, np))
    (hwf : WellFormed mm nr np) :
    ∃ out, processMatchesRun mm div = Except.ok out ∧
      out.results = expectedResults mm div (upTo np) (upTo nr) ∧
      out.printed = [] ∧ out.counts.map RoundCount.round = forRange nr ∧
      ∀ c ∈ out.counts, 2 * c.match_count + c.byes_count = np := by
  obtain ⟨⟨hnr0, hnr1⟩, hnp0, hnp1⟩ := countMax_range hc
  have hmx : maxInt64 = 9223372036854775807 := rfl
  have hrun : processMatchesRun mm div =
      roundLoop mm div np (forRange nr)
        { seen := [], results := [], printed := [], counts := [] } := by
    unfold processMatchesRun; rw [hc]
  -- with a round in the ledger, the players are fewer than the largest `int`
  have hnp_lt : 1 ≤ nr → np < maxInt64 := by
    intro h1
    by_contra hge
    have hle := length_le_of_present mm (createKey 1)
      (fun a b h => (createKey_inj h).2) (upTo np) (upTo_nodup np)
      (fun p hp => by
        have hp' := mem_upTo.1 hp
        obtain ⟨m, hm, _⟩ := hwf 1 p (le_refl _) h1 hp'.1 hp'.2
        exact ⟨m, hm⟩)
    rw [upTo_length] at hle
    omega
  have hnr_lt : 1 ≤ np → nr < maxInt64 := by
    intro h1
    by_contra hge
    have hle := length_le_of_present mm (fun r => createKey r 1)
      (fun a b h => (createKey_inj h).1) (upTo nr) (upTo_nodup nr)
      (fun r hr => by
        have hr' := mem_upTo.1 hr
        obtain ⟨m, hm, _⟩ := hwf r 1 hr'.1 hr'.2 (le_refl _) h1
        exact ⟨m, hm⟩)
    rw [upTo_length] at hle
    omega
  by_cases hr0 : nr = 0
  · subst hr0
    refine ⟨_, hrun, ?_, rfl, rfl, by simp [forRange, wrap64]⟩
    · have h2 : upTo 0 = [] := rfl
      rw [h2]; rfl
  by_cases hp0 : np = 0
  · subst hp0
    have h2 : upTo 0 = [] := rfl
    have h3 : forRange 0 = [] := rfl
    by_cases hnr : nr < maxInt64
    · obtain ⟨rs', hs', hI'⟩ := wrun_loop mm div (le_refl 0) (by decide)
        (forRange nr) [] _ (by simpa using forRange_nodup nr)
        (fun r hr => by
          have hr' := (mem_forRange_iff hnr0 hnr).1 hr
          exact roundWF_of_wellFormed hwf (le_refl 0) (by decide) hr'.1 hr'.2)
        (wrun_init mm div 0)
      simp only [List.nil_append] at hI'
      refine ⟨rs', hrun.trans hs', ?_, hI'.printed_eq, hI'.rounds_eq, hI'.counts⟩
      rw [hI'.results_eq, h3, h2, expectedResults_no_players, expectedResults_no_players]
    · have hnr' : nr = maxInt64 := by omega
      subst hnr'
      refine ⟨_, hrun, ?_, rfl, rfl, by simp [forRange_maxInt64]⟩
      rw [h2, expectedResults_no_players]
  · have hnp := hnp_lt (by omega)
    have hnr := hnr_lt (by omega)
    obtain ⟨rs', hs', hI'⟩ := wrun_loop mm div hnp0 hnp
      (forRange nr) [] _ (by simpa using forRange_nodup nr)
      (fun r hr => by
        have hr' := (mem_forRange_iff hnr0 hnr).1 hr
        exact roundWF_of_wellFormed hwf hnp0 hnp hr'.1 hr'.2)
      (wrun_init mm div np)
    simp only [List.nil_append] at hI'
    refine ⟨rs', hrun.trans hs', ?_, hI'.printed_eq, hI'.rounds_eq, hI'.counts⟩
    rw [hI'.results_eq, forRange_eq_upTo hnp0 hnp, forRange_eq_upTo hnr0 hnr]

theorem ledgerPair_wellFormed : WellFormed ledgerPair 1 2 := by
  intro r p h1 h2 h3 h4
  have hr : r = 1 := by omega
  subst hr
  have hp : p = 1 ∨ p = 2 := by omega
  rcases hp with rfl | rfl
  · exact ⟨recOf "Ann" "2" 1 5 1 1, rfl, Or.inr ⟨by decide, by decide, by decide,
      recOf "Bob" "1" 0 5 2 1, rfl, rfl, rfl, Or.inl ⟨rfl, rfl⟩⟩⟩
  · exact ⟨recOf "Bob" "1" 0 5 2 1, rfl, Or.inr ⟨by decide, by decide, by decide,
      recOf "Ann" "2" 1 5 1 1, rfl, rfl, rfl, Or.inr ⟨rfl, rfl⟩⟩⟩

/-- C4: on a well-formed ledger (a map of fewer than `2^63 - 1` entries, as every map in
memory is) with the bounds `(nr, np)` of `countMaxRoundsPlayers`, `processMatches` ends
without a fatal error and returns exactly the games of the ledger: for every round
`1, …, nr` in turn and every player `1, …, np` in turn whose record names a player with
a larger id, the row of the two records; nothing for a bye, and nothing a second time for
the player with the larger id. -/
theorem C4_wellformed_games (mm : Matches) (div : GoString) (nr np : Int)
    (hsize : mm.length < 9223372036854775807)
    (hc : countMaxRoundsPlayers mm = Except.ok (nr, np))
    (hwf : WellFormed mm nr np) :
    processMatches mm div = Except.ok (expectedResults mm div (upTo np) (upTo nr)) := by
  obtain ⟨out, hout, hres, _⟩ := run_wellFormed div hsize hc hwf
  unfold processMatches
  rw [hout]
  simp only [hres]

theorem C4_wellformed_games_witness :
    processMatches ledgerPair divA =
      Except.ok [{ Division := divA, Round := 1, Player1 := "Ann".toList, Score1 := 1,
                   Player2 := "Bob".toList, Score2 := 0 }] :=
  C4_wellformed_games ledgerPair divA 1 2 (by decide) rfl ledgerPair_wellFormed

/-- C8: on a well-formed ledger (a map of fewer than `2^63 - 1` entries) with the bounds
`(nr, np)` of `countMaxRoundsPlayers`, `processMatches` goes through every round of its
loop without a fatal error, at the sanity check of every round the counters satisfy
`2 * match_count + byes_count = np`, and no message is printed. -/
theorem C8_counters_add_up (mm : Matches) (div : GoString) (nr np : Int)
    (hsize : mm.length < 9223372036854775807)
    (hc : countMaxRoundsPlayers mm = Except.ok (nr, np))
    (hwf : WellFormed mm nr np) :
    ∃ out, processMatchesRun mm div = Except.ok out ∧
      out.counts.map RoundCount.round = forRange nr ∧
      (∀ c ∈ out.counts, 2 * c.match_count + c.byes_count = np) ∧ out.printed = [] := by
  obtain ⟨out, hout, _, hpr, hrounds, hcounts⟩ := run_wellFormed div hsize hc hwf
  exact ⟨out, hout, hrounds, hcounts, hpr⟩

theorem C8_counters_add_up_witness :
    ∃ out, processMatchesRun ledgerPair divA = Except.ok out ∧
      out.counts.map RoundCount.round = forRange 1 ∧
      (∀ c ∈ out.counts, 2 * c.match_count + c.byes_count = 2) ∧ out.printed = [] :=
  C8_counters_add_up ledgerPair divA 1 2 (by decide) rfl ledgerPair_wellFormed

/-! ## `parseFirstLastName` -/

theorem split_length (sep : Char) :
    ∀ (s : GoString), (split sep s).length = s.count sep + 1 := by
  intro s
  induction s with
  | nil => rfl
  | cons c cs ih =>
    unfold split
    by_cases hc : c = sep
    · subst hc
      simp [ih]
    · rw [if_neg hc]
      have hne : (c == sep) = false := by simpa using hc
      rw [List.count_cons, hne]
      cases hs : split sep cs with
      | nil => rw [hs] at ih; simp at ih
      | cons h t => rw [hs] at ih; simpa using ih

theorem trimLeft_space (s : GoString) :
    trimLeft [' '] s = s.dropWhile (fun c => decide (c = ' ')) := by
  unfold trimLeft
  congr 1
  funext c
  simp

/-- C15: `parseFirstLastName` is the reference of the specification on every string: a
name without a comma is returned unchanged; a name `L ++ "," ++ F` with exactly one
comma gives `F ++ " " ++ L` with its leading spaces removed; a name with two or more
commas gives the empty string; and "Lewis, Mackay(GM)" gives "Mackay(GM) Lewis". -/
theorem C15_name_reference :
    (∀ name : GoString, ',' ∉ name → parseFirstLastName name = name) ∧
    (∀ L F : GoString, ',' ∉ L → ',' ∉ F →
      parseFirstLastName (L ++ ',' :: F) =
        (F ++ ' ' :: L).dropWhile (fun c => decide (c = ' '))) ∧
    (∀ name : GoString, 2 ≤ name.count ',' → parseFirstLastName name = []) ∧
    parseFirstLastName "Lewis, Mackay(GM)".toList = "Mackay(GM) Lewis".toList := by
  refine ⟨?_, ?_, ?_, rfl⟩
  · intro name h
    unfold parseFirstLastName
    rw [split_of_not_mem h]
  · intro L F hL hF
    unfold parseFirstLastName
    rw [split_append_sep F hL, split_of_not_mem hF]
    exact trimLeft_space _
  · intro name h
    have hlen := split_length ',' name
    unfold parseFirstLastName
    split
    · rename_i heq; rw [heq] at hlen; simp at hlen; omega
    · rename_i heq; rw [heq] at hlen; simp at hlen; omega
    · rfl

theorem dropWhile_append_of_exists {α : Type} (p : α → Bool) (rest : List α) :
    ∀ (l : List α), (∃ c ∈ l, p c = false) →
      (l ++ rest).dropWhile p = l.dropWhile p ++ rest := by
  intro l
  induction l with
  | nil => rintro ⟨c, hc, _⟩; cases hc
  | cons a l ih =>
    rintro ⟨c, hc, hp⟩
    by_cases ha : p a = true
    · simp only [List.cons_append, List.dropWhile_cons, ha, if_true]
      rcases List.mem_cons.1 hc with h | h
      · rw [h, ha] at hp; cases hp
      · exact ih ⟨c, h, hp⟩
    · simp only [List.cons_append, List.dropWhile_cons, ha]
      simp

/-- C16 fails as stated: with two spaces after the comma, both are removed, not one. -/
theorem C16_counterexample :
    parseFirstLastName "Lewis,  Mackay".toList = "Mackay Lewis".toList ∧
      parseFirstLastName "Lewis,  Mackay".toList ≠ " Mackay Lewis".toList :=
  ⟨rfl, by decide⟩

/-- C16, amended: for a name `L ++ "," ++ F` with exactly one comma, where `F` is not
made of spaces only, `parseFirstLastName` removes all the leading spaces of `F` at the
join: the result is `F'' ++ " " ++ L` with `F''` the text `F` without its leading
spaces. -/
theorem C16_all_leading_spaces_trimmed (L F : GoString) (hL : ',' ∉ L) (hF : ',' ∉ F)
    (hne : ∃ c ∈ F, c ≠ ' ') :
    parseFirstLastName (L ++ ',' :: F) =
      F.dropWhile (fun c => decide (c = ' ')) ++ ' ' :: L := by
  unfold parseFirstLastName
  rw [split_append_sep F hL, split_of_not_mem hF]
  simp only
  rw [trimLeft_space]
  apply dropWhile_append_of_exists
  obtain ⟨c, hc, hcne⟩ := hne
  exact ⟨c, hc, by simpa using hcne⟩

theorem C16_all_leading_spaces_trimmed_witness :
    parseFirstLastName ("Lewis".toList ++ ',' :: "  Mackay".toList) =
      "  Mackay".toList.dropWhile (fun c => decide (c = ' ')) ++ ' ' :: "Lewis".toList :=
  C16_all_leading_spaces_trimmed "Lewis".toList "  Mackay".toList (by decide) (by decide)
    ⟨'M', by decide, by decide⟩

/-! ## The grammar matches with six groups or not at all -/

theorem greedy_some {α : Type} (cls : Char → Bool) (k : GoString → GoString → Option α) :
    ∀ (s acc : GoString) (r : α), greedy cls k acc s = some r →
      ∃ acc' rest, k acc' rest = some r := by
  intro s
  induction s with
  | nil =>
    intro acc r h
    exact ⟨acc, [], h⟩
  | cons c cs ih =>
    intro acc r h
    unfold greedy at h
    split at h
    · split at h
      · rename_i r' hr'
        simp only [Option.some.injEq] at h
        exact ih _ _ (h ▸ hr')
      · exact ⟨acc, c :: cs, h⟩
    · exact ⟨acc, c :: cs, h⟩

theorem matchPieces_caps_length :
    ∀ (ps : List Piece) (s : GoString) (caps : List GoString) (left : GoString),
      matchPieces ps s = some (caps, left) → caps.length = capCount ps := by
  intro ps
  induction ps with
  | nil =>
    intro s caps left h
    simp only [matchPieces, Option.some.injEq, Prod.mk.injEq] at h
    rw [← h.1]; rfl
  | cons p ps ih =>
    intro s caps left h
    cases p with
    | lit c =>
      unfold matchPieces at h
      split at h
      · cases h
      · split at h
        · exact ih _ _ _ h
        · cases h
    | plus cls =>
      unfold matchPieces at h
      obtain ⟨acc, rest, hk⟩ := greedy_some _ _ _ _ _ h
      split at hk
      · cases hk
      · split at hk
        · cases hk
        · rename_i caps' left' hm
          simp only [Option.some.injEq, Prod.mk.injEq] at hk
          rw [← hk.1, List.length_cons, ih _ _ _ hm]; rfl
    | star cls =>
      unfold matchPieces at h
      obtain ⟨acc, rest, hk⟩ := greedy_some _ _ _ _ _ h
      exact ih _ _ _ hk

theorem findStringSubmatch_length (s : GoString) :
    (findStringSubmatch s).length = 0 ∨ (findStringSubmatch s).length = 7 := by
  unfold findStringSubmatch
  split
  · left; rfl
  · rename_i caps left h
    right
    rw [List.length_cons, matchPieces_caps_length _ _ _ _ h]
    rfl

theorem findStringSubmatch_cases (s : GoString) :
    findStringSubmatch s = [] ∨
      ∃ w nm idd o sc b st, findStringSubmatch s = [w, nm, idd, o, sc, b, st] := by
  rcases findStringSubmatch_length s with h | h
  · left; exact List.eq_nil_of_length_eq_zero h
  · right
    match hres : findStringSubmatch s, h with
    | [w, nm, idd, o, sc, b, st], _ => exact ⟨w, nm, idd, o, sc, b, st, rfl⟩

theorem parseResults_of_match {id : Int} {s : GoString} {mm : Matches}
    {w nm idd o sc b st : GoString}
    (h : findStringSubmatch s = [w, nm, idd, o, sc, b, st]) :
    parseResults id s mm =
      Except.ok (writeFields id (parseFirstLastName (trimRight [' '] nm))
        (fields o) (fields sc) (fields b) (fields st) mm) := by
  unfold parseResults writeFields
  simp only [h]
  rfl

/-- C12: a line that the grammar does not match is ignored: whatever the player id and
the ledger, `parseResults` returns the ledger as it was and does not fail. -/
theorem C12_no_match_ignored (id : Int) (line : GoString) (mm : Matches)
    (h : findStringSubmatch line = []) : parseResults id line mm = Except.ok mm := by
  unfold parseResults
  simp [h]

theorem C12_no_match_ignored_witness :
    parseResults 3 "Round 1 results".toList ledgerPair = Except.ok ledgerPair :=
  C12_no_match_ignored 3 "Round 1 results".toList ledgerPair rfl

/-- C13 fails as stated: the line holds a name followed by an id, `board` and `p12`, but
lacks the last `;`. The grammar does not match it, and `parseResults` returns the ledger
as it was instead of halting. -/
theorem C13_counterexample :
    (∃ rest, "Ann1 2; 1; board 5; p12 1".toList = "Ann1".toList ++ rest) ∧
      (∃ a b, "Ann1 2; 1; board 5; p12 1".toList = a ++ "board".toList ++ b) ∧
      (∃ a b, "Ann1 2; 1; board 5; p12 1".toList = a ++ "p12".toList ++ b) ∧
      findStringSubmatch "Ann1 2; 1; board 5; p12 1".toList = [] ∧
      parseResults 1 "Ann1 2; 1; board 5; p12 1".toList ledgerPair = Except.ok ledgerPair :=
  ⟨⟨" 2; 1; board 5; p12 1".toList, rfl⟩,
   ⟨"Ann1 2; 1; ".toList, " 5; p12 1".toList, rfl⟩,
   ⟨"Ann1 2; 1; board 5; ".toList, " 1".toList, rfl⟩, rfl, rfl⟩

/-- C13, amended: `parseResults` never halts with a parse error. The grammar gives no
match or a match with all its six groups, so the test for a number of values other
than 7 never succeeds: for every line, player id and ledger a ledger is returned, and
it is the given ledger whenever the grammar does not match the line, with or without
the anchor tokens in it. -/
theorem C13_never_parse_error (id : Int) (line : GoString) (mm : Matches) :
    ((findStringSubmatch line).length = 0 ∨ (findStringSubmatch line).length = 7) ∧
      (∃ mm', parseResults id line mm = Except.ok mm') ∧
      (findStringSubmatch line = [] → parseResults id line mm = Except.ok mm) := by
  refine ⟨findStringSubmatch_length line, ?_, ?_⟩
  · rcases findStringSubmatch_cases line with h | ⟨w, nm, idd, o, sc, b, st, h⟩
    · exact ⟨mm, by unfold parseResults; simp [h]⟩
    · exact ⟨_, parseResults_of_match h⟩
  · intro h
    unfold parseResults
    simp [h]

/-! ## Writes to the ledger -/

theorem lookup_setKey (k key : GoString) (m : Match) :
    ∀ (mm : Matches), lookup k (setKey key m mm) = if key = k then some m else lookup k mm := by
  intro mm
  induction mm with
  | nil => simp [setKey, lookup]
  | cons a mm ih =>
    obtain ⟨k', v⟩ := a
    unfold setKey
    by_cases h1 : k' = key
    · rw [if_pos h1]
      subst h1
      unfold lookup
      by_cases h2 : k' = k
      · simp [h2]
      · simp [h2]
    · rw [if_neg h1]
      unfold lookup
      by_cases h2 : k' = k
      · have h3 : ¬ key = k := fun h => h1 (h2.trans h.symm)
        simp [h2, h3]
      · simp only [h2, if_false]
        exact ih

theorem getOrZero_eq (key : GoString) (mm : Matches) :
    getOrZero key mm = orZero (lookup key mm) := by
  unfold getOrZero orZero
  cases lookup key mm <;> rfl

theorem slotKey_inj {id : Int} {i j : Nat} (h : slotKey id i = slotKey id j) : i = j := by
  have := (createKey_inj h).1
  omega

/-- A loop of writes leaves the keys that it does not write as they were. -/
theorem rangeLoop_lookup_other (body : Nat → GoString → Matches → Matches)
    (kf : Nat → GoString) (g : Nat → GoString → Match → Match)
    (hb : ∀ i x mm, body i x mm = setKey (kf i) (g i x (getOrZero (kf i) mm)) mm)
    (k : GoString) :
    ∀ (xs : List GoString) (i : Nat) (mm : Matches),
      (∀ j, j < xs.length → kf (i + j) ≠ k) →
      lookup k (rangeLoop body i xs mm) = lookup k mm := by
  intro xs
  induction xs with
  | nil => intro i mm _; rfl
  | cons x xs ih =>
    intro i mm h
    unfold rangeLoop
    rw [ih (i + 1) _ (fun j hj => by
      have := h (j + 1) (by simp only [List.length_cons]; omega)
      rwa [show i + (j + 1) = i + 1 + j by omega] at this)]
    rw [hb, lookup_setKey, if_neg (by simpa using h 0 (by simp))]

/-- A loop of writes with distinct keys: what the key of index `i + j` holds after it. -/
theorem rangeLoop_lookup_written (body : Nat → GoString → Matches → Matches)
    (kf : Nat → GoString) (g : Nat → GoString → Match → Match)
    (hb : ∀ i x mm, body i x mm = setKey (kf i) (g i x (getOrZero (kf i) mm)) mm)
    (hinj : ∀ i j, kf i = kf j → i = j) :
    ∀ (xs : List GoString) (i : Nat) (mm : Matches) (j : Nat), j < xs.length →
      lookup (kf (i + j)) (rangeLoop body i xs mm) =
        some (g (i + j) (xs.getD j []) (orZero (lookup (kf (i + j)) mm))) := by
  intro xs
  induction xs with
  | nil => intro i mm j hj; simp at hj
  | cons x xs ih =>
    intro i mm j hj
    unfold rangeLoop
    cases j with
    | zero =>
      rw [Nat.add_zero]
      rw [rangeLoop_lookup_other body kf g hb (kf i) xs (i + 1) _ (fun j _ he => by
        have := hinj _ _ he
        omega)]
      rw [hb, lookup_setKey, if_pos rfl, getOrZero_eq]
      rfl
    | succ j =>
      have hj' : j < xs.length := by simp only [List.length_cons] at hj; omega
      have e : i + (j + 1) = i + 1 + j := by omega
      rw [e, ih (i + 1) _ j hj', hb, lookup_setKey,
        if_neg (fun he => by have := hinj _ _ he; omega)]
      simp

/-- A loop of writes from index 0: what the key of index `j` holds after it. -/
theorem rangeLoop_lookup_key (body : Nat → GoString → Matches → Matches)
    (kf : Nat → GoString) (g : Nat → GoString → Match → Match)
    (hb : ∀ i x mm, body i x mm = setKey (kf i) (g i x (getOrZero (kf i) mm)) mm)
    (hinj : ∀ i j, kf i = kf j → i = j) (xs : List GoString) (mm : Matches) (j : Nat) :
    lookup (kf j) (rangeLoop body 0 xs mm) =
      if j < xs.length then some (g j (xs.getD j []) (orZero (lookup (kf j) mm)))
      else lookup (kf j) mm := by
  by_cases hj : j < xs.length
  · rw [if_pos hj]
    have := rangeLoop_lookup_written body kf g hb hinj xs 0 mm j hj
    simpa using this
  · rw [if_neg hj]
    apply rangeLoop_lookup_other body kf g hb
    intro j' hj' he
    have := hinj _ _ he
    omega

theorem oppBody_eq (id : Int) (name : GoString) (i : Nat) (x : GoString) (mm : Matches) :
    oppBody id name i x mm =
      setKey (slotKey id i) (oppUpd name i x (getOrZero (slotKey id i) mm)) mm := rfl

theorem scoreBody_eq (id : Int) (i : Nat) (x : GoString) (mm : Matches) :
    scoreBody id i x mm =
      setKey (slotKey id i) (scoreUpd i x (getOrZero (slotKey id i) mm)) mm := rfl

theorem boardBody_eq (id : Int) (i : Nat) (x : GoString) (mm : Matches) :
    boardBody id i x mm =
      setKey (slotKey id i) (boardUpd i x (getOrZero (slotKey id i) mm)) mm := rfl

theorem startBody_eq (id : Int) (i : Nat) (x : GoString) (mm : Matches) :
    startBody id i x mm =
      setKey (slotKey id i) (startUpd i x (getOrZero (slotKey id i) mm)) mm := rfl

/-- The record of a slot of the player after the four loops of `parseResults`. -/
theorem writeFields_lookup_slot (id : Int) (name : GoString)
    (oppos scores boards starts : List GoString) (mm : Matches) (j : Nat) :
    lookup (slotKey id j) (writeFields id name oppos scores boards starts mm) =
      finalRecord name oppos scores boards starts j (lookup (slotKey id j) mm) := by
  have hinj : ∀ i j, slotKey id i = slotKey id j → i = j := fun _ _ h => slotKey_inj h
  unfold writeFields
  rw [rangeLoop_lookup_key _ _ startUpd (startBody_eq id) hinj,
    rangeLoop_lookup_key _ _ boardUpd (boardBody_eq id) hinj,
    rangeLoop_lookup_key _ _ scoreUpd (scoreBody_eq id) hinj,
    rangeLoop_lookup_key _ _ (oppUpd name) (oppBody_eq id name) hinj]
  rfl

/-- The four loops of `parseResults` leave every key that is no slot of the player as
it was. -/
theorem writeFields_lookup_other (id : Int) (name : GoString)
    (oppos scores boards starts : List GoString) (mm : Matches) (k : GoString)
    (hk : ∀ j, slotKey id j ≠ k) :
    lookup k (writeFields id name oppos scores boards starts mm) = lookup k mm := by
  unfold writeFields
  rw [rangeLoop_lookup_other _ _ startUpd (startBody_eq id) k _ _ _ (fun j _ => hk _),
    rangeLoop_lookup_other _ _ boardUpd (boardBody_eq id) k _ _ _ (fun j _ => hk _),
    rangeLoop_lookup_other _ _ scoreUpd (scoreBody_eq id) k _ _ _ (fun j _ => hk _),
    rangeLoop_lookup_other _ _ (oppUpd name) (oppBody_eq id name) k _ _ _ (fun j _ => hk _)]

/-! ## What `parseResults` stores -/

theorem finalRecord_of_lt {name : GoString} {oppos scores boards starts : List GoString}
    {i : Nat} (old : Option Match) (hi : i < oppos.length) :
    finalRecord name oppos scores boards starts i old =
      some { Name := name, Round := (i : Int) + 1, Opp := oppos.getD i [],
             Score := tokenValue scores i, Table := tokenValue boards i,
             Start := tokenValue starts i } := by
  unfold finalRecord tokenValue
  simp only [hi, if_true]
  by_cases h1 : i < scores.length <;> by_cases h2 : i < boards.length <;>
    by_cases h3 : i < starts.length <;> simp [h1, h2, h3, orZero]

theorem finalRecord_of_ge {name : GoString} {oppos scores boards starts : List GoString}
    {i : Nat} (old : Option Match) (h0 : oppos.length ≤ i) (h1 : scores.length ≤ i)
    (h2 : boards.length ≤ i) (h3 : starts.length ≤ i) :
    finalRecord name oppos scores boards starts i old = old := by
  unfold finalRecord
  simp [Nat.not_lt.2 h0, Nat.not_lt.2 h1, Nat.not_lt.2 h2, Nat.not_lt.2 h3]

/-- C11: for a line that the grammar matches, with the groups `nm` (name), `idd` (id
digits), `o`, `sc`, `b`, `st` (opponents, scores, boards, starts), `parseResults` returns
a ledger in which, for every round `r = i + 1` up to the number of opponent tokens, the
slot `(r, id)` of the player id given as argument (the digits `idd` are not used) holds
the normalised name, `Round = r`, the opponent token of index `i`, and as `Score`,
`Table`, `Start` the integer values of the tokens of index `i` of the three other
lists, or 0 where a list is shorter. -/
theorem C11_slots_after_parse (id : Int) (line : GoString) (mm : Matches)
    (w nm idd o sc b st : GoString)
    (h : findStringSubmatch line = [w, nm, idd, o, sc, b, st]) :
    ∃ mm', parseResults id line mm = Except.ok mm' ∧
      ∀ i : Nat, i < (fields o).length →
        lookup (createKey ((i : Int) + 1) id) mm' =
          some { Name := parseFirstLastName (trimRight [' '] nm), Round := (i : Int) + 1,
                 Opp := (fields o).getD i [], Score := tokenValue (fields sc) i,
                 Table := tokenValue (fields b) i, Start := tokenValue (fields st) i } := by
  refine ⟨_, parseResults_of_match h, ?_⟩
  intro i hi
  have := writeFields_lookup_slot id (parseFirstLastName (trimRight [' '] nm))
    (fields o) (fields sc) (fields b) (fields st) mm i
  rw [finalRecord_of_lt _ hi] at this
  exact this

theorem C11_slots_after_parse_witness :
    ∃ mm', parseResults 1 "Lewis, Mackay3 2 1; 1; board 5 6; p12 1 2;".toList [] =
        Except.ok mm' ∧
      ∀ i : Nat, i < (fields "2 1".toList).length →
        lookup (createKey ((i : Int) + 1) 1) mm' =
          some { Name := parseFirstLastName (trimRight [' '] "Lewis, Mackay".toList),
                 Round := (i : Int) + 1,
                 Opp := (fields "2 1".toList).getD i [],
                 Score := tokenValue (fields "1".toList) i,
                 Table := tokenValue (fields "5 6".toList) i,
                 Start := tokenValue (fields "1 2".toList) i } :=
  C11_slots_after_parse 1 "Lewis, Mackay3 2 1; 1; board 5 6; p12 1 2;".toList []
    "Lewis, Mackay3 2 1; 1; board 5 6; p12 1 2;".toList "Lewis, Mackay".toList "3".toList
    "2 1".toList "1".toList "5 6".toList "1 2".toList rfl

theorem count_dropWhile_space (l : GoString) :
    (l.dropWhile (fun c => decide (c ∈ [' ']))).count ',' = l.count ',' := by
  induction l with
  | nil => rfl
  | cons a l ih =>
    by_cases ha : a = ' '
    · subst ha
      simp only [List.dropWhile_cons, List.mem_singleton, decide_True, if_true]
      have hne : ((' ' : Char) == ',') = false := by decide
      rw [List.count_cons, hne]
      simpa using ih
    · simp [List.dropWhile_cons, ha]

theorem count_trimRight (l : GoString) : (trimRight [' '] l).count ',' = l.count ',' := by
  unfold trimRight
  rw [List.count_reverse, count_dropWhile_space, List.count_reverse]

/-- C14 fails as stated: the grammar matches the line with the name `a,b,c`, which has
two commas. `parseResults` does not halt: it stores the record of round 1 with the empty
name. -/
theorem C14_counterexample :
    (findStringSubmatch "a,b,c1 2; 1; board 5; p12 1;".toList).getD 1 [] = "a,b,c".toList ∧
      parseResults 1 "a,b,c1 2; 1; board 5; p12 1;".toList [] =
        Except.ok [("1-1".toList,
          { Name := [], Opp := "2".toList, Score := 1, Table := 5, Start := 1, Round := 1 })] :=
  ⟨rfl, rfl⟩

/-- C14, amended: for a line that the grammar matches with more than one comma in the
name, `parseResults` does not fail: it returns a ledger in which every slot `(r, id)`,
for `r` up to the number of opponent tokens, holds a record with the empty name. -/
theorem C14_empty_name_stored (id : Int) (line : GoString) (mm : Matches)
    (w nm idd o sc b st : GoString)
    (h : findStringSubmatch line = [w, nm, idd, o, sc, b, st])
    (hc : 2 ≤ nm.count ',') :
    ∃ mm', parseResults id line mm = Except.ok mm' ∧
      ∀ i : Nat, i < (fields o).length →
        ∃ m, lookup (createKey ((i : Int) + 1) id) mm' = some m ∧ m.Name = [] := by
  refine ⟨_, parseResults_of_match h, ?_⟩
  intro i hi
  have := writeFields_lookup_slot id (parseFirstLastName (trimRight [' '] nm))
    (fields o) (fields sc) (fields b) (fields st) mm i
  rw [finalRecord_of_lt _ hi] at this
  refine ⟨_, this, ?_⟩
  have hlen := split_length ',' (trimRight [' '] nm)
  rw [count_trimRight] at hlen
  show parseFirstLastName (trimRight [' '] nm) = []
  unfold parseFirstLastName
  split
  · rename_i heq; rw [heq] at hlen; simp at hlen; omega
  · rename_i heq; rw [heq] at hlen; simp at hlen; omega
  · rfl

theorem C14_empty_name_stored_witness :
    ∃ mm', parseResults 1 "a,b,c1 2; 1; board 5; p12 1;".toList [] = Except.ok mm' ∧
      ∀ i : Nat, i < (fields "2".toList).length →
        ∃ m, lookup (createKey ((i : Int) + 1) 1) mm' = some m ∧ m.Name = [] :=
  C14_empty_name_stored 1 "a,b,c1 2; 1; board 5; p12 1;".toList []
    "a,b,c1 2; 1; board 5; p12 1;".toList "a,b,c".toList "1".toList "2".toList "1".toList
    "5".toList "1".toList rfl (by decide)

/-- C20: `parseResults` changes only slots of the player `id`: a key that is not
`createKey r id` for a round `r` from 1 on holds after the call what it held before,
a record or nothing. -/
theorem C20_other_keys_unchanged (id : Int) (line : GoString) (mm mm' : Matches)
    (h : parseResults id line mm = Except.ok mm') (k : GoString)
    (hk : ∀ r : Int, 1 ≤ r → k ≠ createKey r id) :
    lookup k mm' = lookup k mm := by
  rcases findStringSubmatch_cases line with h0 | ⟨w, nm, idd, o, sc, b, st, h7⟩
  · have : parseResults id line mm = Except.ok mm := by unfold parseResults; simp [h0]
    rw [this] at h
    simp only [Except.ok.injEq] at h
    rw [h]
  · rw [parseResults_of_match h7] at h
    simp only [Except.ok.injEq] at h
    rw [← h]
    apply writeFields_lookup_other
    intro j he
    exact hk ((j : Int) + 1) (by omega) he.symm

theorem C20_other_keys_unchanged_witness :
    lookup "1-2".toList
        [("1-2".toList, recOf "Bob" "1" 0 5 2 1),
         ("1-1".toList, recOf "Ann" "2" 1 5 1 1)] =
      lookup "1-2".toList [("1-2".toList, recOf "Bob" "1" 0 5 2 1)] :=
  C20_other_keys_unchanged 1 "Ann1 2; 1; board 5; p12 1;".toList
    [("1-2".toList, recOf "Bob" "1" 0 5 2 1)]
    [("1-2".toList, recOf "Bob" "1" 0 5 2 1), ("1-1".toList, recOf "Ann" "2" 1 5 1 1)]
    rfl "1-2".toList
    (by
      intro r _ he
      have k12 : "1-2".toList = createKey 1 2 := rfl
      have := (createKey_inj (k12.symm.trans he)).2
      omega)

/-! ## The rounds of the stored records -/

/-- One line with balanced lists keeps the rounds of the records and of their keys in
step. -/
theorem keyRound_parseResults {id : Int} {line : GoString} {mm mm' : Matches}
    (hI : KeyRound mm) (hb : Balanced line)
    (h : parseResults id line mm = Except.ok mm') : KeyRound mm' := by
  rcases findStringSubmatch_cases line with h0 | ⟨w, nm, idd, o, sc, b, st, h7⟩
  · have : parseResults id line mm = Except.ok mm := by unfold parseResults; simp [h0]
    rw [this] at h
    simp only [Except.ok.injEq] at h
    exact h ▸ hI
  · rw [parseResults_of_match h7] at h
    simp only [Except.ok.injEq] at h
    subst h
    unfold Balanced at hb
    rw [h7] at hb
    simp only [List.getD_cons_succ, List.getD_cons_zero] at hb
    obtain ⟨hb1, hb2, hb3⟩ := hb
    intro k m hkm
    by_cases hex : ∃ j, slotKey id j = k
    · obtain ⟨j, rfl⟩ := hex
      rw [writeFields_lookup_slot] at hkm
      by_cases hj : j < (fields o).length
      · rw [finalRecord_of_lt _ hj] at hkm
        simp only [Option.some.injEq] at hkm
        refine ⟨(j : Int) + 1, id, by omega, rfl, ?_⟩
        rw [← hkm]
      · rw [finalRecord_of_ge _ (by omega) (by omega) (by omega) (by omega)] at hkm
        exact hI _ _ hkm
    · rw [writeFields_lookup_other _ _ _ _ _ _ _ _ (fun j he => hex ⟨j, he⟩)] at hkm
      exact hI _ _ hkm

theorem processLines_total :
    ∀ (lines : List GoString) (i : Nat) (mm : Matches),
      ∃ mm', processLines i lines mm = Except.ok mm' := by
  intro lines
  induction lines with
  | nil => intro i mm; exact ⟨mm, rfl⟩
  | cons l lines ih =>
    intro i mm
    have htot : ∃ mm1, parseResults ((i : Int) + 1) l mm = Except.ok mm1 := by
      rcases findStringSubmatch_cases l with h | ⟨w, nm, idd, o, sc, b, st, h⟩
      · exact ⟨mm, by unfold parseResults; simp [h]⟩
      · exact ⟨_, parseResults_of_match h⟩
    obtain ⟨mm1, h1⟩ := htot
    obtain ⟨mm', h'⟩ := ih (i + 1) mm1
    exact ⟨mm', by simp only [processLines, h1, h']⟩

theorem keyRound_processLines :
    ∀ (lines : List GoString) (i : Nat) (mm mm' : Matches),
      (∀ l ∈ lines, Balanced l) → KeyRound mm →
      processLines i lines mm = Except.ok mm' → KeyRound mm' := by
  intro lines
  induction lines with
  | nil =>
    intro i mm mm' _ hI h
    simp only [processLines, Except.ok.injEq] at h
    exact h ▸ hI
  | cons l lines ih =>
    intro i mm mm' hb hI h
    unfold processLines at h
    split at h
    · cases h
    · rename_i mm1 h1
      exact ih (i + 1) mm1 mm' (fun x hx => hb x (List.mem_cons_of_mem _ hx))
        (keyRound_parseResults hI (hb l (List.mem_cons_self _ _)) h1) h

/-- C19 fails as stated: the line has one opponent token and two score tokens. The
loop over the scores creates the record of round 2 from the zero value, and it is
stored under the key of slot `(2, 1)` with `Round = 0`. -/
theorem C19_counterexample :
    processLines 0 ["Ann1 2; 1 0; board 5; p12 1;".toList] [] =
        Except.ok
          [("1-1".toList,
             { Name := "Ann".toList, Opp := "2".toList, Score := 1, Table := 5, Start := 1,
               Round := 1 }),
           ("2-1".toList,
             { Name := [], Opp := [], Score := 0, Table := 0, Start := 0, Round := 0 })] ∧
      lookup (createKey 2 1)
          [("1-1".toList,
             { Name := "Ann".toList, Opp := "2".toList, Score := 1, Table := 5, Start := 1,
               Round := 1 }),
           ("2-1".toList,
             { Name := [], Opp := [], Score := 0, Table := 0, Start := 0, Round := 0 })] =
        some { Name := [], Opp := [], Score := 0, Table := 0, Start := 0, Round := 0 } :=
  ⟨rfl, rfl⟩

/-- C19, amended: let the score, board and start lists of every line be no longer than
its opponent list. Then parsing the lines from the empty ledger, each with its position
as player id, ends with a ledger in which every record is stored under the key of a
slot `(r, p)` with `r ≥ 1` and carries `Round = r`. -/
theorem C19_rounds_match_keys (lines : List GoString) (hb : ∀ l ∈ lines, Balanced l) :
    ∃ mm, processLines 0 lines [] = Except.ok mm ∧
      ∀ k m, lookup k mm = some m →
        ∃ r p : Int, 1 ≤ r ∧ k = createKey r p ∧ m.Round = r := by
  obtain ⟨mm, h⟩ := processLines_total lines 0 []
  refine ⟨mm, h, ?_⟩
  exact keyRound_processLines lines 0 [] mm hb (by intro k m hk; cases hk) h

theorem C19_rounds_match_keys_witness :
    ∃ mm, processLines 0 ["Ann1 2; 1; board 5; p12 1;".toList, "".toList,
        "Bob2 1; 0; board 5; p12 2;".toList] [] = Except.ok mm ∧
      ∀ k m, lookup k mm = some m →
        ∃ r p : Int, 1 ≤ r ∧ k = createKey r p ∧ m.Round = r :=
  C19_rounds_match_keys ["Ann1 2; 1; board 5; p12 1;".toList, "".toList,
      "Bob2 1; 0; board 5; p12 2;".toList]
    (by
      intro l hl
      simp only [List.mem_cons, List.mem_singleton, List.not_mem_nil, or_false] at hl
      rcases hl with rfl | rfl | rfl <;> exact ⟨by decide, by decide, by decide⟩)

/-! ## Parsing a line twice -/

theorem mem_keys_iff {k : GoString} :
    ∀ {mm : Matches}, k ∈ mm.map Prod.fst ↔ ∃ m, lookup k mm = some m := by
  intro mm
  induction mm with
  | nil => simp [lookup]
  | cons a mm ih =>
    obtain ⟨k', v⟩ := a
    simp only [List.map_cons, List.mem_cons]
    unfold lookup
    by_cases h : k' = k
    · simp [h]
    · have h' : ¬ k = k' := fun e => h e.symm
      simp only [h, h', if_false, false_or]
      exact ih

theorem mem_keys_setKey {k key : GoString} {m : Match} {mm : Matches} :
    k ∈ (setKey key m mm).map Prod.fst ↔ k = key ∨ k ∈ mm.map Prod.fst := by
  rw [mem_keys_iff, mem_keys_iff]
  simp only [lookup_setKey]
  by_cases h : key = k
  · simp [h]
  · have h' : ¬ k = key := fun e => h e.symm
    simp [h, h']

theorem keys_setKey_of_mem {key : GoString} {m : Match} :
    ∀ {mm : Matches}, key ∈ mm.map Prod.fst →
      (setKey key m mm).map Prod.fst = mm.map Prod.fst := by
  intro mm
  induction mm with
  | nil => intro h; cases h
  | cons a mm ih =>
    intro h
    obtain ⟨k', v⟩ := a
    unfold setKey
    by_cases hk : k' = key
    · simp [hk]
    · simp only [hk, if_false, List.map_cons, List.cons.injEq, true_and]
      apply ih
      simp only [List.map_cons, List.mem_cons] at h
      rcases h with h | h
      · exact absurd h.symm hk
      · exact h

theorem nodup_keys_setKey {key : GoString} {m : Match} :
    ∀ {mm : Matches}, (mm.map Prod.fst).Nodup → ((setKey key m mm).map Prod.fst).Nodup := by
  intro mm
  induction mm with
  | nil => intro _; simp [setKey]
  | cons a mm ih =>
    intro h
    obtain ⟨k', v⟩ := a
    simp only [List.map_cons, List.nodup_cons] at h
    unfold setKey
    by_cases hk : k' = key
    · simp only [hk, if_true, List.map_cons, List.nodup_cons]
      exact ⟨hk ▸ h.1, h.2⟩
    · simp only [hk, if_false, List.map_cons, List.nodup_cons]
      refine ⟨?_, ih h.2⟩
      intro hm
      rcases mem_keys_setKey.1 hm with e | e
      · exact hk e
      · exact h.1 e

theorem rangeLoop_keys (body : Nat → GoString → Matches → Matches)
    (kf : Nat → GoString) (g : Nat → GoString → Match → Match)
    (hb : ∀ i x mm, body i x mm = setKey (kf i) (g i x (getOrZero (kf i) mm)) mm) :
    ∀ (xs : List GoString) (i : Nat) (mm : Matches),
      (∀ j, j < xs.length → kf (i + j) ∈ mm.map Prod.fst) →
      (rangeLoop body i xs mm).map Prod.fst = mm.map Prod.fst := by
  intro xs
  induction xs with
  | nil => intro i mm _; rfl
  | cons x xs ih =>
    intro i mm h
    unfold rangeLoop
    have h0 : kf i ∈ mm.map Prod.fst := by simpa using h 0 (by simp)
    have hk : (body i x mm).map Prod.fst = mm.map Prod.fst := by
      rw [hb]; exact keys_setKey_of_mem h0
    rw [ih (i + 1) _ (fun j hj => by
      rw [hk]
      have := h (j + 1) (by simp only [List.length_cons]; omega)
      rwa [show i + (j + 1) = i + 1 + j by omega] at this)]
    exact hk

theorem rangeLoop_nodup (body : Nat → GoString → Matches → Matches)
    (kf : Nat → GoString) (g : Nat → GoString → Match → Match)
    (hb : ∀ i x mm, body i x mm = setKey (kf i) (g i x (getOrZero (kf i) mm)) mm) :
    ∀ (xs : List GoString) (i : Nat) (mm : Matches), (mm.map Prod.fst).Nodup →
      ((rangeLoop body i xs mm).map Prod.fst).Nodup := by
  intro xs
  induction xs with
  | nil => intro i mm h; exact h
  | cons x xs ih =>
    intro i mm h
    unfold rangeLoop
    apply ih
    rw [hb]
    exact nodup_keys_setKey h

theorem writeFields_nodup (id : Int) (name : GoString)
    (oppos scores boards starts : List GoString) (mm : Matches)
    (h : (mm.map Prod.fst).Nodup) :
    ((writeFields id name oppos scores boards starts mm).map Prod.fst).Nodup := by
  unfold writeFields
  exact rangeLoop_nodup _ _ startUpd (startBody_eq id) _ _ _
    (rangeLoop_nodup _ _ boardUpd (boardBody_eq id) _ _ _
      (rangeLoop_nodup _ _ scoreUpd (scoreBody_eq id) _ _ _
        (rangeLoop_nodup _ _ (oppUpd name) (oppBody_eq id name) _ _ _ h)))

/-- Two ledgers with the same keys in the same order, each once, and the same record
under every key are equal. -/
theorem ledger_ext :
    ∀ (l₁ l₂ : Matches), l₁.map Prod.fst = l₂.map Prod.fst → (l₁.map Prod.fst).Nodup →
      (∀ k, lookup k l₁ = lookup k l₂) → l₁ = l₂ := by
  intro l₁
  induction l₁ with
  | nil =>
    intro l₂ hk _ _
    cases l₂ with
    | nil => rfl
    | cons b l₂ => simp at hk
  | cons a l₁ ih =>
    intro l₂ hk hnd hl
    cases l₂ with
    | nil => simp at hk
    | cons b l₂ =>
      obtain ⟨k, v⟩ := a
      obtain ⟨k', v'⟩ := b
      simp only [List.map_cons, List.cons.injEq] at hk
      obtain ⟨hkk, hkeys⟩ := hk
      subst hkk
      simp only [List.map_cons, List.nodup_cons] at hnd
      have hv : v = v' := by
        have := hl k
        simpa [lookup] using this
      subst hv
      congr 1
      apply ih l₂ hkeys hnd.2
      intro x
      by_cases hx : k = x
      · subst hx
        have n1 : lookup k l₁ = none := by
          cases h : lookup k l₁ with
          | none => rfl
          | some m => exact absurd (mem_keys_iff.2 ⟨m, h⟩) hnd.1
        have n2 : lookup k l₂ = none := by
          cases h : lookup k l₂ with
          | none => rfl
          | some m => exact absurd (hkeys ▸ mem_keys_iff.2 ⟨m, h⟩) hnd.1
        rw [n1, n2]
      · have := hl x
        simpa [lookup, hx] using this

theorem finalRecord_idem (name : GoString) (oppos scores boards starts : List GoString)
    (i : Nat) (old : Option Match) :
    finalRecord name oppos scores boards starts i
        (finalRecord name oppos scores boards starts i old) =
      finalRecord name oppos scores boards starts i old := by
  unfold finalRecord
  by_cases h0 : i < oppos.length <;> by_cases h1 : i < scores.length <;>
    by_cases h2 : i < boards.length <;> by_cases h3 : i < starts.length <;>
    cases old <;> simp [h0, h1, h2, h3, orZero, zeroMatch]

theorem finalRecord_isSome (name : GoString) (oppos scores boards starts : List GoString)
    (i : Nat) (old : Option Match)
    (h : i < oppos.length ∨ i < scores.length ∨ i < boards.length ∨ i < starts.length) :
    ∃ m, finalRecord name oppos scores boards starts i old = some m := by
  unfold finalRecord
  by_cases h0 : i < oppos.length <;> by_cases h1 : i < scores.length <;>
    by_cases h2 : i < boards.length <;> by_cases h3 : i < starts.length <;>
    simp [h0, h1, h2, h3] at h ⊢

/-- The four loops of `parseResults`, run a second time on their own result, change
nothing. -/
theorem writeFields_idem (id : Int) (name : GoString)
    (oppos scores boards starts : List GoString) (mm : Matches)
    (hnd : (mm.map Prod.fst).Nodup) :
    writeFields id name oppos scores boards starts
        (writeFields id name oppos scores boards starts mm) =
      writeFields id name oppos scores boards starts mm := by
  have hin : ∀ j, (j < oppos.length ∨ j < scores.length ∨ j < boards.length ∨
      j < starts.length) →
      slotKey id j ∈ (writeFields id name oppos scores boards starts mm).map Prod.fst := by
    intro j hj
    rw [mem_keys_iff, writeFields_lookup_slot]
    exact finalRecord_isSome _ _ _ _ _ _ _ hj
  have hkeys : (writeFields id name oppos scores boards starts
      (writeFields id name oppos scores boards starts mm)).map Prod.fst =
      (writeFields id name oppos scores boards starts mm).map Prod.fst := by
    generalize hm1 : writeFields id name oppos scores boards starts mm = mm1 at hin
    unfold writeFields
    have e1 := rangeLoop_keys _ _ (oppUpd name) (oppBody_eq id name) oppos 0 mm1
      (fun j hj => by simpa using hin j (Or.inl hj))
    have e2 := rangeLoop_keys _ _ scoreUpd (scoreBody_eq id) scores 0
      (rangeLoop (oppBody id name) 0 oppos mm1)
      (fun j hj => by rw [e1]; simpa using hin j (Or.inr (Or.inl hj)))
    have e3 := rangeLoop_keys _ _ boardUpd (boardBody_eq id) boards 0
      (rangeLoop (scoreBody id) 0 scores (rangeLoop (oppBody id name) 0 oppos mm1))
      (fun j hj => by rw [e2, e1]; simpa using hin j (Or.inr (Or.inr (Or.inl hj))))
    have e4 := rangeLoop_keys _ _ startUpd (startBody_eq id) starts 0
      (rangeLoop (boardBody id) 0 boards
        (rangeLoop (scoreBody id) 0 scores (rangeLoop (oppBody id name) 0 oppos mm1)))
      (fun j hj => by rw [e3, e2, e1]; simpa using hin j (Or.inr (Or.inr (Or.inr hj))))
    rw [e4, e3, e2, e1]
  apply ledger_ext _ _ hkeys
  · rw [hkeys]; exact writeFields_nodup _ _ _ _ _ _ _ hnd
  · intro k
    by_cases hex : ∃ j, slotKey id j = k
    · obtain ⟨j, rfl⟩ := hex
      rw [writeFields_lookup_slot, writeFields_lookup_slot, finalRecord_idem]
    · rw [writeFields_lookup_other _ _ _ _ _ _ _ _ (fun j he => hex ⟨j, he⟩)]

/-- C17: parsing is idempotent: for every player id and every line, parsing the line
into the empty ledger gives a ledger, and parsing the same line with the same id into
that ledger gives exactly that ledger again. -/
theorem C17_parse_idempotent (id : Int) (line : GoString) :
    ∃ mm1, parseResults id line [] = Except.ok mm1 ∧
      parseResults id line mm1 = Except.ok mm1 := by
  rcases findStringSubmatch_cases line with h0 | ⟨w, nm, idd, o, sc, b, st, h7⟩
  · have e : ∀ mm, parseResults id line mm = Except.ok mm := by
      intro mm; unfold parseResults; simp [h0]
    exact ⟨[], e [], e []⟩
  · refine ⟨_, parseResults_of_match h7, ?_⟩
    rw [parseResults_of_match h7, writeFields_idem _ _ _ _ _ _ _ (by simp)]

/-! ## `countMaxRoundsPlayers` on keys made by `createKey` -/

theorem countKey_createKey (acc : Int × Int) {r p : Int}
    (hr : 0 ≤ r ∧ r ≤ maxInt64) (hp : 0 ≤ p ∧ p ≤ maxInt64) :
    countKey acc (createKey r p) =
      Except.ok (if r > acc.1 then r else acc.1, if p > acc.2 then p else acc.2) := by
  obtain ⟨n, rfl⟩ := Int.eq_ofNat_of_zero_le hr.1
  obtain ⟨m, rfl⟩ := Int.eq_ofNat_of_zero_le hp.1
  unfold countKey
  rw [split_createKey]
  simp only [atoi_renderNat hr.2, atoi_renderNat hp.2]

/-- The loop of `countMaxRoundsPlayers` on keys made by `createKey` from Go `int`s from
1 on: it ends without an error, with bounds above each key, each either the bound it
started with or that of a key. -/
theorem countKeys_createKey :
    ∀ (ks : List GoString) (acc : Int × Int),
      (∀ k ∈ ks, ∃ r p : Int, 1 ≤ r ∧ r ≤ maxInt64 ∧ 1 ≤ p ∧ p ≤ maxInt64 ∧
        k = createKey r p) →
      ∃ nr np, countKeys ks acc = Except.ok (nr, np) ∧ acc.1 ≤ nr ∧ acc.2 ≤ np ∧
        (∀ r p, createKey r p ∈ ks → r ≤ nr ∧ p ≤ np) ∧
        (nr = acc.1 ∨ ∃ p, createKey nr p ∈ ks) ∧
        (np = acc.2 ∨ ∃ r, createKey r np ∈ ks) := by
  intro ks
  induction ks with
  | nil =>
    intro acc _
    exact ⟨acc.1, acc.2, rfl, le_refl _, le_refl _, by simp, Or.inl rfl, Or.inl rfl⟩
  | cons k ks ih =>
    intro acc h
    obtain ⟨r, p, hr1, hr2, hp1, hp2, rfl⟩ := h k (List.mem_cons_self _ _)
    have hk : countKey acc (createKey r p) =
        Except.ok (if r > acc.1 then r else acc.1, if p > acc.2 then p else acc.2) :=
      countKey_createKey acc ⟨by omega, hr2⟩ ⟨by omega, hp2⟩
    obtain ⟨nr, np, hrun, h1, h2, hall, hnr, hnp⟩ :=
      ih (if r > acc.1 then r else acc.1, if p > acc.2 then p else acc.2)
        (fun k' hk' => h k' (List.mem_cons_of_mem _ hk'))
    simp only at h1 h2 hnr hnp
    refine ⟨nr, np, ?_, ?_, ?_, ?_, ?_, ?_⟩
    · unfold countKeys; rw [hk]; exact hrun
    · split at h1 <;> omega
    · split at h2 <;> omega
    · intro r' p' hm
      rcases List.mem_cons.1 hm with he | hm'
      · obtain ⟨e1, e2⟩ := createKey_inj he
        subst e1; subst e2
        constructor
        · split at h1 <;> omega
        · split at h2 <;> omega
      · exact hall r' p' hm'
    · rcases hnr with he | ⟨p', hp'⟩
      · by_cases hgt : r > acc.1
        · rw [if_pos hgt] at he
          exact Or.inr ⟨p, by rw [he]; exact List.mem_cons_self _ _⟩
        · rw [if_neg hgt] at he
          exact Or.inl he
      · exact Or.inr ⟨p', List.mem_cons_of_mem _ hp'⟩
    · rcases hnp with he | ⟨r', hr'⟩
      · by_cases hgt : p > acc.2
        · rw [if_pos hgt] at he
          exact Or.inr ⟨r, by rw [he]; exact List.mem_cons_self _ _⟩
        · rw [if_neg hgt] at he
          exact Or.inl he
      · exact Or.inr ⟨r', List.mem_cons_of_mem _ hr'⟩

/-- C18: on a ledger whose keys are all `createKey r p` for Go `int`s `r ≥ 1` and
`p ≥ 1`, `countMaxRoundsPlayers` does not fail. It returns `(nr, np)` with every key of
round at most `nr` and player at most `np`; for the empty ledger these are `(0, 0)`,
otherwise `nr` is the round of a key and `np` the player of a key. -/
theorem C18_bounds_are_maxima (mm : Matches)
    (h : ∀ k ∈ mm.map Prod.fst, ∃ r p : Int, 1 ≤ r ∧ r ≤ maxInt64 ∧ 1 ≤ p ∧ p ≤ maxInt64 ∧
      k = createKey r p) :
    ∃ nr np, countMaxRoundsPlayers mm = Except.ok (nr, np) ∧
      (∀ r p, createKey r p ∈ mm.map Prod.fst → r ≤ nr ∧ p ≤ np) ∧
      (mm = [] → nr = 0 ∧ np = 0) ∧
      (mm ≠ [] → (∃ p, createKey nr p ∈ mm.map Prod.fst) ∧
        (∃ r, createKey r np ∈ mm.map Prod.fst)) := by
  obtain ⟨nr, np, hrun, _, _, hall, hnr, hnp⟩ := countKeys_createKey (mm.map Prod.fst) (0, 0) h
  refine ⟨nr, np, hrun, hall, ?_, ?_⟩
  · intro he
    subst he
    simp only [List.map_nil, List.not_mem_nil, exists_false, or_false] at hnr hnp
    exact ⟨hnr, hnp⟩
  · intro hne
    obtain ⟨a, hmem⟩ := List.exists_mem_of_ne_nil mm hne
    have hk : a.1 ∈ mm.map Prod.fst := List.mem_map.2 ⟨a, hmem, rfl⟩
    obtain ⟨r, p, hr1, _, hp1, _, he⟩ := h _ hk
    have hb := hall r p (he ▸ hk)
    constructor
    · rcases hnr with h0 | h0
      · simp only at h0; omega
      · exact h0
    · rcases hnp with h0 | h0
      · simp only at h0; omega
      · exact h0

theorem C18_bounds_are_maxima_witness :
    ∃ nr np, countMaxRoundsPlayers ledgerThree = Except.ok (nr, np) ∧
      (∀ r p, createKey r p ∈ ledgerThree.map Prod.fst → r ≤ nr ∧ p ≤ np) ∧
      (ledgerThree = [] → nr = 0 ∧ np = 0) ∧
      (ledgerThree ≠ [] → (∃ p, createKey nr p ∈ ledgerThree.map Prod.fst) ∧
        (∃ r, createKey r np ∈ ledgerThree.map Prod.fst)) :=
  C18_bounds_are_maxima ledgerThree
    (by
      intro k hk
      simp only [ledgerThree, List.map_cons, List.map_nil, List.mem_cons,
        List.mem_singleton, List.not_mem_nil, or_false] at hk
      rcases hk with rfl | rfl | rfl
      · exact ⟨1, 1, by decide, by decide, by decide, by decide, rfl⟩
      · exact ⟨1, 2, by decide, by decide, by decide, by decide, rfl⟩
      · exact ⟨1, 3, by decide, by decide, by decide, by decide, rfl⟩)

end Tsh2csv
